import Mathlib

/-!
# Verification of the `common` toolkit

Shallow embedding of `atomic.h`, `spin_lock.h`, `ref_counting.h`,
`shared_ptr.h` and `scoped_ptr.h`, and the properties proved about them.

Machine integers are mathematical integers with explicit wrap-around:
an `int32` is an `Int` in `[-2^31, 2^31)`, a `uint32` is a `Nat` below `2^32`.
-/

namespace Common

/-! ## Machine integers -/

/-- Conversion of an integer to `int32` (two's-complement wrap-around). -/
def toInt32 (z : Int) : Int := (z + 2 ^ 31) % 2 ^ 32 - 2 ^ 31

/-- Conversion of an integer to `uint32` (reduction modulo `2^32`). -/
def toUint32 (z : Int) : Nat := (z % 2 ^ 32).toNat

/-- The integer is representable as an `int32`. -/
def IsInt32 (z : Int) : Prop := -(2 ^ 31) ≤ z ∧ z < 2 ^ 31

instance (z : Int) : Decidable (IsInt32 z) := by
  unfold IsInt32; exact inferInstance

/-! ## `atomic.h`: the GCC `__sync` built-ins on an `int32` word

Each built-in is one indivisible read-modify-write: it maps the word to the
pair (returned value, new word). -/

/-- Model of `__sync_add_and_fetch(&v, i)`: adds and returns the new value. -/
def sync_add_and_fetch (v i : Int) : Int × Int :=
  let n := toInt32 (v + i)
  (n, n)

/-- Model of `__sync_fetch_and_and(&v, i)`: returns the original value. -/
def sync_fetch_and_and (v i : Int) : Int × Int :=
  (v, toInt32 ((toUint32 v &&& toUint32 i : Nat) : Int))

/-- Model of `__sync_fetch_and_or(&v, i)`: returns the original value. -/
def sync_fetch_and_or (v i : Int) : Int × Int :=
  (v, toInt32 ((toUint32 v ||| toUint32 i : Nat) : Int))

/-- Model of `__sync_fetch_and_xor(&v, i)`: returns the original value. -/
def sync_fetch_and_xor (v i : Int) : Int × Int :=
  (v, toInt32 ((toUint32 v ^^^ toUint32 i : Nat) : Int))

/-- Model of `__sync_bool_compare_and_swap(&v, oldv, newv)`. -/
def sync_bool_compare_and_swap (v oldv newv : Int) : Bool × Int :=
  if v = oldv then (true, newv) else (false, v)

/-- The class `atomic_t`: one private `int32` word `_v`. -/
structure atomic_t where
  _v : Int
  deriving DecidableEq, Repr

namespace atomic_t

/-- Constructor `atomic_t(uint32 v)`: the word is initialised from `v`. -/
def new (v : Nat) : atomic_t := ⟨toInt32 v⟩

/-- Class invariant: the stored word is an `int32`. -/
def wf (a : atomic_t) : Prop := IsInt32 a._v

instance (a : atomic_t) : Decidable a.wf := by
  unfold wf; exact inferInstance

/-- Method `uint32 value()`. -/
def value (a : atomic_t) : Nat := toUint32 a._v

/-- Method `uint32 Inc()`: returned value and the cell afterwards. -/
def Inc (a : atomic_t) : Nat × atomic_t :=
  let r := sync_add_and_fetch a._v 1
  (toUint32 r.1, ⟨r.2⟩)

/-- Method `uint32 Dec()`. -/
def Dec (a : atomic_t) : Nat × atomic_t :=
  let r := sync_add_and_fetch a._v (-1)
  (toUint32 r.1, ⟨r.2⟩)

/-- Method `uint32 Add(int32 i)`. -/
def Add (a : atomic_t) (i : Int) : Nat × atomic_t :=
  let r := sync_add_and_fetch a._v i
  (toUint32 r.1, ⟨r.2⟩)

/-- Method `uint32 And(uint32 i)`; the argument is converted to the word type. -/
def And (a : atomic_t) (i : Nat) : Nat × atomic_t :=
  let r := sync_fetch_and_and a._v (toInt32 i)
  (toUint32 r.1, ⟨r.2⟩)

/-- Method `uint32 Or(uint32 i)`. -/
def Or (a : atomic_t) (i : Nat) : Nat × atomic_t :=
  let r := sync_fetch_and_or a._v (toInt32 i)
  (toUint32 r.1, ⟨r.2⟩)

/-- Method `uint32 Xor(uint32 i)`. -/
def Xor (a : atomic_t) (i : Nat) : Nat × atomic_t :=
  let r := sync_fetch_and_xor a._v (toInt32 i)
  (toUint32 r.1, ⟨r.2⟩)

/-- Method `bool CompareSwap(int32 oldv, int32 newv)`. -/
def CompareSwap (a : atomic_t) (oldv newv : Int) : Bool × atomic_t :=
  let r := sync_bool_compare_and_swap a._v oldv newv
  (r.1, ⟨r.2⟩)

end atomic_t

/-! ## `spin_lock.h` -/

/-- The class `SpinLock`: one `atomic_t` lock word. -/
structure SpinLock where
  _lock : atomic_t
  deriving DecidableEq, Repr

namespace SpinLock

/-- Constructor `SpinLock()`: the lock word is default-constructed, `atomic_t(0)`. -/
def new : SpinLock := ⟨atomic_t.new 0⟩

/-- Method `bool TryLock()`: one `CompareSwap(0, 1)`. -/
def TryLock (s : SpinLock) : Bool × SpinLock :=
  let r := s._lock.CompareSwap 0 1
  (r.1, ⟨r.2⟩)

/-- Method `void Lock()`: `while (!TryLock());`, run by a thread on its own for
at most `fuel` iterations; `none` when the loop has not ended by then. -/
def Lock : Nat → SpinLock → Option SpinLock
  | 0, _ => none
  | fuel + 1, s =>
    let r := s.TryLock
    if r.1 then some r.2 else Lock fuel r.2

/-- Method `void UnLock()`: `_lock.And(0)`. -/
def UnLock (s : SpinLock) : SpinLock := ⟨(s._lock.And 0).2⟩

/-- The lock word is zero: nobody holds the lock. -/
def isFree (s : SpinLock) : Prop := s._lock.value = 0

/-- The lock word is non-zero: the lock is held. -/
def isHeld (s : SpinLock) : Prop := s._lock.value ≠ 0

/-- Class invariant inherited from the lock word. -/
def wf (s : SpinLock) : Prop := s._lock.wf

instance (s : SpinLock) : Decidable s.isFree := by
  unfold isFree; exact inferInstance

instance (s : SpinLock) : Decidable s.isHeld := by
  unfold isHeld; exact inferInstance

instance (s : SpinLock) : Decidable s.wf := by
  unfold wf; exact inferInstance

end SpinLock

/-! ## Threads sharing one `atomic_t`

`T` threads each call `Inc()` `N` times on one cell.  Every `Inc()` is one
indivisible step; a schedule names, step by step, the thread that runs next. -/

/-- One shared cell and, per thread, the number of `Inc()` calls still to make. -/
structure IncSystem where
  cell : atomic_t
  todo : List Nat
  deriving DecidableEq, Repr

namespace IncSystem

/-- The cell is `atomic_t(0)` and each of the `T` threads has `N` calls to make. -/
def init (T N : Nat) : IncSystem := ⟨atomic_t.new 0, List.replicate T N⟩

/-- Thread `t` runs its next `Inc()`; `none` if it does not exist or has finished. -/
def step (s : IncSystem) (t : Nat) : Option IncSystem :=
  match s.todo[t]? with
  | some (n + 1) => some ⟨(s.cell.Inc).2, s.todo.set t n⟩
  | _ => none

/-- Runs a schedule from left to right. -/
def run (s : IncSystem) : List Nat → Option IncSystem
  | [] => some s
  | t :: ts =>
    match s.step t with
    | some s1 => run s1 ts
    | none => none

/-- Every thread has made all its calls. -/
def done (s : IncSystem) : Prop := ∀ n ∈ s.todo, n = 0

instance (s : IncSystem) : Decidable s.done := by
  unfold done; exact inferInstance

end IncSystem

/-! ## Threads incrementing a plain counter under a `SpinLock`

Each thread repeats `Lock(); tmp = counter; counter = tmp + 1; UnLock();`.
The counter is a plain variable: its read and its write are separate steps. -/

/-- Where a thread stands in its loop body. -/
inductive Pc where
  | acquire
  | load
  | store
  | release
  deriving DecidableEq, Repr

/-- One thread: program point, the value it read, iterations still to run. -/
structure Worker where
  pc : Pc
  tmp : Nat
  todo : Nat
  deriving DecidableEq, Repr

/-- The thread is between a returned `Lock()` and the end of its `UnLock()`. -/
def Worker.inCS (w : Worker) : Prop := w.pc ≠ Pc.acquire

instance (w : Worker) : Decidable w.inCS := by
  unfold Worker.inCS; exact inferInstance

/-- Increments this thread has still to write to the counter. -/
def Worker.remaining (w : Worker) : Nat :=
  if w.pc = Pc.release then w.todo - 1 else w.todo

/-- The lock, the plain counter and the threads. -/
structure LockSystem where
  lock : SpinLock
  counter : Nat
  workers : List Worker
  deriving DecidableEq, Repr

namespace LockSystem

/-- A fresh lock, counter zero, `T` threads with `N` iterations each. -/
def init (T N : Nat) : LockSystem :=
  ⟨SpinLock.new, 0, List.replicate T ⟨Pc.acquire, 0, N⟩⟩

/-- Thread `t` takes its next step: one `TryLock()` of the `Lock()` loop, the
read of the counter, the write of the counter, or `UnLock()`. -/
def step (s : LockSystem) (t : Nat) : Option LockSystem :=
  match s.workers[t]? with
  | none => none
  | some w =>
    if w.todo = 0 then none
    else
      match w.pc with
      | Pc.acquire =>
        let r := s.lock.TryLock
        if r.1 then some ⟨r.2, s.counter, s.workers.set t ⟨Pc.load, w.tmp, w.todo⟩⟩
        else some ⟨r.2, s.counter, s.workers⟩
      | Pc.load => some ⟨s.lock, s.counter, s.workers.set t ⟨Pc.store, s.counter, w.todo⟩⟩
      | Pc.store => some ⟨s.lock, w.tmp + 1, s.workers.set t ⟨Pc.release, w.tmp, w.todo⟩⟩
      | Pc.release =>
        some ⟨s.lock.UnLock, s.counter, s.workers.set t ⟨Pc.acquire, w.tmp, w.todo - 1⟩⟩

/-- Runs a schedule from left to right. -/
def run (s : LockSystem) : List Nat → Option LockSystem
  | [] => some s
  | t :: ts =>
    match s.step t with
    | some s1 => run s1 ts
    | none => none

/-- Every thread has finished all its iterations. -/
def done (s : LockSystem) : Prop := ∀ w ∈ s.workers, w.todo = 0

instance (s : LockSystem) : Decidable s.done := by
  unfold done; exact inferInstance

/-- No two distinct threads are inside the critical section. -/
def mutex (s : LockSystem) : Prop :=
  ∀ (i j : Nat) (a b : Worker), s.workers[i]? = some a → s.workers[j]? = some b →
    a.inCS → b.inCS → i = j

end LockSystem

/-- The invariant of the lock-protected counter: the lock word is `0` or `1`, a
thread inside the critical section implies a held lock, no two threads are
inside, the value a thread has read and not yet written back is the counter, a
thread inside has an iteration to finish, and the counter plus the increments
still to be written is `total`. -/
def LockSystem.Inv (total : Nat) (s : LockSystem) : Prop :=
  (s.lock._lock._v = 0 ∨ s.lock._lock._v = 1) ∧
  (∀ (i : Nat) (a : Worker), s.workers[i]? = some a → a.inCS → s.lock._lock._v = 1) ∧
  s.mutex ∧
  (∀ (i : Nat) (a : Worker), s.workers[i]? = some a → a.pc = Pc.store → a.tmp = s.counter) ∧
  (∀ (i : Nat) (a : Worker), s.workers[i]? = some a → a.inCS → 1 ≤ a.todo) ∧
  s.counter + (s.workers.map Worker.remaining).sum = total

/-! ## `ref_counting.h` -/

/-- The class `RefCounted`: the embedded counter `_count`. -/
structure RefCounted where
  _count : atomic_t
  deriving DecidableEq, Repr

namespace RefCounted

/-- Constructor `RefCounted()`: `_count(1)`. -/
def new : RefCounted := ⟨atomic_t.new 1⟩

/-- Method `void ref()`: `_count.Inc();`. -/
def ref (r : RefCounted) : RefCounted := ⟨(r._count.Inc).2⟩

/-- Method `void unref()`: `if (_count.Dec() == 0) delete this;`.  The boolean
tells whether `delete this` is executed. -/
def unref (r : RefCounted) : Bool × RefCounted :=
  let d := r._count.Dec
  (decide (d.1 = 0), ⟨d.2⟩)

/-- Method `uint32 ref_count()`. -/
def ref_count (r : RefCounted) : Nat := r._count.value

end RefCounted

/-- A call made on a reference-counted object. -/
inductive RefCall where
  | ref
  | unref
  deriving DecidableEq, Repr

/-- The storage of one heap object: `obj` is `none` once `delete this` has run,
and `deletions` counts how often it has run. -/
structure ObjCell where
  obj : Option RefCounted
  deletions : Nat
  deriving DecidableEq, Repr

namespace ObjCell

/-- A freshly constructed object. -/
def fresh : ObjCell := ⟨some RefCounted.new, 0⟩

/-- One call on the object; `none` when the object no longer exists (a call on a
destroyed object has no defined behaviour). -/
def call (s : ObjCell) (c : RefCall) : Option ObjCell :=
  match s.obj with
  | none => none
  | some r =>
    match c with
    | RefCall.ref => some ⟨some r.ref, s.deletions⟩
    | RefCall.unref =>
      let u := r.unref
      if u.1 then some ⟨none, s.deletions + 1⟩ else some ⟨some u.2, s.deletions⟩

/-- A sequence of calls, from left to right. -/
def run (s : ObjCell) : List RefCall → Option ObjCell
  | [] => some s
  | c :: cs =>
    match s.call c with
    | some s1 => run s1 cs
    | none => none

end ObjCell

/-! ## `scoped_ptr.h`

A pointer is a natural number, `0` the null pointer.  An operation yields, next
to its result, the list of objects it destroyed with `delete`. -/

/-- The expression `delete p`: the objects destroyed (none for a null pointer). -/
def deleteObj (p : Nat) : List Nat := if p = 0 then [] else [p]

/-- The class `scoped_ptr<T>`: the owned pointer `_p`. -/
structure scoped_ptr where
  _p : Nat
  deriving DecidableEq, Repr

namespace scoped_ptr

/-- Constructor `scoped_ptr(T* p)`. -/
def new (p : Nat) : scoped_ptr := ⟨p⟩

/-- Destructor `~scoped_ptr()`: `delete _p;`. -/
def destructor (s : scoped_ptr) : List Nat := deleteObj s._p

/-- Method `T* get()`. -/
def get (s : scoped_ptr) : Nat := s._p

/-- Method `T* release()`: returns `_p` and clears it; no `delete`. -/
def release (s : scoped_ptr) : Nat × scoped_ptr × List Nat := (s._p, ⟨0⟩, [])

/-- Method `void reset(T* p)`: `if (_p != p) { delete _p; _p = p; }`. -/
def reset (s : scoped_ptr) (p : Nat) : scoped_ptr × List Nat :=
  if s._p ≠ p then (⟨p⟩, deleteObj s._p) else (s, [])

end scoped_ptr

/-- An operation on a live `scoped_ptr`. -/
inductive PtrOp where
  | reset (p : Nat)
  | release
  deriving DecidableEq, Repr

/-- An owner together with the log of the objects it has destroyed so far. -/
structure Owned where
  sp : scoped_ptr
  deleted : List Nat
  deriving DecidableEq, Repr

namespace Owned

/-- One operation of the owner. -/
def apply (o : Owned) : PtrOp → Owned
  | PtrOp.reset p => ⟨(o.sp.reset p).1, o.deleted ++ (o.sp.reset p).2⟩
  | PtrOp.release => ⟨(o.sp.release).2.1, o.deleted ++ (o.sp.release).2.2⟩

/-- A sequence of operations, from left to right. -/
def run (o : Owned) : List PtrOp → Owned
  | [] => o
  | op :: ops => run (o.apply op) ops

/-- The owner goes out of scope: the final log of destroyed objects. -/
def destroy (o : Owned) : List Nat := o.deleted ++ o.sp.destructor

end Owned

/-! ## `shared_ptr.h`

One box (`Obj`) is allocated by the constructor from a raw pointer; a handle's
`_obj` either is null or points to that box. -/

/-- The struct `shared_ptr<T>::Obj`: a `RefCounted` that owns the payload `ptr`. -/
structure Obj where
  toRefCounted : RefCounted
  ptr : Nat
  deriving DecidableEq, Repr

/-- The memory the handles share: the box (`none` once deleted) and the log of
payload objects destroyed with `delete`. -/
structure Mem where
  box : Option Obj
  deleted : List Nat
  deriving DecidableEq, Repr

/-- The value of an `Obj*`. -/
inductive BoxPtr where
  | null
  | box
  deriving DecidableEq, Repr

/-- The call `p->ref()` on the box; `none` when the box no longer exists. -/
def Mem.refBox (m : Mem) : Option Mem :=
  match m.box with
  | none => none
  | some o => some ⟨some ⟨o.toRefCounted.ref, o.ptr⟩, m.deleted⟩

/-- The call `p->unref()` on the box: when `delete this` runs, `~Obj()` runs
`delete ptr` and the box is gone; `none` when the box no longer exists. -/
def Mem.unrefBox (m : Mem) : Option Mem :=
  match m.box with
  | none => none
  | some o =>
    let u := o.toRefCounted.unref
    if u.1 then some ⟨none, m.deleted ++ deleteObj o.ptr⟩
    else some ⟨some ⟨u.2, o.ptr⟩, m.deleted⟩

/-- Modelled from the spec: the class `scoped_ref<Obj>` of `scoped_ref.h`, which
is not among the sources.  It holds one `Obj*`; the spec says of a handle that
destruction and `reset()` decrement the counter of the box it holds and that a
handle adopts the box it is given. -/
structure scoped_ref where
  _p : BoxPtr
  deriving DecidableEq, Repr

namespace scoped_ref

/-- Modelled from the spec: the default constructor of `scoped_ref`, holding no box. -/
def new : scoped_ref := ⟨BoxPtr.null⟩

/-- Modelled from the spec: `scoped_ref::get()`, the held pointer. -/
def get (r : scoped_ref) : BoxPtr := r._p

/-- Modelled from the spec: `scoped_ref::reset(p)`, which decrements the counter
of the box held so far, if any, and adopts `p`. -/
def reset (r : scoped_ref) (p : BoxPtr) (m : Mem) : Option (scoped_ref × Mem) :=
  match r._p with
  | BoxPtr.null => some (⟨p⟩, m)
  | BoxPtr.box =>
    match m.unrefBox with
    | none => none
    | some m1 => some (⟨p⟩, m1)

/-- Modelled from the spec: the destructor of `scoped_ref`, which decrements the
counter of the held box, if any. -/
def destructor (r : scoped_ref) (m : Mem) : Option Mem :=
  match r._p with
  | BoxPtr.null => some m
  | BoxPtr.box => m.unrefBox

end scoped_ref

/-- The class `shared_ptr<T>`: the member `scoped_ref<Obj> _obj`. -/
structure shared_ptr where
  _obj : scoped_ref
  deriving DecidableEq, Repr

namespace shared_ptr

/-- Constructor `shared_ptr(T* ptr)`: `if (ptr != 0) _obj.reset(new Obj(ptr));`.
The member `_obj` is null before, so the `reset` only adopts the new box, whose
counter is 1. -/
def new (ptr : Nat) : shared_ptr × Mem :=
  if ptr ≠ 0 then (⟨⟨BoxPtr.box⟩⟩, ⟨some ⟨RefCounted.new, ptr⟩, []⟩)
  else (⟨scoped_ref.new⟩, ⟨none, []⟩)

/-- Method `Obj* Copy()`: `_obj->ref(); return _obj.get();`.  `none` when `_obj`
is null (the arrow dereferences it) or the box no longer exists. -/
def Copy (h : shared_ptr) (m : Mem) : Option (BoxPtr × Mem) :=
  match h._obj._p with
  | BoxPtr.null => none
  | BoxPtr.box =>
    match m.refBox with
    | none => none
    | some m1 => some (h._obj.get, m1)

/-- Copy constructor: `_obj.reset(obj.Copy());` on a default-constructed `_obj`. -/
def copyCtor (src : shared_ptr) (m : Mem) : Option (shared_ptr × Mem) :=
  match src.Copy m with
  | none => none
  | some (p, m1) =>
    match scoped_ref.new.reset p m1 with
    | none => none
    | some (r, m2) => some (⟨r⟩, m2)

/-- The body of `operator=` for `&obj != this`: `_obj.reset(obj.Copy());`. -/
def assign (dst src : shared_ptr) (m : Mem) : Option (shared_ptr × Mem) :=
  match src.Copy m with
  | none => none
  | some (p, m1) =>
    match dst._obj.reset p m1 with
    | none => none
    | some (r, m2) => some (⟨r⟩, m2)

/-- Method `T* get()`: `_obj != 0 ? _obj->ptr : 0`; `none` when the box that
`_obj` points to no longer exists. -/
def get (h : shared_ptr) (m : Mem) : Option Nat :=
  match h._obj._p with
  | BoxPtr.null => some 0
  | BoxPtr.box =>
    match m.box with
    | none => none
    | some o => some o.ptr

/-- Method `void reset()`: `_obj.reset();`. -/
def reset (h : shared_ptr) (m : Mem) : Option (shared_ptr × Mem) :=
  match h._obj.reset BoxPtr.null m with
  | none => none
  | some (r, m1) => some (⟨r⟩, m1)

/-- Destructor `~shared_ptr()`: destroys the member `_obj`. -/
def destructor (h : shared_ptr) (m : Mem) : Option Mem := h._obj.destructor m

end shared_ptr

/-- An operation of a program that uses handles; handles are named by the order
of their creation. -/
inductive HandleOp where
  | copyConstruct (src : Nat)
  | assign (dst src : Nat)
  | reset (h : Nat)
  | destroy (h : Nat)
  deriving DecidableEq, Repr

/-- The shared memory and the handles created so far (`none`: destroyed). -/
structure World where
  mem : Mem
  handles : List (Option shared_ptr)
  deriving DecidableEq, Repr

/-- Counts a handle: `1` if it is live and its `_obj` points to the box, else `0`. -/
def holdsBox (h : Option shared_ptr) : Nat :=
  if h = some ⟨⟨BoxPtr.box⟩⟩ then 1 else 0

/-- The memory that goes with `n` holders of the box made for `ptr`: with no
holder the box is gone and `ptr` has been destroyed once; otherwise the box
exists, its counter is `n` as a 32-bit word, and nothing has been destroyed. -/
def Mem.Good (ptr n : Nat) (m : Mem) : Prop :=
  if n = 0 then m = ⟨none, [ptr]⟩
  else ∃ r : RefCounted, m = ⟨some ⟨r, ptr⟩, []⟩ ∧ r._count._v = toInt32 n

namespace World

/-- The state after `shared_ptr<T> h0(ptr);`. -/
def init (ptr : Nat) : World := ⟨(shared_ptr.new ptr).2, [some (shared_ptr.new ptr).1]⟩

/-- The live handle with the given name, if any. -/
def live (w : World) (i : Nat) : Option shared_ptr := (w.handles[i]?).join

/-- Number of live handles that hold the box. -/
def holders (w : World) : Nat := (w.handles.map holdsBox).sum

/-- One operation; `none` when it uses a destroyed or missing handle or when a
method has no defined behaviour. -/
def step (w : World) : HandleOp → Option World
  | HandleOp.copyConstruct src =>
    match w.live src with
    | none => none
    | some hs =>
      match hs.copyCtor w.mem with
      | none => none
      | some (h, m) => some ⟨m, w.handles ++ [some h]⟩
  | HandleOp.assign dst src =>
    match w.live dst, w.live src with
    | some hd, some hs =>
      if dst ≠ src then
        match hd.assign hs w.mem with
        | none => none
        | some (h, m) => some ⟨m, w.handles.set dst (some h)⟩
      else some w
    | _, _ => none
  | HandleOp.reset i =>
    match w.live i with
    | none => none
    | some h =>
      match h.reset w.mem with
      | none => none
      | some (h1, m) => some ⟨m, w.handles.set i (some h1)⟩
  | HandleOp.destroy i =>
    match w.live i with
    | none => none
    | some h =>
      match h.destructor w.mem with
      | none => none
      | some m => some ⟨m, w.handles.set i none⟩

/-- The operation is one a program can perform: it names live handles, and the
source of a copy or of an assignment to another handle holds the box. -/
def ok (w : World) : HandleOp → Prop
  | HandleOp.copyConstruct src => w.live src = some ⟨⟨BoxPtr.box⟩⟩
  | HandleOp.assign dst src =>
    (w.live dst).isSome ∧ (w.live src).isSome ∧
      (dst ≠ src → w.live src = some ⟨⟨BoxPtr.box⟩⟩)
  | HandleOp.reset i => (w.live i).isSome
  | HandleOp.destroy i => (w.live i).isSome

instance (w : World) (op : HandleOp) : Decidable (w.ok op) := by
  cases op <;> simp only [ok] <;> exact inferInstance

/-- A sequence of operations, from left to right. -/
def run (w : World) : List HandleOp → Option World
  | [] => some w
  | op :: ops =>
    match w.step op with
    | some w1 => run w1 ops
    | none => none

end World

/-! ## `closure.h`

A function or method is named by a natural number, an object by its address,
and the captured argument tuple is a list of values. -/

/-- The template `xx::Indices<N, S...>`: `Indices<N, S...>` derives from
`Indices<N - 1, N - 1, S...>`, and `Indices<0, S...>::SeqType` is `Seq<S...>`. -/
def xx.Indices : Nat → List Nat → List Nat
  | 0, S => S
  | N + 1, S => xx.Indices N (N :: S)

/-- The pack expansion `std::get<S>(t)...`: the tuple elements at the indices
`S`, in the order of `S`; `none` if an index is not an element of the tuple. -/
def xx.getPack {α : Type} (t : List α) : List Nat → Option (List α)
  | [] => some []
  | i :: S =>
    match t[i]?, xx.getPack t S with
    | some a, some r => some (a :: r)
    | _, _ => none

/-- A call made to the operating system's thread library. -/
inductive OsCall where
  | create (id c : Nat)
  | join (id : Nat)
  | detach (id : Nat)
  deriving DecidableEq, Repr

/-- What running code does to the outside: it calls a target (a free function
when `obj` is `none`, a method of `obj` otherwise) with arguments, destroys the
object at an address with `delete`, or calls the thread library. -/
inductive Effect (α : Type) where
  | call (obj : Option Nat) (f : Nat) (args : List α)
  | destroy (p : Nat)
  | os (o : OsCall)
  deriving DecidableEq, Repr

/-- The four-argument `xx::Apply(obj, f, t, Seq<S...>)` and the three-argument
`xx::Apply(f, t, Seq<S...>)`: the call `f(std::get<S>(t)...)`. -/
def xx.ApplySeq {α : Type} (obj : Option Nat) (f : Nat) (t : List α) (S : List Nat) :
    Option (Effect α) :=
  match xx.getPack t S with
  | some args => some (Effect.call obj f args)
  | none => none

/-- The functions `xx::Apply(f, t)` and `xx::Apply(obj, f, t)`: they pass
`Indices<sizeof...(A)>::SeqType()` to the overload that takes a `Seq`. -/
def xx.Apply {α : Type} (obj : Option Nat) (f : Nat) (t : List α) : Option (Effect α) :=
  xx.ApplySeq obj f t (xx.Indices t.length [])

/-- The four classes derived from `Closure`, each with its private members. -/
inductive Closure (α : Type) where
  | FunctionClosure (_f : Nat) (_a : List α)
  | MethodClosure (_obj _f : Nat) (_a : List α)
  | FunctionCallback (_f : Nat) (_a : List α)
  | MethodCallback (_obj _f : Nat) (_a : List α)
  deriving DecidableEq, Repr

/-- The function `NewPermanentCallback(f, a...)`. -/
def NewPermanentCallback {α : Type} (f : Nat) (a : List α) : Closure α :=
  Closure.FunctionClosure f a

/-- The function `NewPermanentCallback(obj, f, a...)`. -/
def NewPermanentCallbackM {α : Type} (obj f : Nat) (a : List α) : Closure α :=
  Closure.MethodClosure obj f a

/-- The function `NewCallback(f, a...)`. -/
def NewCallback {α : Type} (f : Nat) (a : List α) : Closure α :=
  Closure.FunctionCallback f a

/-- The function `NewCallback(obj, f, a...)`. -/
def NewCallbackM {α : Type} (obj f : Nat) (a : List α) : Closure α :=
  Closure.MethodCallback obj f a

/-- The virtual method `Run()` of the object at address `self`: the effects in
program order.  The two `Callback` classes end with `delete this`. -/
def Closure.Run {α : Type} (c : Closure α) (self : Nat) : Option (List (Effect α)) :=
  match c with
  | Closure.FunctionClosure f a =>
    match xx.Apply none f a with
    | some e => some [e]
    | none => none
  | Closure.MethodClosure obj f a =>
    match xx.Apply (some obj) f a with
    | some e => some [e]
    | none => none
  | Closure.FunctionCallback f a =>
    match xx.Apply none f a with
    | some e => some [e, Effect.destroy self]
    | none => none
  | Closure.MethodCallback obj f a =>
    match xx.Apply (some obj) f a with
    | some e => some [e, Effect.destroy self]
    | none => none

/-- The target call a closure was constructed for. -/
def Closure.target {α : Type} : Closure α → Effect α
  | Closure.FunctionClosure f a => Effect.call none f a
  | Closure.MethodClosure obj f a => Effect.call (some obj) f a
  | Closure.FunctionCallback f a => Effect.call none f a
  | Closure.MethodCallback obj f a => Effect.call (some obj) f a

/-- The effect is a call of a target. -/
def Effect.isCall {α : Type} : Effect α → Bool
  | Effect.call _ _ _ => true
  | _ => false

/-- A call object on the heap: its address, the object (`none` once destroyed)
and the effects of the `Run()` calls made on it so far. -/
structure ClosureCell (α : Type) where
  self : Nat
  obj : Option (Closure α)
  log : List (Effect α)
  deriving DecidableEq, Repr

/-- One `Run()` through the pointer; `none` when the object no longer exists.
The object is gone afterwards if the run ended with `delete this`. -/
def ClosureCell.Run {α : Type} [DecidableEq α] (s : ClosureCell α) : Option (ClosureCell α) :=
  match s.obj with
  | none => none
  | some c =>
    match c.Run s.self with
    | none => none
    | some es =>
      some ⟨s.self, if Effect.destroy s.self ∈ es then none else some c, s.log ++ es⟩

/-- The given number of successive `Run()` calls. -/
def ClosureCell.runN {α : Type} [DecidableEq α] : Nat → ClosureCell α → Option (ClosureCell α)
  | 0, s => some s
  | n + 1, s =>
    match s.Run with
    | some s1 => ClosureCell.runN n s1
    | none => none

/-! ## `thread_util.h`, `comdition.cc`: `Mutex` and `Condition`

A thread is named by a natural number.  The state of a `pthread_mutex_t` is the
thread that holds it, if any.  A blocking call is described by the state in
which it returns. -/

/-- The class `Mutex`: the state of its `pthread_mutex_t`. -/
structure Mutex where
  owner : Option Nat
  deriving DecidableEq, Repr

/-- Method `bool TryLock()` called by thread `t`: `pthread_mutex_trylock` takes a
free mutex and fails on a held one (also when the caller holds it). -/
def Mutex.TryLock (m : Mutex) (t : Nat) : Bool × Mutex :=
  if m.owner = none then (true, ⟨some t⟩) else (false, m)

/-- Method `void UnLock()` called by thread `t`: `pthread_mutex_unlock` releases
the mutex the caller holds; `none` when the caller does not hold it (the
`CHECK_EQ(err, 0)` fails, or the behaviour is undefined). -/
def Mutex.UnLock (m : Mutex) (t : Nat) : Option Mutex :=
  if m.owner = some t then some ⟨none⟩ else none

/-- Model of `pthread_cond_wait` and `pthread_cond_timedwait` called by thread
`t`: the caller must hold the mutex (`none` otherwise); the mutex is released
while the caller is blocked and held by the caller again when the call
returns, whatever woke it. -/
def pthread_cond_wait (m : Mutex) (t : Nat) : Option Mutex :=
  if m.owner = some t then some ⟨some t⟩ else none

/-- The error number `ETIMEDOUT`. -/
def ETIMEDOUT : Int := 110

/-- The constructor of `ScopedTryLock`: `_mutex.TryLock();`, result ignored. -/
def ScopedTryLock.ctor (m : Mutex) (t : Nat) : Mutex := (m.TryLock t).2

/-- The destructor of `ScopedTryLock`: `_mutex.UnLock();`. -/
def ScopedTryLock.dtor (m : Mutex) (t : Nat) : Option Mutex := m.UnLock t

/-- Method `Condition::Wait(Mutex& mutex)` called by thread `t`:
`ScopedTryLock m(mutex); pthread_cond_wait(&_cond, mutex.mutex());`.  The result
is the mutex when the call returns. -/
def Condition.Wait (m : Mutex) (t : Nat) : Option Mutex :=
  match pthread_cond_wait (ScopedTryLock.ctor m t) t with
  | none => none
  | some m1 => ScopedTryLock.dtor m1 t

/-- Method `Condition::TimedWait(Mutex& mutex, uint32 ms)` called by thread `t`,
where `ret` is what `pthread_cond_timedwait` returns.  `none` also when
`CHECK_EQ(ret, 0)` fails. -/
def Condition.TimedWait (m : Mutex) (t : Nat) (ret : Int) : Option (Bool × Mutex) :=
  match pthread_cond_wait (ScopedTryLock.ctor m t) t with
  | none => none
  | some m1 =>
    if ret = ETIMEDOUT then
      match ScopedTryLock.dtor m1 t with
      | none => none
      | some m2 => some (false, m2)
    else if ret = 0 then
      match ScopedTryLock.dtor m1 t with
      | none => none
      | some m2 => some (true, m2)
    else none

/-! ## `thread_util.h`, `comdition.cc`: `SyncEvent`

Every method runs under the internal `_mutex`, which the condition wait
releases while the caller is blocked: the part of a method before the wait and
the part after it are indivisible. -/

/-- The class `SyncEvent`: the members `_manual_reset` and `_signaled`. -/
structure SyncEvent where
  _manual_reset : Bool
  _signaled : Bool
  deriving DecidableEq, Repr

/-- What a condition wait did: its return value, and the value of `_signaled`
when it returns (other threads run while the caller is blocked). -/
structure CondWake where
  ret : Int
  signaled : Bool
  deriving DecidableEq, Repr

namespace SyncEvent

/-- Constructor `SyncEvent(bool manual_reset, bool signaled)`. -/
def new (manual_reset signaled : Bool) : SyncEvent := ⟨manual_reset, signaled⟩

/-- Method `void Notify()`; the boolean tells whether `pthread_cond_broadcast`
was called. -/
def Notify (s : SyncEvent) : SyncEvent × Bool :=
  if !s._signaled then (⟨s._manual_reset, true⟩, true) else (s, false)

/-- Method `void Reset()`. -/
def Reset (s : SyncEvent) : SyncEvent := ⟨s._manual_reset, false⟩

/-- Method `bool Signaled()`. -/
def Signaled (s : SyncEvent) : Bool := s._signaled

/-- The statement `if (!_manual_reset) _signaled = false;` that ends a wait. -/
def autoReset (s : SyncEvent) : SyncEvent :=
  if !s._manual_reset then ⟨s._manual_reset, false⟩ else s

/-- Method `void Wait()`: `if (!_signaled) pthread_cond_wait(...);` followed by
the auto-reset statement.  The boolean tells whether the call blocked. -/
def Wait (s : SyncEvent) (w : CondWake) : SyncEvent × Bool :=
  if !s._signaled then (autoReset ⟨s._manual_reset, w.signaled⟩, true)
  else (autoReset s, false)

/-- Method `bool TimedWait(uint32 ms)`: the returned value, the event afterwards
and whether the call blocked; `none` when `CHECK_EQ(ret, 0)` fails. -/
def TimedWait (s : SyncEvent) (w : CondWake) : Option (Bool × SyncEvent × Bool) :=
  if !s._signaled then
    if w.ret = ETIMEDOUT then some (false, ⟨s._manual_reset, w.signaled⟩, true)
    else if w.ret = 0 then some (true, autoReset ⟨s._manual_reset, w.signaled⟩, true)
    else none
  else some (true, autoReset s, false)

end SyncEvent

/-- A call made on a `SyncEvent`. -/
inductive EventCall where
  | Notify
  | Signaled
  | Wait (w : CondWake)
  | TimedWait (w : CondWake)
  deriving DecidableEq, Repr

/-- What a call on a `SyncEvent` gave back. -/
inductive EventResult where
  | notified
  | signaled (b : Bool)
  | waited (blocked : Bool)
  | timedWaited (result blocked : Bool)
  deriving DecidableEq, Repr

/-- The result of a call that did not block and, for a timed wait, returned true. -/
def EventResult.immediate : EventResult → Prop
  | EventResult.notified => True
  | EventResult.signaled b => b = true
  | EventResult.waited blocked => blocked = false
  | EventResult.timedWaited result blocked => result = true ∧ blocked = false

/-- One call on the event: the event afterwards and what the call gave back. -/
def SyncEvent.call (s : SyncEvent) : EventCall → Option (SyncEvent × EventResult)
  | EventCall.Notify => some ((s.Notify).1, EventResult.notified)
  | EventCall.Signaled => some (s, EventResult.signaled s.Signaled)
  | EventCall.Wait w => some ((s.Wait w).1, EventResult.waited (s.Wait w).2)
  | EventCall.TimedWait w =>
    match s.TimedWait w with
    | none => none
    | some r => some (r.2.1, EventResult.timedWaited r.1 r.2.2)

/-- A sequence of calls, one after the other: the event afterwards and the
results in order. -/
def SyncEvent.calls (s : SyncEvent) : List EventCall → Option (SyncEvent × List EventResult)
  | [] => some (s, [])
  | c :: cs =>
    match s.call c with
    | none => none
    | some (s1, r) =>
      match SyncEvent.calls s1 cs with
      | none => none
      | some (s2, rs) => some (s2, r :: rs)

/-- Where a thread that calls `Wait()` stands. -/
inductive WaiterPc where
  | idle
  | blocked
  | woken
  | returned
  deriving DecidableEq, Repr

/-- An event and the threads that call `Wait()` on it. -/
structure EventSystem where
  ev : SyncEvent
  waiters : List WaiterPc
  deriving DecidableEq, Repr

/-- A step of the system: thread `t` enters `Wait()` and runs up to the
condition wait or to the end; thread `t`, woken, runs the rest of `Wait()`;
some other thread calls `Notify()` or `Reset()`; the condition wait of thread
`t` ends without a broadcast (a spurious wake-up). -/
inductive EventAction where
  | enter (t : Nat)
  | resume (t : Nat)
  | notify
  | reset
  | spurious (t : Nat)
  deriving DecidableEq, Repr

/-- The broadcast: every blocked thread is woken. -/
def WaiterPc.wake : WaiterPc → WaiterPc
  | WaiterPc.blocked => WaiterPc.woken
  | p => p

namespace EventSystem

/-- One step; `none` when the step is not possible in this state. -/
def step (s : EventSystem) : EventAction → Option EventSystem
  | EventAction.enter t =>
    match s.waiters[t]? with
    | some WaiterPc.idle =>
      if !s.ev._signaled then some ⟨s.ev, s.waiters.set t WaiterPc.blocked⟩
      else some ⟨s.ev.autoReset, s.waiters.set t WaiterPc.returned⟩
    | _ => none
  | EventAction.resume t =>
    match s.waiters[t]? with
    | some WaiterPc.woken => some ⟨s.ev.autoReset, s.waiters.set t WaiterPc.returned⟩
    | _ => none
  | EventAction.notify =>
    if (s.ev.Notify).2 then some ⟨(s.ev.Notify).1, s.waiters.map WaiterPc.wake⟩
    else some ⟨(s.ev.Notify).1, s.waiters⟩
  | EventAction.reset => some ⟨s.ev.Reset, s.waiters⟩
  | EventAction.spurious t =>
    match s.waiters[t]? with
    | some WaiterPc.blocked => some ⟨s.ev, s.waiters.set t WaiterPc.woken⟩
    | _ => none

/-- A sequence of steps, from left to right. -/
def run (s : EventSystem) : List EventAction → Option EventSystem
  | [] => some s
  | a :: rest =>
    match s.step a with
    | some s1 => run s1 rest
    | none => none

end EventSystem

/-! ## `thread_util.h`: `Thread`, `StoppableThread`, `AutoThread` (unix) -/

/-- What `pthread_create` did: its return value and, on success, the thread id
it stored. -/
structure CreateResult where
  ret : Int
  id : Nat
  deriving DecidableEq, Repr

/-- The class `Thread`: the members `scoped_ptr<Closure> _c` and `pthread_t _id`. -/
structure Thread where
  _c : scoped_ptr
  _id : Nat
  deriving DecidableEq, Repr

namespace Thread

/-- Constructor `Thread(Closure* c)`: `_c(c), _id(0)`. -/
def new (c : Nat) : Thread := ⟨scoped_ptr.new c, 0⟩

/-- Method `bool Start()`: `CHECK(_c != NULL);` then
`return pthread_create(&_id, 0, &Thread::Run, (void*) _c.get()) == 0;`.  The
result is `none` when the `CHECK` aborts; otherwise the returned value, the
object afterwards and the calls made to the thread library.  A created thread
runs `Run()` of the call object `_c`. -/
def Start (t : Thread) (r : CreateResult) : Option (Bool × Thread × List OsCall) :=
  if t._c.get = 0 then none
  else if r.ret = 0 then some (true, ⟨t._c, r.id⟩, [OsCall.create r.id t._c.get])
  else some (false, t, [])

/-- Method `void Join()`: `if (_id != 0) { pthread_join(_id, NULL); _id = 0; }`. -/
def Join (t : Thread) : Thread × List OsCall :=
  if t._id ≠ 0 then (⟨t._c, 0⟩, [OsCall.join t._id]) else (t, [])

/-- Method `void Detach()`: `if (_id != 0) { pthread_detach(_id); _id = 0; }`. -/
def Detach (t : Thread) : Thread × List OsCall :=
  if t._id ≠ 0 then (⟨t._c, 0⟩, [OsCall.detach t._id]) else (t, [])

/-- Method `uint64 id()`. -/
def id (t : Thread) : Nat := t._id

/-- Destructor `~Thread()`: destroys the member `_c`. -/
def destructor (t : Thread) : List Nat := t._c.destructor

end Thread

/-- A call of `Join()` or `Detach()`. -/
inductive ThreadCall where
  | Join
  | Detach
  deriving DecidableEq, Repr

/-- One call on the thread object. -/
def Thread.call (t : Thread) : ThreadCall → Thread × List OsCall
  | ThreadCall.Join => t.Join
  | ThreadCall.Detach => t.Detach

/-- A sequence of calls, from left to right, with all the calls made to the
thread library. -/
def Thread.calls (t : Thread) : List ThreadCall → Thread × List OsCall
  | [] => (t, [])
  | c :: cs =>
    ((Thread.calls (t.call c).1 cs).1, (t.call c).2 ++ (Thread.calls (t.call c).1 cs).2)

/-- The class `AutoThread`: the members `Thread _t` and `scoped_ptr<Closure> _c`. -/
structure AutoThread where
  _t : Thread
  _c : scoped_ptr
  deriving DecidableEq, Repr

namespace AutoThread

/-- Constructor `AutoThread(Closure* c)`:
`_t(NewPermanentCallback(this, &AutoThread::Run)), _c(c)` and then
`CHECK(_c != NULL && _t.Start());`.  The closure made for `_t` is at address
`pm`.  `none` when the `CHECK` aborts. -/
def new (pm c : Nat) (r : CreateResult) : Option (AutoThread × List OsCall) :=
  if scoped_ptr.get (scoped_ptr.new c) = 0 then none
  else
    match (Thread.new pm).Start r with
    | some (true, t, log) => some (⟨t, scoped_ptr.new c⟩, log)
    | _ => none

/-- Method `void Run()` of the object at address `self`, where `callObj` is the
object `_c` points to: `_c->Run(); _t.Detach(); delete this;`.  The `delete`
runs `~AutoThread()`, which destroys the members in reverse order of their
declaration, `_c` and then `_t`. -/
def Run {α : Type} (a : AutoThread) (self : Nat) (callObj : Closure α) :
    Option (List (Effect α)) :=
  match callObj.Run a._c.get with
  | none => none
  | some es =>
    some (es ++ (a._t.Detach).2.map Effect.os ++ [Effect.destroy self] ++
      a._c.destructor.map Effect.destroy ++
      (a._t.Detach).1.destructor.map Effect.destroy)

/-- The function `NewAutoThread(Closure* c)`: `(void) new AutoThread(c);` with
the new object at address `self`, followed by what the created thread does:
it runs the closure of `_t`, which calls `Run()` of the new object. -/
def NewAutoThread {α : Type} (self pm c : Nat) (callObj : Closure α) (r : CreateResult) :
    Option (List (Effect α)) :=
  match AutoThread.new pm c r with
  | none => none
  | some (a, log) =>
    match a.Run self callObj with
    | none => none
    | some es => some (log.map Effect.os ++ es)

end AutoThread

/-- The class `StoppableThread`: the members `Thread _t`,
`scoped_ptr<Closure> _c` and `bool _stop`. -/
structure StoppableThread where
  _t : Thread
  _c : scoped_ptr
  _stop : Bool
  deriving DecidableEq, Repr

namespace StoppableThread

/-- Constructor `StoppableThread(Closure* c)`:
`_t(NewPermanentCallback(this, &StoppableThread::Run)), _c(c), _stop(false)`;
the closure made for `_t` is at address `pm`. -/
def new (pm c : Nat) : StoppableThread := ⟨Thread.new pm, scoped_ptr.new c, false⟩

/-- Method `bool Start()`: `CHECK(_c != NULL); return _t.Start();`. -/
def Start (s : StoppableThread) (r : CreateResult) :
    Option (Bool × StoppableThread × List OsCall) :=
  if s._c.get = 0 then none
  else
    match s._t.Start r with
    | none => none
    | some (b, t, log) => some (b, ⟨t, s._c, s._stop⟩, log)

end StoppableThread

/-- Where the thread that runs `StoppableThread::Run()`, the loop
`while (!_stop) { _c->Run(); }`, stands: before a test of `_stop`, before the
call `_c->Run()`, or past the loop. -/
inductive LoopPc where
  | check
  | call
  | exited
  deriving DecidableEq, Repr

/-- A started `StoppableThread` with its loop thread: the number of calls
`_c->Run()` made, the number of tests that found `_stop` false, whether a
`Stop()` is blocked in `pthread_join`, and the calls made to the thread library. -/
structure StopSystem where
  st : StoppableThread
  worker : LoopPc
  invoked : Nat
  sawFalse : Nat
  joining : Bool
  log : List OsCall
  deriving DecidableEq, Repr

/-- A step of the system: the loop thread takes its next step; a thread calls
`Stop()` and runs it up to the `pthread_join` inside `_t.Join()`; the
`pthread_join` returns, which it does only when the loop thread has ended, and
`Join()` runs to its end. -/
inductive StopAction where
  | worker
  | stop
  | joinReturn
  deriving DecidableEq, Repr

namespace StopSystem

/-- The system after construction and a `Start()` that returned true. -/
def started (pm c : Nat) (r : CreateResult) : Option StopSystem :=
  match (StoppableThread.new pm c).Start r with
  | some (true, st, log) => some ⟨st, LoopPc.check, 0, 0, false, log⟩
  | _ => none

/-- One step; `none` when the step is not possible in this state. -/
def step (s : StopSystem) : StopAction → Option StopSystem
  | StopAction.worker =>
    match s.worker with
    | LoopPc.check =>
      if s.st._stop then some ⟨s.st, LoopPc.exited, s.invoked, s.sawFalse, s.joining, s.log⟩
      else some ⟨s.st, LoopPc.call, s.invoked, s.sawFalse + 1, s.joining, s.log⟩
    | LoopPc.call => some ⟨s.st, LoopPc.check, s.invoked + 1, s.sawFalse, s.joining, s.log⟩
    | LoopPc.exited => none
  | StopAction.stop =>
    if s.st._stop then some s
    else some ⟨⟨s.st._t, s.st._c, true⟩, s.worker, s.invoked, s.sawFalse,
      decide (s.st._t._id ≠ 0), s.log⟩
  | StopAction.joinReturn =>
    if s.joining = true ∧ s.worker = LoopPc.exited then
      some ⟨⟨(s.st._t.Join).1, s.st._c, s.st._stop⟩, s.worker, s.invoked, s.sawFalse, false,
        s.log ++ (s.st._t.Join).2⟩
    else none

/-- A sequence of steps, from left to right. -/
def run (s : StopSystem) : List StopAction → Option StopSystem
  | [] => some s
  | a :: rest =>
    match s.step a with
    | some s1 => run s1 rest
    | none => none

/-- The invariant of a started `StoppableThread` whose thread has id `id`: every
test that found `_stop` false is followed by one call; the loop ends only
under a set flag; a `Stop()` blocked in the join has set the flag; the id is
cleared only after the loop has ended and the thread has been joined. -/
def Inv (id : Nat) (s : StopSystem) : Prop :=
  s.invoked + (if s.worker = LoopPc.call then 1 else 0) = s.sawFalse ∧
  (s.worker = LoopPc.exited → s.st._stop = true) ∧
  (s.joining = true → s.st._stop = true ∧ s.st._t._id ≠ 0) ∧
  (s.st._t._id = 0 → s.worker = LoopPc.exited ∧ OsCall.join id ∈ s.log) ∧
  (s.st._stop = true → s.st._t._id ≠ 0 → s.joining = true) ∧
  (s.st._t._id ≠ 0 → s.st._t._id = id)

end StopSystem

/-! ## `std::string` operations used by `string_split.cc` and `ccflag.cc`

A `std::string` is the list of its characters. `std::string::npos` is `none`: it is the
largest `size_t`, greater than every index. -/

namespace std_string

/-- Method `s.find_first_of(c, pos)`: the index of the first `c` at or after `pos`. -/
def find_first_of (s : List Char) (c : Char) (pos : Nat) : Option Nat :=
  let n := ((s.drop pos).takeWhile (fun x => x != c)).length
  if pos + n < s.length then some (pos + n) else none

/-- Method `s.find(c)`: the index of the first `c`. -/
def find (s : List Char) (c : Char) : Option Nat :=
  find_first_of s c 0

/-- Method `s.find_first_not_of(c)`: the index of the first character other than `c`. -/
def find_first_not_of (s : List Char) (c : Char) : Option Nat :=
  let n := (s.takeWhile (fun x => x == c)).length
  if n < s.length then some n else none

/-- Method `s.find_last_not_of(c)`: the index of the last character other than `c`. -/
def find_last_not_of (s : List Char) (c : Char) : Option Nat :=
  let n := (s.reverse.takeWhile (fun x => x == c)).length
  if n < s.length then some (s.length - 1 - n) else none

/-- Method `s.substr(pos, n)` for `pos ≤ s.size()`. -/
def substr (s : List Char) (pos n : Nat) : List Char :=
  (s.drop pos).take n

/-- Comparison `a <= b` of two `size_t` values either of which may be `npos`. -/
def le (a b : Option Nat) : Bool :=
  match a, b with
  | _, none => true
  | none, some _ => false
  | some x, some y => x ≤ y

end std_string

/-! ## `string_split.cc` -/

/-- The `while` loop of `SplitString`, on the local `from` and the vector `v`; returns
both when `find_first_of` gives `npos`. The first argument bounds the number of
iterations; `SplitString` passes `s.size() + 1`, which the loop never uses up since
`from` grows by at least one per iteration. -/
def SplitString.loop (s : List Char) (c : Char) :
    Nat → Nat → List (List Char) → Nat × List (List Char)
  | 0, from_, v => (from_, v)
  | fuel + 1, from_, v =>
    match std_string.find_first_of s c from_ with
    | none => (from_, v)
    | some pos =>
      SplitString.loop s c fuel (pos + 1)
        (if pos != from_ then v ++ [std_string.substr s from_ (pos - from_)] else v)

/-- Function `void SplitString(const std::string& s, char c, std::vector<std::string>& v)`;
returns the vector after the call. -/
def SplitString (s : List Char) (c : Char) (v : List (List Char)) : List (List Char) :=
  let r := SplitString.loop s c (s.length + 1) 0 v
  if r.1 < s.length then r.2 ++ [s.drop r.1] else r.2

/-- Function `void TrimString(std::string& s)` of `string_split.cc`; returns the string
after the call. When `find_last_not_of` gives `npos` the length `ep - bp + 1` wraps
around in `size_t`. -/
def TrimString (s : List Char) : List Char :=
  if s.isEmpty || (s.head? != some ' ' && s.getLast? != some ' ') then s
  else
    match std_string.find_first_not_of s ' ' with
    | none => []
    | some bp =>
      match std_string.find_last_not_of s ' ' with
      | none => std_string.substr s bp ((2 ^ 64 - 1 - bp + 1) % 2 ^ 64)
      | some ep => std_string.substr s bp (ep - bp + 1)

/-- The fields of `s` between occurrences of `c`, empty ones left out: what the
documentation of `SplitString` asks to be appended. -/
def splitFields (s : List Char) (c : Char) : List (List Char) :=
  (s.splitOn c).filter (fun f => f ≠ [])

/-- The string `s` without its leading and trailing spaces. -/
def trimSpaces (s : List Char) : List Char :=
  ((s.dropWhile (fun x => x == ' ')).reverse.dropWhile (fun x => x == ' ')).reverse

/-! ## `ccflag.h`, `ccflag.cc`

Flag names, values and arguments are `std::string`s (lists of characters); error
texts are kept as `String`s. `uint64` is a natural number below `2^64`, `uint32` one
below `2^32`; `unsigned long` has 64 bits. -/

namespace ccflag

/-- The anonymous `enum` of `ccflag.h`. -/
inductive FlagType
  | TYPE_bool
  | TYPE_int32
  | TYPE_int64
  | TYPE_uint32
  | TYPE_uint64
  | TYPE_string
  | TYPE_double
  deriving DecidableEq

/-- A value of type `double` that is a decimal number: `mant * 10 ^ (-scale)`. -/
structure double where
  mant : Int
  scale : Nat
  deriving DecidableEq

/-- The variable a `FlagInfo` points to through `addr`, with the type it was
registered with. The 32 and 64 bit integers hold their bit pattern; an `int32`
variable with pattern `bits` has the value `toInt32 bits`. `overwritten old` is a
variable that is not a `bool` after `true` was stored into it through a `bool*`:
its first byte was replaced. -/
inductive FlagVar
  | bool (b : Bool)
  | int32 (bits : Nat)
  | int64 (bits : Nat)
  | uint32 (bits : Nat)
  | uint64 (bits : Nat)
  | string (s : List Char)
  | double (d : double)
  | overwritten (old : FlagVar)
  deriving DecidableEq

/-- Field `type` of the `FlagInfo` of a variable. -/
def FlagVar.type : FlagVar → FlagType
  | FlagVar.bool _ => FlagType.TYPE_bool
  | FlagVar.int32 _ => FlagType.TYPE_int32
  | FlagVar.int64 _ => FlagType.TYPE_int64
  | FlagVar.uint32 _ => FlagType.TYPE_uint32
  | FlagVar.uint64 _ => FlagType.TYPE_uint64
  | FlagVar.string _ => FlagType.TYPE_string
  | FlagVar.double _ => FlagType.TYPE_double
  | FlagVar.overwritten old => old.type

/-- The integer an `int32` or `uint32` flag variable holds. -/
def FlagVar.int32Value : FlagVar → Option Int
  | FlagVar.int32 bits => some (toInt32 bits)
  | FlagVar.uint32 bits => some bits
  | _ => none

/-- The statement `*static_cast<bool*>(addr) = true`. -/
def FlagVar.storeTrue : FlagVar → FlagVar
  | FlagVar.bool _ => FlagVar.bool true
  | v => FlagVar.overwritten v

/-- Class `Flagger`: the map `_map` from flag name to flag, as an association list
with one entry per name. -/
structure Flagger where
  _map : List (List Char × FlagVar)
  deriving DecidableEq

/-- The call `_map.find(name)`; `none` is `_map.end()`. -/
def Flagger.find (m : Flagger) (name : List Char) : Option FlagVar :=
  m._map.lookup name

/-- A store through `it->second->addr` for the flag `name`. -/
def Flagger.store (m : Flagger) (name : List Char) (x : FlagVar) : Flagger :=
  ⟨m._map.map (fun e => if e.1 == name then (e.1, x) else e)⟩

/-- What a conversion function did: its return value, the value it stored through `p`
(`none` when it did not write) and the error text afterwards. -/
structure Conv (α : Type) where
  ret : Bool
  p : Option α
  err : String

/-- Function `StrToBool`. -/
def StrToBool (v : List Char) (err : String) : Conv Bool :=
  if v == ("true").toList || v == ("1").toList then ⟨true, some true, err⟩
  else if v == ("false").toList || v == ("0").toList then ⟨true, some false, err⟩
  else ⟨false, none, "invalid value for bool"⟩

/-- Function `StrToDouble`, given the library function `strtod` as the map from a text
to the value and the offset of `end`. The store to `*p` comes before the test. -/
def StrToDouble (strtod : List Char → double × Nat) (v : List Char) (err : String) :
    Conv double :=
  let r := strtod v
  let ok := r.2 == v.length
  ⟨ok, some r.1, if !ok then "invalid value for double" else err⟩

/-- Library function `isspace` in the C locale. -/
def isspace (c : Char) : Bool :=
  [' ', '\x0c', '\n', '\r', '\t', '\x0b'].contains c

/-- The value of a character as a digit or letter digit. -/
def digitValue (c : Char) : Option Nat :=
  let n := c.toNat
  if 48 ≤ n ∧ n ≤ 57 then some (n - 48)
  else if 97 ≤ n ∧ n ≤ 122 then some (n - 87)
  else if 65 ≤ n ∧ n ≤ 90 then some (n - 55)
  else none

/-- The character is a digit of the given base. -/
def isDigitOf (base : Nat) (c : Char) : Bool :=
  match digitValue c with
  | some d => d < base
  | none => false

/-- The number a digit string denotes in the given base. -/
def digitsValue (base : Nat) (ds : List Char) : Nat :=
  ds.foldl (fun acc c => acc * base + (digitValue c).getD 0) 0

/-- Library function `strtoul(s, &end, 0)` with a 64 bit `unsigned long`: white space,
an optional sign, then a number that is hexadecimal after `0x`, octal after `0` and
decimal otherwise. Returns the value and the offset of `end`; without any digit the
value is 0 and `end` is the start; a number above `2^64 - 1` gives `2^64 - 1`; a
minus sign negates modulo `2^64`. -/
def strtoul (s : List Char) : Nat × Nat :=
  let ws := (s.takeWhile isspace).length
  let s1 := s.drop ws
  let neg := s1.head? == some '-'
  let sg := if s1.head? == some '-' || s1.head? == some '+' then 1 else 0
  let s2 := s1.drop sg
  let hex := s2.head? == some '0' && (s2.get? 1 == some 'x' || s2.get? 1 == some 'X') &&
    (match s2.get? 2 with
     | some h => isDigitOf 16 h
     | none => false)
  let base := if hex then 16 else if s2.head? == some '0' then 8 else 10
  let px := if hex then 2 else 0
  let ds := (s2.drop px).takeWhile (isDigitOf base)
  if ds.isEmpty then (0, 0)
  else
    let n := digitsValue base ds
    (if n ≥ 2 ^ 64 then 2 ^ 64 - 1 else if neg then (2 ^ 64 - n) % 2 ^ 64 else n,
      ws + sg + px + ds.length)

/-- Library function `strtod` on texts whose number is written without an exponent:
white space, an optional sign, decimal digits with an optional point. Returns the
value and the offset of `end`, which is the start when there is no number. -/
def strtod_plain (s : List Char) : double × Nat :=
  let ws := (s.takeWhile isspace).length
  let s1 := s.drop ws
  let neg := s1.head? == some '-'
  let sg := if s1.head? == some '-' || s1.head? == some '+' then 1 else 0
  let s2 := s1.drop sg
  let ip := s2.takeWhile (isDigitOf 10)
  let s3 := s2.drop ip.length
  let pt := s3.head? == some '.'
  let fp := if pt then (s3.drop 1).takeWhile (isDigitOf 10) else []
  if ip.isEmpty && fp.isEmpty then (⟨0, 0⟩, 0)
  else
    let m : Int := digitsValue 10 (ip ++ fp)
    (⟨if neg then -m else m, fp.length⟩,
      ws + sg + ip.length + (if pt then 1 + fp.length else 0))

/-- The number of bits the `switch (::tolower(unit))` of `StrToU64` shifts by. -/
def unitShift (unit : Char) : Nat :=
  if unit == 'K' || unit == 'k' then 10
  else if unit == 'M' || unit == 'm' then 20
  else if unit == 'G' || unit == 'g' then 30
  else if unit == 'T' || unit == 't' then 40
  else 0

/-- What `StrToU64` did: the return value, the `uint64` stored through `p` (`none`
when nothing was stored), the value stored through `negative` and the error text. -/
structure U64Conv where
  ret : Bool
  p : Option Nat
  negative : Option Bool
  err : String

/-- The test `!v.empty() && s.find(*v.rbegin()) != std::string::npos` of `StrToU64`,
with `s` the string `"KkMmGgTt"`. -/
def StrToU64.hasUnit (value : List Char) : Bool :=
  !value.isEmpty &&
    (match value.getLast? with
     | some c => (("KkMmGgTt").toList).contains c
     | none => false)

/-- Function `StrToU64` from the assignment to `err` on, with the locals `v` and
`unit` as they are at that point. -/
def StrToU64.convert (v : List Char) (unit : Char) : U64Conv :=
  match std_string.find_first_not_of v '-' with
  | none => ⟨false, none, none, "invalid value for integer"⟩
  | some pos =>
    if pos > 1 then ⟨false, none, none, "invalid value for integer"⟩
    else
      let beg := if pos == 1 then v.drop 1 else v
      let r := strtoul beg
      if (if pos == 1 then 1 else 0) + r.2 != v.length then
        ⟨false, none, some (pos == 1), "invalid value for integer"⟩
      else
        let u := (r.1 * 2 ^ unitShift unit) % 2 ^ 64
        ⟨true, some (if pos == 1 then (2 ^ 64 - u) % 2 ^ 64 else u), some (pos == 1), ""⟩

/-- Function `StrToU64`. -/
def StrToU64 (value : List Char) : U64Conv :=
  if StrToU64.hasUnit value then
    StrToU64.convert value.dropLast (value.getLast?.getD '\x00')
  else StrToU64.convert value '\x00'

/-- Function `StrToU32`; the value stored through `p` is the `uint32` bit pattern. -/
def StrToU32 (v : List Char) : Conv Nat :=
  let r := StrToU64 v
  match r.ret, r.p, r.negative with
  | true, some u, some negative =>
    let abs := if negative then (2 ^ 64 - u) % 2 ^ 64 else u
    if abs > 2 ^ 32 - 1 then ⟨false, none, "overflow for 32 bit integer"⟩
    else
      let u32 := abs % 2 ^ 32
      ⟨true, some (if negative then (2 ^ 32 - u32) % 2 ^ 32 else u32), r.err⟩
  | _, _, _ => ⟨false, none, r.err⟩

/-- The flagger after a conversion stored its result, if it stored one. -/
def Flagger.stored {α : Type} (m : Flagger) (flg : List Char) (mk : α → FlagVar)
    (r : Conv α) : Bool × Flagger × String :=
  match r.p with
  | some x => (r.ret, m.store flg (mk x), r.err)
  | none => (r.ret, m, r.err)

/-- Method `Flagger::SetFlagValue`: the return value, the flagger and the error text
afterwards. The `switch` has a case for every member of the enum, so the trailing
"unknown flag type" is not reached. -/
def Flagger.SetFlagValue (strtod : List Char → double × Nat) (m : Flagger)
    (flg val : List Char) (err : String) : Bool × Flagger × String :=
  match m.find flg with
  | none => (false, m, "flag not found")
  | some fi =>
    match fi.type with
    | FlagType.TYPE_string => (true, m.store flg (FlagVar.string val), err)
    | FlagType.TYPE_bool => m.stored flg FlagVar.bool (StrToBool val err)
    | FlagType.TYPE_int32 => m.stored flg FlagVar.int32 (StrToU32 val)
    | FlagType.TYPE_uint32 => m.stored flg FlagVar.uint32 (StrToU32 val)
    | FlagType.TYPE_int64 =>
      let r := StrToU64 val
      m.stored flg FlagVar.int64 ⟨r.ret, r.p, r.err⟩
    | FlagType.TYPE_uint64 =>
      let r := StrToU64 val
      m.stored flg FlagVar.uint64 ⟨r.ret, r.p, r.err⟩
    | FlagType.TYPE_double => m.stored flg FlagVar.double (StrToDouble strtod val err)

/-- The `for` loop of `Flagger::SetBoolFlags` over the characters of `flg`. -/
def Flagger.SetBoolFlags.loop : Flagger → List Char → String → Bool × Flagger × String
  | m, [], err => (true, m, err)
  | m, ch :: rest, err =>
    match m.find [ch] with
    | none => (false, m, "invalid combination of bool flags")
    | some fi => Flagger.SetBoolFlags.loop (m.store [ch] fi.storeTrue) rest err

/-- Method `Flagger::SetBoolFlags`. -/
def Flagger.SetBoolFlags (m : Flagger) (flg : List Char) (err : String) :
    Bool × Flagger × String :=
  match m.find flg with
  | some fi =>
    if fi.type != FlagType.TYPE_bool then (false, m, "value not set for non-bool flag")
    else (true, m.store flg fi.storeTrue, err)
  | none => Flagger.SetBoolFlags.loop m flg err

/-- The state `init_ccflag` works on: the `Flagger` instance, the static `kErrToFile`
and the vector behind `v` (`none` when `v` is `NULL`). -/
structure State where
  flagger : Flagger
  errToFile : Bool
  v : Option (List (List Char))
  deriving DecidableEq

/-- The `for` loop of `init_ccflag(argc, argv, v)` over `args[beg..]`; `none` when
`EXIT_ON_ERR` ends the process. -/
def init_ccflag.loop (strtod : List Char → double × Nat) :
    List (List Char) → State → Option State
  | [], st => some st
  | arg :: rest, st =>
    if arg.head?.getD '\x00' != '-' then
      init_ccflag.loop strtod rest ⟨st.flagger, st.errToFile, st.v.map (fun l => l ++ [arg])⟩
    else
      let bp := std_string.find_first_not_of arg '-'
      let ep := std_string.find arg '='
      if std_string.le ep bp then none
      else
        match ep with
        | none =>
          let r := st.flagger.SetBoolFlags (arg.drop (bp.getD 0)) ""
          if !r.1 then none
          else init_ccflag.loop strtod rest ⟨r.2.1, st.errToFile, st.v⟩
        | some e =>
          let r := st.flagger.SetFlagValue strtod
            (std_string.substr arg (bp.getD 0) (e - bp.getD 0)) (arg.drop (e + 1)) ""
          if !r.1 then none
          else init_ccflag.loop strtod rest ⟨r.2.1, st.errToFile, st.v⟩

/-- The number of leading arguments `init_ccflag` takes for itself: `beg` is 1 when
the first argument has no character other than `'.'`. -/
def init_ccflag.beg (args : List (List Char)) : Nat :=
  match args with
  | a :: _ => if (std_string.find_first_not_of a '.').isNone then 1 else 0
  | [] => 0

/-- Function `void init_ccflag(int argc, char** argv, std::vector<std::string>* v)`,
with `argv` the list `argv[0..argc-1]`; `none` when the process exits inside. -/
def init_ccflag (strtod : List Char → double × Nat) (st : State)
    (argv : List (List Char)) : Option State :=
  if argv.length ≤ 1 then some st
  else
    let args := argv.drop 1
    if args.length == 1 &&
        (match args.head? with
         | some a => (std_string.find_first_not_of a '-').isNone
         | none => false) then none
    else
      init_ccflag.loop strtod (args.drop (init_ccflag.beg args))
        ⟨st.flagger, st.errToFile || init_ccflag.beg args == 1, st.v⟩

/-- The locals of `CommandLineToArgv`: the zeroed block, the pointer `buf` as an
offset from `argv0`, `in_qm`, `after_space` and the vector `v` of offsets. -/
structure ArgvState where
  block : List Char
  buf : Nat
  in_qm : Bool
  after_space : Bool
  v : List Nat

/-- One iteration of the `for` loop of `CommandLineToArgv` on the character `*s`.
`none` when `*(buf - 1)` reads the byte before the block. -/
def CommandLineToArgv.step (st : ArgvState) (ch : Char) : Option ArgvState :=
  if ch == '"' then some ⟨st.block, st.buf, !st.in_qm, st.after_space, st.v⟩
  else if ch == ' ' || ch == '\t' then
    if st.in_qm then some ⟨st.block.set st.buf ch, st.buf + 1, st.in_qm, st.after_space, st.v⟩
    else if st.buf == 0 then none
    else if st.block.getD (st.buf - 1) '\x00' != '\x00' then
      some ⟨st.block.set st.buf '\x00', st.buf + 1, st.in_qm, true, st.v⟩
    else some st
  else if st.after_space then
    some ⟨st.block.set st.buf ch, st.buf + 1, st.in_qm, false, st.v ++ [st.buf]⟩
  else some ⟨st.block.set st.buf ch, st.buf + 1, st.in_qm, st.after_space, st.v⟩

/-- The `for` loop of `CommandLineToArgv`. -/
def CommandLineToArgv.run : ArgvState → List Char → Option ArgvState
  | st, [] => some st
  | st, ch :: rest =>
    match CommandLineToArgv.step st ch with
    | none => none
    | some st1 => CommandLineToArgv.run st1 rest

/-- The C string that starts at offset `i` of the block. -/
def c_str_at (block : List Char) (i : Nat) : List Char :=
  (block.drop i).takeWhile (fun c => c != '\x00')

/-- Function `CommandLineToArgv`: the strings `argv[0..argc-1]`. -/
def CommandLineToArgv (args : List Char) : Option (List (List Char)) :=
  let s := (args.takeWhile (fun c => c != '\x00')).dropWhile (fun c => c == ' ' || c == '\t')
  match CommandLineToArgv.run ⟨List.replicate (args.length + 1) '\x00', 0, false, true, []⟩ s with
  | none => none
  | some st => some (c_str_at st.block 0 :: st.v.map (c_str_at st.block))

/-- Function `void init_ccflag(const std::string& args, std::vector<std::string>* v)`. -/
def init_ccflag_args (strtod : List Char → double × Nat) (st : State) (args : List Char) :
    Option State :=
  match CommandLineToArgv args with
  | none => none
  | some argv => init_ccflag strtod st argv

/-- The unit suffixes a value may end with, each with the exponent `e` of the factor
`2^e` the documentation gives it: none, `K`/`k`, `M`/`m`, `G`/`g`, `T`/`t`. -/
def unitExponents : List (List Char × Nat) :=
  [([], 0), (['K'], 10), (['k'], 10), (['M'], 20), (['m'], 20), (['G'], 30), (['g'], 30),
    (['T'], 40), (['t'], 40)]

/-- The optional leading `'-'` of a value. -/
def signText (neg : Bool) : List Char :=
  if neg then ['-'] else []

end ccflag

/-! ## Lemmas on the integer conversions -/

theorem toUint32_lt (z : Int) : toUint32 z < 2 ^ 32 := by
  unfold toUint32; omega

theorem toUint32_toInt32 (z : Int) : toUint32 (toInt32 z) = toUint32 z := by
  unfold toUint32 toInt32; omega

theorem toUint32_natCast (n : Nat) (h : n < 2 ^ 32) : toUint32 (n : Int) = n := by
  unfold toUint32; omega

theorem toUint32_add (z d : Int) :
    toUint32 (z + d) = ((((toUint32 z : Nat) : Int) + d) % 2 ^ 32).toNat := by
  unfold toUint32; omega

/-! ## `atomic_t` -/

theorem isInt32_toInt32 (z : Int) : IsInt32 (toInt32 z) := by
  unfold IsInt32 toInt32; omega

/-- The class invariant holds after construction and is kept by every method
(for `CompareSwap`, when the new value is an `int32`, as its type says). -/
theorem atomic_t.wf_invariant (a : atomic_t) (v m : Nat) (d n e : Int) :
    (atomic_t.new v).wf ∧ (a.Inc).2.wf ∧ (a.Dec).2.wf ∧ (a.Add d).2.wf ∧
    (a.And m).2.wf ∧ (a.Or m).2.wf ∧ (a.Xor m).2.wf ∧
    (a.wf → IsInt32 n → (a.CompareSwap e n).2.wf) := by
  refine ⟨isInt32_toInt32 _, isInt32_toInt32 _, isInt32_toInt32 _, isInt32_toInt32 _,
    isInt32_toInt32 _, isInt32_toInt32 _, isInt32_toInt32 _, ?_⟩
  intro ha hn
  unfold atomic_t.CompareSwap sync_bool_compare_and_swap
  by_cases h : a._v = e
  · simpa [atomic_t.wf, h] using hn
  · simpa [atomic_t.wf, h] using ha

/-- C1: for every cell and every delta `d`, `Inc()` returns `(v+1) mod 2^32`,
`Dec()` returns `(v-1) mod 2^32` and `Add(d)` returns `(v+d) mod 2^32`, where `v`
is the value of the cell before the call, and `value()` read right afterwards
equals the returned value. -/
theorem atomic_inc_dec_add_new_value (a : atomic_t) (d : Int) :
    (a.Inc).1 = (a.value + 1) % 2 ^ 32 ∧ (a.Inc).2.value = (a.Inc).1 ∧
    (a.Dec).1 = (((a.value : Int) - 1) % 2 ^ 32).toNat ∧ (a.Dec).2.value = (a.Dec).1 ∧
    (a.Add d).1 = (((a.value : Int) + d) % 2 ^ 32).toNat ∧
    (a.Add d).2.value = (a.Add d).1 := by
  simp only [atomic_t.Inc, atomic_t.Dec, atomic_t.Add, atomic_t.value, sync_add_and_fetch,
    toUint32_toInt32]
  refine ⟨?_, trivial, ?_, trivial, ?_, trivial⟩
  · unfold toUint32; omega
  · unfold toUint32; omega
  · exact toUint32_add a._v d

/-- C2: for every cell and every 32-bit mask `m`, `And(m)`, `Or(m)` and `Xor(m)`
return the original value `v` and leave the cell holding `v AND m`, `v OR m` and
`v XOR m` respectively. -/
theorem atomic_and_or_xor_original_value (a : atomic_t) (m : Nat) (hm : m < 2 ^ 32) :
    (a.And m).1 = a.value ∧ (a.And m).2.value = a.value &&& m ∧
    (a.Or m).1 = a.value ∧ (a.Or m).2.value = a.value ||| m ∧
    (a.Xor m).1 = a.value ∧ (a.Xor m).2.value = a.value ^^^ m := by
  have hv : toUint32 a._v < 2 ^ 32 := toUint32_lt a._v
  have hmm : toUint32 (m : Int) = m := toUint32_natCast m hm
  simp only [atomic_t.And, atomic_t.Or, atomic_t.Xor, atomic_t.value, sync_fetch_and_and,
    sync_fetch_and_or, sync_fetch_and_xor, toUint32_toInt32, hmm]
  refine ⟨trivial, ?_, trivial, ?_, trivial, ?_⟩
  · exact toUint32_natCast _ (Nat.and_lt_two_pow _ hm)
  · exact toUint32_natCast _ (Nat.or_lt_two_pow hv hm)
  · exact toUint32_natCast _ (Nat.xor_lt_two_pow hv hm)

/-- Witness of C2 on the cell `12` and the mask `10`. -/
theorem atomic_and_or_xor_original_value_witness :
    (10 : Nat) < 2 ^ 32 ∧
    ((atomic_t.new 12).And 10).1 = (atomic_t.new 12).value ∧
    ((atomic_t.new 12).And 10).2.value = (atomic_t.new 12).value &&& 10 ∧
    ((atomic_t.new 12).Or 10).1 = (atomic_t.new 12).value ∧
    ((atomic_t.new 12).Or 10).2.value = (atomic_t.new 12).value ||| 10 ∧
    ((atomic_t.new 12).Xor 10).1 = (atomic_t.new 12).value ∧
    ((atomic_t.new 12).Xor 10).2.value = (atomic_t.new 12).value ^^^ 10 :=
  ⟨by decide, atomic_and_or_xor_original_value (atomic_t.new 12) 10 (by decide)⟩

/-- C3: for every cell and every pair `(expected, new)` of `int32` values,
`CompareSwap(expected, new)` returns true and leaves the cell holding `new` if the
cell value equals `expected`; otherwise it returns false and leaves the cell
unchanged. -/
theorem atomic_compare_swap (a : atomic_t) (e n : Int) (ha : a.wf) (he : IsInt32 e) :
    (a.value = toUint32 e →
      (a.CompareSwap e n).1 = true ∧ (a.CompareSwap e n).2.value = toUint32 n) ∧
    (a.value ≠ toUint32 e →
      (a.CompareSwap e n).1 = false ∧ (a.CompareSwap e n).2 = a) := by
  have key : a.value = toUint32 e ↔ a._v = e := by
    unfold atomic_t.wf IsInt32 at ha
    unfold IsInt32 at he
    unfold atomic_t.value toUint32
    omega
  constructor
  · intro h
    have h1 : a._v = e := key.mp h
    simp [atomic_t.CompareSwap, sync_bool_compare_and_swap, h1, atomic_t.value]
  · intro h
    have h1 : a._v ≠ e := fun h2 => h (key.mpr h2)
    simp [atomic_t.CompareSwap, sync_bool_compare_and_swap, h1]

/-- Witness of C3 on the cell `5`, swapped to `9`. -/
theorem atomic_compare_swap_witness :
    (atomic_t.new 5).wf ∧ IsInt32 5 ∧
    (((atomic_t.new 5).value = toUint32 5 →
      ((atomic_t.new 5).CompareSwap 5 9).1 = true ∧
      ((atomic_t.new 5).CompareSwap 5 9).2.value = toUint32 9) ∧
    ((atomic_t.new 5).value ≠ toUint32 5 →
      ((atomic_t.new 5).CompareSwap 5 9).1 = false ∧
      ((atomic_t.new 5).CompareSwap 5 9).2 = atomic_t.new 5)) :=
  ⟨by decide, by decide, atomic_compare_swap (atomic_t.new 5) 5 9 (by decide) (by decide)⟩

/-! ## Threads sharing one `atomic_t` -/

theorem toInt32_toInt32_add (z d : Int) : toInt32 (toInt32 z + d) = toInt32 (z + d) := by
  unfold toInt32; omega

theorem toUint32_toInt32_natCast (n : Nat) : toUint32 (toInt32 (n : Int)) = n % 2 ^ 32 := by
  unfold toUint32 toInt32; omega

theorem sum_set_pred (l : List Nat) (t n : Nat) (h : l[t]? = some (n + 1)) :
    (l.set t n).sum + 1 = l.sum := by
  induction l generalizing t with
  | nil => simp at h
  | cons x xs ih =>
    cases t with
    | zero =>
      simp at h
      simp [h]; omega
    | succ t =>
      simp at h
      have := ih t h
      simp [List.set]; omega

theorem lt_length_of_getElem? {α : Type} (l : List α) (t : Nat) (a : α)
    (h : l[t]? = some a) : t < l.length := by
  by_contra hc
  have : l[t]? = none := List.getElem?_eq_none (by omega)
  rw [this] at h; cases h

theorem getElem?_set_self_of_some {α : Type} (l : List α) (t : Nat) (a b : α)
    (h : l[t]? = some a) : (l.set t b)[t]? = some b := by
  have hlt : t < l.length := lt_length_of_getElem? l t a h
  simp [List.getElem?_set, hlt]

theorem forall_zero_of_sum_zero (l : List Nat) (h : l.sum = 0) : ∀ n ∈ l, n = 0 := by
  induction l with
  | nil => simp
  | cons x xs ih =>
    simp at h
    intro n hn
    rcases List.mem_cons.mp hn with h1 | h1
    · omega
    · exact ih h.2 n h1

theorem exists_pos_of_sum_pos (l : List Nat) (h : 0 < l.sum) :
    ∃ (t n : Nat), l[t]? = some (n + 1) := by
  induction l with
  | nil => simp at h
  | cons x xs ih =>
    cases x with
    | zero =>
      simp at h
      obtain ⟨t, n, hn⟩ := ih h
      exact ⟨t + 1, n, by simpa using hn⟩
    | succ m => exact ⟨0, m, by simp⟩

theorem IncSystem.step_spec (s s1 : IncSystem) (t : Nat) (h : s.step t = some s1) :
    s1.cell.value = (s.cell.value + 1) % 2 ^ 32 ∧ s1.todo.sum + 1 = s.todo.sum := by
  unfold IncSystem.step at h
  split at h
  · rename_i n hn
    cases h
    refine ⟨?_, sum_set_pred _ _ _ hn⟩
    simp only [atomic_t.Inc, atomic_t.value, sync_add_and_fetch, toUint32_toInt32]
    unfold toUint32; omega
  · cases h

theorem IncSystem.run_spec (sched : List Nat) (s s1 : IncSystem)
    (h : s.run sched = some s1) :
    s1.cell.value = (s.cell.value + sched.length) % 2 ^ 32 ∧
    s1.todo.sum + sched.length = s.todo.sum := by
  induction sched generalizing s with
  | nil =>
    simp [IncSystem.run] at h
    subst h
    have hlt : s.cell.value < 2 ^ 32 := toUint32_lt _
    simp
    omega
  | cons t ts ih =>
    simp only [IncSystem.run] at h
    cases hs : s.step t with
    | none => rw [hs] at h; cases h
    | some s2 =>
      rw [hs] at h
      have h1 := IncSystem.step_spec s s2 t hs
      have h2 := ih s2 h
      simp only [List.length_cons]
      omega

theorem IncSystem.inc_run_append (s : IncSystem) (xs ys : List Nat) :
    s.run (xs ++ ys) = (s.run xs).bind (fun s1 => s1.run ys) := by
  induction xs generalizing s with
  | nil => rfl
  | cons x xs ih =>
    simp only [List.cons_append, IncSystem.run]
    cases s.step x with
    | none => rfl
    | some s2 => exact ih s2

theorem IncSystem.inc_exists_complete (k : Nat) (s : IncSystem) (h : s.todo.sum = k) :
    ∃ sched s1, s.run sched = some s1 ∧ s1.done := by
  induction k generalizing s with
  | zero => exact ⟨[], s, rfl, forall_zero_of_sum_zero _ h⟩
  | succ k ih =>
    obtain ⟨t, n, hn⟩ := exists_pos_of_sum_pos s.todo (by omega)
    have hstep : s.step t = some ⟨(s.cell.Inc).2, s.todo.set t n⟩ := by
      simp [IncSystem.step, hn]
    have hsum := (IncSystem.step_spec _ _ _ hstep).2
    obtain ⟨sched, s1, hr, hd⟩ := ih ⟨(s.cell.Inc).2, s.todo.set t n⟩ (by simp at hsum ⊢; omega)
    exact ⟨t :: sched, s1, by simp [IncSystem.run, hstep, hr], hd⟩

theorem IncSystem.init_spec (T N : Nat) :
    (IncSystem.init T N).cell.value = 0 ∧ (IncSystem.init T N).todo.sum = T * N := by
  constructor
  · show (atomic_t.new 0).value = 0
    decide
  · simp [IncSystem.init]

theorem IncSystem.final_value (T N : Nat) (sched : List Nat) (s1 : IncSystem)
    (h : (IncSystem.init T N).run sched = some s1) (hd : s1.done) :
    s1.cell.value = (T * N) % 2 ^ 32 := by
  have h1 := IncSystem.run_spec sched _ _ h
  have h2 := IncSystem.init_spec T N
  have h3 : s1.todo.sum = 0 := List.sum_eq_zero hd
  rw [h2.1] at h1
  rw [h1.1]
  congr 1
  omega

theorem IncSystem.run_replicate (k : Nat) (c : atomic_t) (l : List Nat) (t n : Nat)
    (h : l[t]? = some (n + (k + 1))) :
    IncSystem.run ⟨c, l⟩ (List.replicate (k + 1) t) =
      some ⟨⟨toInt32 (c._v + ((k + 1 : Nat) : Int))⟩, l.set t n⟩ := by
  induction k generalizing c l with
  | zero =>
    have hstep : IncSystem.step ⟨c, l⟩ t = some ⟨(c.Inc).2, l.set t n⟩ := by
      simp [IncSystem.step, h]
    simp [List.replicate, IncSystem.run, hstep, atomic_t.Inc, sync_add_and_fetch]
  | succ k ih =>
    have hstep : IncSystem.step ⟨c, l⟩ t = some ⟨(c.Inc).2, l.set t (n + (k + 1))⟩ := by
      simp [IncSystem.step, ← Nat.add_assoc, h]
    have hget : (l.set t (n + (k + 1)))[t]? = some (n + (k + 1)) :=
      getElem?_set_self_of_some l t _ _ h
    have hrun : IncSystem.run ⟨c, l⟩ (List.replicate (k + 1 + 1) t) =
        IncSystem.run ⟨(c.Inc).2, l.set t (n + (k + 1))⟩ (List.replicate (k + 1) t) := by
      rw [List.replicate_succ]
      simp only [IncSystem.run, hstep]
    rw [hrun, ih (c.Inc).2 (l.set t (n + (k + 1))) hget]
    simp only [atomic_t.Inc, sync_add_and_fetch, toInt32_toInt32_add, List.set_set]
    congr 3
    push_cast
    congr 1
    omega

/-- C4 (as stated, refuted): two threads that each make `2^31` calls of `Inc()`,
one after the other, finish with the cell at `0`, not at `2 * 2^31`. -/
theorem atomic_inc_total_counterexample :
    ∃ s1, (IncSystem.init 2 (2 ^ 31)).run
        (List.replicate (2 ^ 31) 0 ++ List.replicate (2 ^ 31) 1) = some s1 ∧
      s1.done ∧ s1.cell.value ≠ 2 * 2 ^ 31 := by
  have hk : (2 ^ 31 - 1 + 1 : Nat) = 2 ^ 31 := by norm_num
  have e1 := IncSystem.run_replicate (2 ^ 31 - 1) (atomic_t.new 0) [2 ^ 31, 2 ^ 31] 0 0
    (by rw [hk]; rfl)
  have e2 := IncSystem.run_replicate (2 ^ 31 - 1)
    ⟨toInt32 ((atomic_t.new 0)._v + ((2 ^ 31 - 1 + 1 : Nat) : Int))⟩ [0, 2 ^ 31] 1 0
    (by rw [hk]; rfl)
  rw [hk] at e1 e2
  have hinit : IncSystem.init 2 (2 ^ 31) = ⟨atomic_t.new 0, [2 ^ 31, 2 ^ 31]⟩ := rfl
  have hcell : toInt32 (toInt32 ((atomic_t.new 0)._v + ((2 ^ 31 : Nat) : Int)) +
      ((2 ^ 31 : Nat) : Int)) = 0 := by
    norm_num [atomic_t.new, toInt32]
  refine ⟨⟨⟨0⟩, [0, 0]⟩, ?_, ?_, ?_⟩
  · rewrite [hinit, IncSystem.inc_run_append, e1, Option.some_bind, List.set_cons_zero, e2, hcell]
    rfl
  · decide
  · norm_num [atomic_t.value, toUint32]

/-- C4 (amended): for every `T` and `N` there is a schedule in which all `T`
threads make their `N` calls of `Inc()`, and in every such schedule, whatever the
interleaving, the cell that started at `0` ends at `T*N mod 2^32`: exactly `T*N`
when `T*N < 2^32`, for instance `800000` for 8 threads and 100000 calls each. -/
theorem atomic_inc_total (T N : Nat) :
    (∃ sched s1, (IncSystem.init T N).run sched = some s1 ∧ s1.done) ∧
    (∀ sched s1, (IncSystem.init T N).run sched = some s1 → s1.done →
      s1.cell.value = (T * N) % 2 ^ 32 ∧ (T * N < 2 ^ 32 → s1.cell.value = T * N)) ∧
    (∀ sched s1, (IncSystem.init 8 100000).run sched = some s1 → s1.done →
      s1.cell.value = 800000) := by
  refine ⟨IncSystem.inc_exists_complete _ _ rfl, ?_, ?_⟩
  · intro sched s1 h hd
    have hv := IncSystem.final_value T N sched s1 h hd
    refine ⟨hv, fun hlt => ?_⟩
    rw [hv]
    exact Nat.mod_eq_of_lt hlt
  · intro sched s1 h hd
    rw [IncSystem.final_value 8 100000 sched s1 h hd]
    norm_num

/-- Witness of C4: two threads with one call each, scheduled `0` then `1`. -/
theorem atomic_inc_total_witness :
    (IncSystem.init 2 1).run [0, 1] = some ⟨⟨2⟩, [0, 0]⟩ ∧
    (⟨⟨2⟩, [0, 0]⟩ : IncSystem).done ∧ 2 * 1 < 2 ^ 32 ∧
    (⟨⟨2⟩, [0, 0]⟩ : IncSystem).cell.value = 2 * 1 :=
  ⟨by decide, by decide, by decide,
    ((atomic_inc_total 2 1).2.1 [0, 1] ⟨⟨2⟩, [0, 0]⟩ (by decide) (by decide)).2 (by decide)⟩

/-! ## `SpinLock` -/

theorem SpinLock.tryLock_of_free (s : SpinLock) (h : s.wf) (hf : s.isFree) :
    s.TryLock = (true, ⟨⟨1⟩⟩) := by
  have h0 : s._lock._v = 0 := by
    unfold SpinLock.wf atomic_t.wf IsInt32 at h
    unfold SpinLock.isFree atomic_t.value toUint32 at hf
    omega
  simp [SpinLock.TryLock, atomic_t.CompareSwap, sync_bool_compare_and_swap, h0]

theorem SpinLock.tryLock_of_held (s : SpinLock) (hh : s.isHeld) :
    s.TryLock = (false, s) := by
  have h0 : s._lock._v ≠ 0 := by
    intro h
    apply hh
    simp [atomic_t.value, h, toUint32]
  simp [SpinLock.TryLock, atomic_t.CompareSwap, sync_bool_compare_and_swap, h0]

theorem SpinLock.lock_of_held (s : SpinLock) (hh : s.isHeld) (fuel : Nat) :
    SpinLock.Lock fuel s = none := by
  induction fuel with
  | zero => rfl
  | succ k ih => simp [SpinLock.Lock, SpinLock.tryLock_of_held s hh, ih]

theorem SpinLock.unLock_eq (s : SpinLock) : s.UnLock = ⟨⟨0⟩⟩ := by
  simp [SpinLock.UnLock, atomic_t.And, sync_fetch_and_and, toInt32, toUint32]

/-- C5: a freshly constructed lock is free; on a free lock `TryLock()` returns
true and leaves it held, and `Lock()` returns at its first attempt; on a held
lock `TryLock()` returns false and leaves it as it is, so that a `Lock()` with no
`UnLock()` in between never succeeds; `UnLock()` leaves the lock free whatever
its state was. -/
theorem spinlock_try_lock_unlock (s : SpinLock) (h : s.wf) :
    SpinLock.new.isFree ∧
    (s.isFree → (s.TryLock).1 = true ∧ (s.TryLock).2.isHeld ∧
      ∀ fuel, SpinLock.Lock (fuel + 1) s = some (s.TryLock).2) ∧
    (s.isHeld → (s.TryLock).1 = false ∧ (s.TryLock).2 = s ∧ (s.TryLock).2.isHeld ∧
      ∀ fuel, SpinLock.Lock fuel s = none) ∧
    (s.UnLock).isFree := by
  refine ⟨by decide, ?_, ?_, ?_⟩
  · intro hf
    have ht := SpinLock.tryLock_of_free s h hf
    refine ⟨by rw [ht], by rw [ht]; decide, ?_⟩
    intro fuel
    simp [SpinLock.Lock, ht]
  · intro hh
    have ht := SpinLock.tryLock_of_held s hh
    exact ⟨by rw [ht], by rw [ht], by rw [ht]; exact hh, SpinLock.lock_of_held s hh⟩
  · rw [SpinLock.unLock_eq]
    decide

/-- Witness of C5 on the freshly constructed lock. -/
theorem spinlock_try_lock_unlock_witness :
    SpinLock.new.wf ∧ SpinLock.new.isFree ∧
    (SpinLock.new.isFree → (SpinLock.new.TryLock).1 = true ∧
      (SpinLock.new.TryLock).2.isHeld ∧
      ∀ fuel, SpinLock.Lock (fuel + 1) SpinLock.new = some (SpinLock.new.TryLock).2) ∧
    (SpinLock.new.isHeld → (SpinLock.new.TryLock).1 = false ∧
      (SpinLock.new.TryLock).2 = SpinLock.new ∧ (SpinLock.new.TryLock).2.isHeld ∧
      ∀ fuel, SpinLock.Lock fuel SpinLock.new = none) ∧
    (SpinLock.new.UnLock).isFree :=
  ⟨by decide, spinlock_try_lock_unlock SpinLock.new (by decide)⟩

/-! ## Threads incrementing a plain counter under a `SpinLock` -/

theorem getElem?_set_cases {α : Type} (l : List α) (t j : Nat) (b c : α)
    (h : (l.set t b)[j]? = some c) : (j = t ∧ c = b) ∨ (j ≠ t ∧ l[j]? = some c) := by
  rw [List.getElem?_set] at h
  by_cases e : t = j
  · left
    rw [if_pos e] at h
    split at h
    · exact ⟨e.symm, by cases h; rfl⟩
    · cases h
  · right
    rw [if_neg e] at h
    exact ⟨fun e1 => e e1.symm, h⟩

theorem sum_map_set {α : Type} (f : α → Nat) (l : List α) (t : Nat) (a b : α)
    (h : l[t]? = some a) : ((l.set t b).map f).sum + f a = (l.map f).sum + f b := by
  induction l generalizing t with
  | nil => simp at h
  | cons x xs ih =>
    cases t with
    | zero =>
      simp at h
      simp [h]; omega
    | succ t =>
      simp at h
      have := ih t h
      simp only [List.set_cons_succ, List.map_cons, List.sum_cons]; omega

theorem LockSystem.inv_init (T N : Nat) : (LockSystem.init T N).Inv (T * N) := by
  have hw : ∀ (i : Nat) (a : Worker), (LockSystem.init T N).workers[i]? = some a →
      a = ⟨Pc.acquire, 0, N⟩ := by
    intro i a h
    simp only [LockSystem.init, List.getElem?_replicate] at h
    split at h
    · cases h; rfl
    · cases h
  refine ⟨Or.inl rfl, ?_, ?_, ?_, ?_, ?_⟩
  · intro i a h hcs
    rw [hw i a h] at hcs
    exact absurd rfl hcs
  · intro i j a b ha hb hcs
    rw [hw i a ha] at hcs
    exact absurd rfl hcs
  · intro i a h hpc
    rw [hw i a h] at hpc
    cases hpc
  · intro i a h hcs
    rw [hw i a h] at hcs
    exact absurd rfl hcs
  · simp [LockSystem.init, Worker.remaining]

theorem LockSystem.inv_step (total : Nat) (s s1 : LockSystem) (t : Nat)
    (hinv : s.Inv total) (h : s.step t = some s1) : s1.Inv total := by
  obtain ⟨hI1, hI2, hI3, hI5, hI6, hI7⟩ := hinv
  unfold LockSystem.step at h
  cases hw : s.workers[t]? with
  | none => rw [hw] at h; cases h
  | some w =>
    rw [hw] at h
    simp only at h
    by_cases h0 : w.todo = 0
    · rw [if_pos h0] at h; cases h
    · rw [if_neg h0] at h
      have hothers : w.inCS → ∀ (j : Nat) (b : Worker), j ≠ t → s.workers[j]? = some b →
          ¬ b.inCS := fun hcs j b hne hb hbcs => hne (hI3 j t b w hb hw hbcs hcs)
      have hsum := fun w1 => sum_map_set Worker.remaining s.workers t w w1 hw
      cases hpc : w.pc with
      | acquire =>
        rw [hpc] at h
        simp only at h
        rcases hI1 with hl | hl
        · have ht : s.lock.TryLock = (true, ⟨⟨1⟩⟩) := by
            simp [SpinLock.TryLock, atomic_t.CompareSwap, sync_bool_compare_and_swap, hl]
          rw [ht] at h
          simp only [if_true] at h
          cases h
          have hfree : ∀ (j : Nat) (b : Worker), s.workers[j]? = some b → ¬ b.inCS := by
            intro j b hb hcs
            have := hI2 j b hb hcs
            omega
          refine ⟨Or.inr rfl, fun _ _ _ _ => rfl, ?_, ?_, ?_, ?_⟩
          · intro i j a b ha hb hacs hbcs
            rcases getElem?_set_cases _ _ _ _ _ ha with ⟨hi, _⟩ | ⟨_, ha1⟩
            · rcases getElem?_set_cases _ _ _ _ _ hb with ⟨hj, _⟩ | ⟨_, hb1⟩
              · omega
              · exact absurd hbcs (hfree j b hb1)
            · exact absurd hacs (hfree i a ha1)
          · intro i a ha hst
            rcases getElem?_set_cases _ _ _ _ _ ha with ⟨_, rfl⟩ | ⟨_, ha1⟩
            · cases hst
            · exact hI5 i a ha1 hst
          · intro i a ha hcs
            rcases getElem?_set_cases _ _ _ _ _ ha with ⟨_, rfl⟩ | ⟨_, ha1⟩
            · show 1 ≤ w.todo
              omega
            · exact hI6 i a ha1 hcs
          · have := hsum ⟨Pc.load, w.tmp, w.todo⟩
            simp only [Worker.remaining, hpc, reduceCtorEq, if_false] at this
            show s.counter + (List.map Worker.remaining (s.workers.set t _)).sum = total
            omega
        · have ht : s.lock.TryLock = (false, s.lock) :=
            SpinLock.tryLock_of_held s.lock
              (by simp [SpinLock.isHeld, atomic_t.value, hl, toUint32])
          rw [ht] at h
          simp only [Bool.false_eq_true, if_false] at h
          cases h
          exact ⟨Or.inr hl, hI2, hI3, hI5, hI6, hI7⟩
      | load =>
        rw [hpc] at h
        simp only at h
        cases h
        have hwcs : w.inCS := by simp [Worker.inCS, hpc]
        refine ⟨hI1, ?_, ?_, ?_, ?_, ?_⟩
        · intro i a ha hcs
          exact hI2 t w hw hwcs
        · intro i j a b ha hb hacs hbcs
          rcases getElem?_set_cases _ _ _ _ _ ha with ⟨hi, _⟩ | ⟨hi, ha1⟩
          · rcases getElem?_set_cases _ _ _ _ _ hb with ⟨hj, _⟩ | ⟨hj, hb1⟩
            · omega
            · exact absurd hbcs (hothers hwcs j b hj hb1)
          · exact absurd hacs (hothers hwcs i a hi ha1)
        · intro i a ha hst
          rcases getElem?_set_cases _ _ _ _ _ ha with ⟨_, rfl⟩ | ⟨_, ha1⟩
          · rfl
          · exact hI5 i a ha1 hst
        · intro i a ha hcs
          rcases getElem?_set_cases _ _ _ _ _ ha with ⟨_, rfl⟩ | ⟨_, ha1⟩
          · exact hI6 t w hw hwcs
          · exact hI6 i a ha1 hcs
        · have := hsum ⟨Pc.store, s.counter, w.todo⟩
          simp only [Worker.remaining, hpc, reduceCtorEq, if_false] at this
          show s.counter + (List.map Worker.remaining (s.workers.set t _)).sum = total
          omega
      | store =>
        rw [hpc] at h
        simp only at h
        cases h
        have hwcs : w.inCS := by simp [Worker.inCS, hpc]
        have htmp : w.tmp = s.counter := hI5 t w hw hpc
        have htodo : 1 ≤ w.todo := hI6 t w hw hwcs
        refine ⟨hI1, ?_, ?_, ?_, ?_, ?_⟩
        · intro i a ha hcs
          exact hI2 t w hw hwcs
        · intro i j a b ha hb hacs hbcs
          rcases getElem?_set_cases _ _ _ _ _ ha with ⟨hi, _⟩ | ⟨hi, ha1⟩
          · rcases getElem?_set_cases _ _ _ _ _ hb with ⟨hj, _⟩ | ⟨hj, hb1⟩
            · omega
            · exact absurd hbcs (hothers hwcs j b hj hb1)
          · exact absurd hacs (hothers hwcs i a hi ha1)
        · intro i a ha hst
          rcases getElem?_set_cases _ _ _ _ _ ha with ⟨_, rfl⟩ | ⟨hi, ha1⟩
          · cases hst
          · have hacs : a.inCS := by simp [Worker.inCS, hst]
            exact absurd hacs (hothers hwcs i a hi ha1)
        · intro i a ha hcs
          rcases getElem?_set_cases _ _ _ _ _ ha with ⟨_, rfl⟩ | ⟨_, ha1⟩
          · exact htodo
          · exact hI6 i a ha1 hcs
        · have := hsum ⟨Pc.release, w.tmp, w.todo⟩
          simp only [Worker.remaining, hpc, reduceCtorEq, if_false, if_true] at this
          show w.tmp + 1 + (List.map Worker.remaining (s.workers.set t _)).sum = total
          omega
      | release =>
        rw [hpc] at h
        simp only [SpinLock.unLock_eq] at h
        cases h
        have hwcs : w.inCS := by simp [Worker.inCS, hpc]
        have hnone : ∀ (i : Nat) (a : Worker),
            (s.workers.set t ⟨Pc.acquire, w.tmp, w.todo - 1⟩)[i]? = some a → ¬ a.inCS := by
          intro i a ha hcs
          rcases getElem?_set_cases _ _ _ _ _ ha with ⟨_, rfl⟩ | ⟨hi, ha1⟩
          · exact hcs rfl
          · exact hothers hwcs i a hi ha1 hcs
        refine ⟨?_, ?_, ?_, ?_, ?_, ?_⟩
        · left
          rfl
        · intro i a ha hcs
          exact absurd hcs (hnone i a ha)
        · intro i j a b ha hb hacs hbcs
          exact absurd hacs (hnone i a ha)
        · intro i a ha hst
          have hacs : a.inCS := by simp [Worker.inCS, hst]
          exact absurd hacs (hnone i a ha)
        · intro i a ha hcs
          exact absurd hcs (hnone i a ha)
        · have := hsum ⟨Pc.acquire, w.tmp, w.todo - 1⟩
          simp only [Worker.remaining, hpc, reduceCtorEq, if_false, if_true] at this
          show s.counter + (List.map Worker.remaining (s.workers.set t _)).sum = total
          omega

theorem LockSystem.inv_run (total : Nat) (sched : List Nat) (s s1 : LockSystem)
    (hinv : s.Inv total) (h : s.run sched = some s1) : s1.Inv total := by
  induction sched generalizing s with
  | nil =>
    simp [LockSystem.run] at h
    subst h
    exact hinv
  | cons t ts ih =>
    simp only [LockSystem.run] at h
    cases hs : s.step t with
    | none => rw [hs] at h; cases h
    | some s2 =>
      rw [hs] at h
      exact ih s2 (LockSystem.inv_step total s s2 t hinv hs) h

theorem LockSystem.run_iteration (s : LockSystem) (t : Nat) (w : Worker)
    (hl : s.lock._lock._v = 0) (hw : s.workers[t]? = some w) (hpc : w.pc = Pc.acquire)
    (htodo : w.todo ≠ 0) :
    s.run [t, t, t, t] =
      some ⟨⟨⟨0⟩⟩, s.counter + 1, s.workers.set t ⟨Pc.acquire, s.counter, w.todo - 1⟩⟩ := by
  have hget : ∀ x : Worker, (s.workers.set t x)[t]? = some x :=
    fun x => getElem?_set_self_of_some s.workers t w x hw
  have h1 : s.step t = some ⟨⟨⟨1⟩⟩, s.counter, s.workers.set t ⟨Pc.load, w.tmp, w.todo⟩⟩ := by
    simp [LockSystem.step, hw, htodo, hpc, SpinLock.TryLock, atomic_t.CompareSwap,
      sync_bool_compare_and_swap, hl]
  have h2 : LockSystem.step ⟨⟨⟨1⟩⟩, s.counter, s.workers.set t ⟨Pc.load, w.tmp, w.todo⟩⟩ t =
      some ⟨⟨⟨1⟩⟩, s.counter, s.workers.set t ⟨Pc.store, s.counter, w.todo⟩⟩ := by
    simp [LockSystem.step, hget, htodo]
  have h3 : LockSystem.step ⟨⟨⟨1⟩⟩, s.counter, s.workers.set t ⟨Pc.store, s.counter, w.todo⟩⟩ t =
      some ⟨⟨⟨1⟩⟩, s.counter + 1, s.workers.set t ⟨Pc.release, s.counter, w.todo⟩⟩ := by
    simp [LockSystem.step, hget, htodo]
  have h4 : LockSystem.step
      ⟨⟨⟨1⟩⟩, s.counter + 1, s.workers.set t ⟨Pc.release, s.counter, w.todo⟩⟩ t =
      some ⟨⟨⟨0⟩⟩, s.counter + 1, s.workers.set t ⟨Pc.acquire, s.counter, w.todo - 1⟩⟩ := by
    simp [LockSystem.step, hget, htodo, SpinLock.unLock_eq]
  simp only [LockSystem.run, h1, h2, h3, h4]

theorem LockSystem.lock_run_append (s : LockSystem) (xs ys : List Nat) :
    s.run (xs ++ ys) = (s.run xs).bind (fun s1 => s1.run ys) := by
  induction xs generalizing s with
  | nil => rfl
  | cons x xs ih =>
    simp only [List.cons_append, LockSystem.run]
    cases s.step x with
    | none => rfl
    | some s2 => exact ih s2

theorem LockSystem.lock_exists_complete (k : Nat) (s : LockSystem)
    (hl : s.lock._lock._v = 0) (ha : ∀ w ∈ s.workers, w.pc = Pc.acquire)
    (hs : (s.workers.map Worker.todo).sum = k) :
    ∃ sched s1, s.run sched = some s1 ∧ s1.done := by
  induction k generalizing s with
  | zero =>
    refine ⟨[], s, rfl, ?_⟩
    intro w hw
    exact forall_zero_of_sum_zero _ hs w.todo (List.mem_map_of_mem _ hw)
  | succ k ih =>
    obtain ⟨t, n, hn⟩ := exists_pos_of_sum_pos (s.workers.map Worker.todo) (by omega)
    rw [List.getElem?_map] at hn
    cases hw : s.workers[t]? with
    | none => rw [hw] at hn; cases hn
    | some w =>
      rw [hw] at hn
      have htodo : w.todo = n + 1 := by simpa using hn
      have hit := LockSystem.run_iteration s t w hl hw (ha w (List.getElem?_mem hw)) (by omega)
      have hsum := sum_map_set Worker.todo s.workers t w ⟨Pc.acquire, s.counter, w.todo - 1⟩ hw
      obtain ⟨sched, s1, hr, hd⟩ :=
        ih ⟨⟨⟨0⟩⟩, s.counter + 1, s.workers.set t ⟨Pc.acquire, s.counter, w.todo - 1⟩⟩ rfl
          (by
            intro x hx
            rcases List.mem_or_eq_of_mem_set hx with h1 | h1
            · exact ha x h1
            · rw [h1])
          (by
            show (List.map Worker.todo (s.workers.set t _)).sum = k
            simp only at hsum
            omega)
      refine ⟨[t, t, t, t] ++ sched, s1, ?_, hd⟩
      rw [LockSystem.lock_run_append, hit]
      exact hr

/-- C6: for every number of threads `T` and of iterations `N`, in every
interleaving of the threads' steps no two threads are ever inside the critical
section, and when all threads have finished the plain counter is exactly `T*N`;
a schedule in which all threads finish exists. -/
theorem spinlock_mutual_exclusion (T N : Nat) :
    (∃ sched s1, (LockSystem.init T N).run sched = some s1 ∧ s1.done) ∧
    (∀ sched s1, (LockSystem.init T N).run sched = some s1 →
      s1.mutex ∧ (s1.done → s1.counter = T * N)) := by
  constructor
  · refine LockSystem.lock_exists_complete _ (LockSystem.init T N) rfl ?_ rfl
    intro w hw
    simp only [LockSystem.init] at hw
    rw [List.eq_of_mem_replicate hw]
  · intro sched s1 h
    obtain ⟨_, _, hmutex, _, _, hsum⟩ :=
      LockSystem.inv_run (T * N) sched _ s1 (LockSystem.inv_init T N) h
    refine ⟨hmutex, fun hd => ?_⟩
    have hz : (s1.workers.map Worker.remaining).sum = 0 := by
      apply List.sum_eq_zero
      intro x hx
      obtain ⟨w, hw, rfl⟩ := List.mem_map.mp hx
      have := hd w hw
      simp [Worker.remaining, this]
    omega

/-- Witness of C6: two threads with one iteration each, the second spinning on
the held lock before it gets in. -/
theorem spinlock_mutual_exclusion_witness :
    (LockSystem.init 2 1).run [0, 1, 0, 1, 0, 0, 1, 1, 1, 1] =
      some ⟨⟨⟨0⟩⟩, 2, [⟨Pc.acquire, 0, 0⟩, ⟨Pc.acquire, 1, 0⟩]⟩ ∧
    (⟨⟨⟨0⟩⟩, 2, [⟨Pc.acquire, 0, 0⟩, ⟨Pc.acquire, 1, 0⟩]⟩ : LockSystem).done ∧
    (⟨⟨⟨0⟩⟩, 2, [⟨Pc.acquire, 0, 0⟩, ⟨Pc.acquire, 1, 0⟩]⟩ : LockSystem).counter = 2 * 1 :=
  ⟨by decide, by decide,
    ((spinlock_mutual_exclusion 2 1).2 [0, 1, 0, 1, 0, 0, 1, 1, 1, 1]
      ⟨⟨⟨0⟩⟩, 2, [⟨Pc.acquire, 0, 0⟩, ⟨Pc.acquire, 1, 0⟩]⟩ (by decide)).2 (by decide)⟩

/-! ## `RefCounted` -/

theorem RefCounted.ref_count_new : RefCounted.new.ref_count = 1 := by decide

theorem RefCounted.ref_count_ref (r : RefCounted) :
    r.ref.ref_count = (r.ref_count + 1) % 2 ^ 32 := by
  simp only [RefCounted.ref, RefCounted.ref_count, atomic_t.Inc, atomic_t.value,
    sync_add_and_fetch, toUint32_toInt32]
  unfold toUint32; omega

theorem RefCounted.ref_count_unref (r : RefCounted) :
    (r.unref).2.ref_count = (((r.ref_count : Int) - 1) % 2 ^ 32).toNat ∧
    ((r.unref).1 = true ↔ r.ref_count = 1) := by
  simp only [RefCounted.unref, RefCounted.ref_count, atomic_t.Dec, atomic_t.value,
    sync_add_and_fetch, toUint32_toInt32, decide_eq_true_eq]
  unfold toUint32
  constructor <;> omega

theorem ObjCell.run_alive (cs : List RefCall) (r : RefCounted) (c0 d : Nat)
    (hc : r._count._v = toInt32 c0) (h1 : 1 ≤ c0)
    (hb : c0 + cs.count RefCall.ref ≤ 2 ^ 32) :
    (∃ r1, ObjCell.run ⟨some r, d⟩ cs = some ⟨some r1, d⟩ ∧
      (∀ k, k ≤ cs.length →
        (cs.take k).count RefCall.unref < (cs.take k).count RefCall.ref + c0)) ∨
    (ObjCell.run ⟨some r, d⟩ cs = some ⟨none, d + 1⟩ ∧
      cs.count RefCall.unref = cs.count RefCall.ref + c0 ∧
      (∀ k, k < cs.length →
        (cs.take k).count RefCall.unref < (cs.take k).count RefCall.ref + c0)) ∨
    (ObjCell.run ⟨some r, d⟩ cs = none ∧
      ∃ k, k < cs.length ∧
        (cs.take k).count RefCall.unref = (cs.take k).count RefCall.ref + c0) := by
  induction cs generalizing r c0 with
  | nil =>
    left
    refine ⟨r, rfl, ?_⟩
    intro k hk
    simp
    omega
  | cons c cs ih =>
    cases c with
    | ref =>
      have hrun : ObjCell.run ⟨some r, d⟩ (RefCall.ref :: cs) =
          ObjCell.run ⟨some r.ref, d⟩ cs := rfl
      have hc1 : r.ref._count._v = toInt32 ((c0 + 1 : Nat) : Int) := by
        simp only [RefCounted.ref, atomic_t.Inc, sync_add_and_fetch, hc, toInt32_toInt32_add]
        rfl
      have hb1 : c0 + 1 + cs.count RefCall.ref ≤ 2 ^ 32 := by
        simp [List.count_cons] at hb
        omega
      rw [hrun]
      rcases ih r.ref (c0 + 1) hc1 (by omega) hb1 with ⟨r1, e, hp⟩ | ⟨e, hn, hp⟩ | ⟨e, k, hk, hp⟩
      · left
        refine ⟨r1, e, ?_⟩
        intro k hk
        cases k with
        | zero => simp; omega
        | succ k =>
          have := hp k (by simpa using hk)
          simp [List.take_succ_cons, List.count_cons]
          omega
      · right; left
        refine ⟨e, ?_, ?_⟩
        · simp [List.count_cons]; omega
        · intro k hk
          cases k with
          | zero => simp; omega
          | succ k =>
            have := hp k (by simpa using hk)
            simp [List.take_succ_cons, List.count_cons]
            omega
      · right; right
        refine ⟨e, k + 1, by simpa using hk, ?_⟩
        simp [List.take_succ_cons, List.count_cons]
        omega
    | unref =>
      by_cases h2 : c0 = 1
      · have hdel : (r.unref).1 = true := by
          simp only [RefCounted.unref, atomic_t.Dec, sync_add_and_fetch, hc, h2,
            decide_eq_true_eq]
          decide
        have hcall : ObjCell.call ⟨some r, d⟩ RefCall.unref = some ⟨none, d + 1⟩ := by
          simp [ObjCell.call, hdel]
        cases cs with
        | nil =>
          right; left
          refine ⟨by simp [ObjCell.run, hcall], by simp [h2], ?_⟩
          intro k hk
          have : k = 0 := by simpa using hk
          subst this
          simp
          omega
        | cons c1 cs1 =>
          right; right
          have hrun : ObjCell.run ⟨some r, d⟩ (RefCall.unref :: c1 :: cs1) = none := by
            simp only [ObjCell.run, hcall]
            rfl
          exact ⟨hrun, 1, by simp, by simp [h2]⟩
      · have hdel : (r.unref).1 = false := by
          have hb2 : c0 ≤ 2 ^ 32 := by omega
          simp only [RefCounted.unref, atomic_t.Dec, sync_add_and_fetch, hc,
            toInt32_toInt32_add, toUint32_toInt32, decide_eq_false_iff_not]
          unfold toUint32
          omega
        have hcall : ObjCell.call ⟨some r, d⟩ RefCall.unref = some ⟨some (r.unref).2, d⟩ := by
          simp [ObjCell.call, hdel]
        have hrun : ObjCell.run ⟨some r, d⟩ (RefCall.unref :: cs) =
            ObjCell.run ⟨some (r.unref).2, d⟩ cs := by
          simp [ObjCell.run, hcall]
        have hc1 : (r.unref).2._count._v = toInt32 ((c0 - 1 : Nat) : Int) := by
          simp only [RefCounted.unref, atomic_t.Dec, sync_add_and_fetch, hc,
            toInt32_toInt32_add]
          congr 1
          omega
        have hb1 : c0 - 1 + cs.count RefCall.ref ≤ 2 ^ 32 := by
          simp [List.count_cons] at hb
          omega
        rw [hrun]
        rcases ih (r.unref).2 (c0 - 1) hc1 (by omega) hb1 with
          ⟨r1, e, hp⟩ | ⟨e, hn, hp⟩ | ⟨e, k, hk, hp⟩
        · left
          refine ⟨r1, e, ?_⟩
          intro k hk
          cases k with
          | zero => simp; omega
          | succ k =>
            have := hp k (by simpa using hk)
            simp [List.take_succ_cons, List.count_cons]
            omega
        · right; left
          refine ⟨e, ?_, ?_⟩
          · simp [List.count_cons]; omega
          · intro k hk
            cases k with
            | zero => simp; omega
            | succ k =>
              have := hp k (by simpa using hk)
              simp [List.take_succ_cons, List.count_cons]
              omega
        · right; right
          refine ⟨e, k + 1, by simpa using hk, ?_⟩
          simp [List.take_succ_cons, List.count_cons]
          omega

theorem ObjCell.call_destroys_iff (r : RefCounted) (d : Nat) (c : RefCall) :
    (ObjCell.call ⟨some r, d⟩ c = some ⟨none, d + 1⟩ ↔ (c = RefCall.unref ∧ r.ref_count = 1)) ∧
    (ObjCell.call ⟨some r, d⟩ c ≠ some ⟨none, d + 1⟩ →
      ∃ r1, ObjCell.call ⟨some r, d⟩ c = some ⟨some r1, d⟩) := by
  cases c with
  | ref => simp [ObjCell.call]
  | unref =>
    have h := (RefCounted.ref_count_unref r).2
    by_cases hd : (r.unref).1 = true
    · simp [ObjCell.call, hd, h.mp hd]
    · have h1 : ¬ r.ref_count = 1 := fun e => hd (h.mpr e)
      simp [ObjCell.call, hd, h1]

theorem ObjCell.run_replicate_ref (k : Nat) (r : RefCounted) (d : Nat) (cs : List RefCall) :
    ObjCell.run ⟨some r, d⟩ (List.replicate (k + 1) RefCall.ref ++ cs) =
      ObjCell.run ⟨some ⟨⟨toInt32 (r._count._v + ((k + 1 : Nat) : Int))⟩⟩, d⟩ cs := by
  induction k generalizing r with
  | zero => rfl
  | succ k ih =>
    have hrun : ObjCell.run ⟨some r, d⟩ (List.replicate (k + 1 + 1) RefCall.ref ++ cs) =
        ObjCell.run ⟨some r.ref, d⟩ (List.replicate (k + 1) RefCall.ref ++ cs) := by
      rw [List.replicate_succ]
      rfl
    rw [hrun, ih r.ref]
    simp only [RefCounted.ref, atomic_t.Inc, sync_add_and_fetch, toInt32_toInt32_add]
    congr 6
    push_cast
    omega

/-- C7 (as stated, refuted): after `2^32` calls of `ref()` the 32-bit counter is
back at `1`, so a single `unref()` destroys the object although the unrefs (one)
do not exceed the refs (`2^32`). -/
theorem refcounted_destroyed_once_counterexample :
    ObjCell.fresh.run (List.replicate (2 ^ 32) RefCall.ref ++ [RefCall.unref]) =
      some ⟨none, 1⟩ ∧
    (List.replicate (2 ^ 32) RefCall.ref ++ [RefCall.unref]).count RefCall.unref = 1 ∧
    (List.replicate (2 ^ 32) RefCall.ref ++ [RefCall.unref]).count RefCall.ref = 2 ^ 32 := by
  have hk : (2 ^ 32 - 1 + 1 : Nat) = 2 ^ 32 := by norm_num
  have e1 := ObjCell.run_replicate_ref (2 ^ 32 - 1) RefCounted.new 0 [RefCall.unref]
  rw [hk] at e1
  have hcell : toInt32 (RefCounted.new._count._v + ((2 ^ 32 : Nat) : Int)) = 1 := by
    norm_num [RefCounted.new, atomic_t.new, toInt32]
  refine ⟨?_, ?_, ?_⟩
  · show ObjCell.run ⟨some RefCounted.new, 0⟩ _ = _
    rewrite [e1, hcell]
    decide
  · rewrite [List.count_append, List.count_replicate]
    decide
  · rewrite [List.count_append, List.count_replicate]
    have h0 : List.count RefCall.ref [RefCall.unref] = 0 := by decide
    rw [h0]
    norm_num

/-- C7 (amended): a fresh object has count 1; `ref()` adds one and `unref()`
subtracts one modulo `2^32`, and a call destroys the object exactly when it is
an `unref()` on count 1.  For every sequence of calls with fewer than `2^32`
calls of `ref()`: the sequence runs on a fresh object unless a proper prefix has
already destroyed it, which is the case exactly when at some earlier point the
unrefs exceeded the refs by one; after a sequence that runs, the object has been
destroyed (once) exactly when the unrefs now exceed the refs by one, and at no
earlier point did the unrefs exceed the refs. -/
theorem refcounted_destroyed_once (cs : List RefCall)
    (hb : cs.count RefCall.ref < 2 ^ 32) :
    RefCounted.new.ref_count = 1 ∧
    (∀ r : RefCounted, r.ref.ref_count = (r.ref_count + 1) % 2 ^ 32 ∧
      (r.unref).2.ref_count = (((r.ref_count : Int) - 1) % 2 ^ 32).toNat ∧
      ((r.unref).1 = true ↔ r.ref_count = 1)) ∧
    (∀ (r : RefCounted) (d : Nat) (c : RefCall),
      (ObjCell.call ⟨some r, d⟩ c = some ⟨none, d + 1⟩ ↔
        (c = RefCall.unref ∧ r.ref_count = 1)) ∧
      (ObjCell.call ⟨some r, d⟩ c ≠ some ⟨none, d + 1⟩ →
        ∃ r1, ObjCell.call ⟨some r, d⟩ c = some ⟨some r1, d⟩)) ∧
    (∀ s, ObjCell.fresh.run cs = some s →
      (s.obj = none ↔ cs.count RefCall.unref = cs.count RefCall.ref + 1) ∧
      s.deletions = (if s.obj = none then 1 else 0) ∧
      ∀ k, k < cs.length →
        (cs.take k).count RefCall.unref ≤ (cs.take k).count RefCall.ref) ∧
    (ObjCell.fresh.run cs = none ↔
      ∃ k, k < cs.length ∧
        (cs.take k).count RefCall.unref = (cs.take k).count RefCall.ref + 1) := by
  refine ⟨RefCounted.ref_count_new, fun r => ⟨RefCounted.ref_count_ref r,
    RefCounted.ref_count_unref r⟩, ObjCell.call_destroys_iff, ?_, ?_⟩
  · intro s hs
    rcases ObjCell.run_alive cs RefCounted.new 1 0 rfl (by omega) (by omega) with
      ⟨r1, e, hp⟩ | ⟨e, hn, hp⟩ | ⟨e, _⟩
    · have hs1 : s = ⟨some r1, 0⟩ := by
        have := hs.symm.trans e
        exact Option.some.inj this
      subst hs1
      have hlen := hp cs.length (le_refl _)
      rw [List.take_length] at hlen
      refine ⟨?_, by simp, ?_⟩
      · constructor
        · intro h; cases h
        · intro h; omega
      · intro k hk
        have := hp k (by omega)
        omega
    · have hs1 : s = ⟨none, 1⟩ := by
        have := hs.symm.trans e
        exact Option.some.inj this
      subst hs1
      refine ⟨?_, by simp, ?_⟩
      · constructor
        · intro _; exact hn
        · intro _; rfl
      · intro k hk
        have := hp k hk
        omega
    · have : ObjCell.run ⟨some RefCounted.new, 0⟩ cs = some s := hs
      rw [e] at this
      cases this
  · rcases ObjCell.run_alive cs RefCounted.new 1 0 rfl (by omega) (by omega) with
      ⟨r1, e, hp⟩ | ⟨e, hn, hp⟩ | ⟨e, k, hk, hx⟩
    · constructor
      · intro h
        have : ObjCell.run ⟨some RefCounted.new, 0⟩ cs = none := h
        rw [e] at this
        cases this
      · rintro ⟨k, hk, hx⟩
        have := hp k (by omega)
        omega
    · constructor
      · intro h
        have : ObjCell.run ⟨some RefCounted.new, 0⟩ cs = none := h
        rw [e] at this
        cases this
      · rintro ⟨k, hk, hx⟩
        have := hp k hk
        omega
    · exact ⟨fun _ => ⟨k, hk, hx⟩, fun _ => e⟩

/-- Witness of C7 on the calls `ref, unref, unref`. -/
theorem refcounted_destroyed_once_witness :
    [RefCall.ref, RefCall.unref, RefCall.unref].count RefCall.ref < 2 ^ 32 ∧
    ObjCell.fresh.run [RefCall.ref, RefCall.unref, RefCall.unref] = some ⟨none, 1⟩ ∧
    ((⟨none, 1⟩ : ObjCell).obj = none ↔
      [RefCall.ref, RefCall.unref, RefCall.unref].count RefCall.unref =
        [RefCall.ref, RefCall.unref, RefCall.unref].count RefCall.ref + 1) :=
  ⟨by decide, by decide,
    ((refcounted_destroyed_once [RefCall.ref, RefCall.unref, RefCall.unref]
      (by decide)).2.2.2.1 ⟨none, 1⟩ (by decide)).1⟩

/-! ## `shared_ptr` -/

theorem le_sum_map_of_getElem? {α : Type} (f : α → Nat) (l : List α) (i : Nat) (x : α)
    (h : l[i]? = some x) : f x ≤ (l.map f).sum := by
  induction l generalizing i with
  | nil => simp at h
  | cons y ys ih =>
    cases i with
    | zero =>
      simp at h
      simp [h]
    | succ i =>
      simp at h
      have := ih i h
      simp only [List.map_cons, List.sum_cons]
      omega

theorem sum_map_le_length {α : Type} (f : α → Nat) (hf : ∀ x, f x ≤ 1) (l : List α) :
    (l.map f).sum ≤ l.length := by
  induction l with
  | nil => simp
  | cons y ys ih =>
    have := hf y
    simp only [List.map_cons, List.sum_cons, List.length_cons]
    omega

theorem holdsBox_le_one (h : Option shared_ptr) : holdsBox h ≤ 1 := by
  unfold holdsBox; split <;> omega

theorem World.holders_le_length (w : World) : w.holders ≤ w.handles.length :=
  sum_map_le_length holdsBox holdsBox_le_one w.handles

theorem World.live_iff (w : World) (i : Nat) (h : shared_ptr) :
    w.live i = some h ↔ w.handles[i]? = some (some h) := by
  unfold World.live
  exact Option.join_eq_some

theorem shared_ptr.null_or_box (h : shared_ptr) : h = ⟨⟨BoxPtr.null⟩⟩ ∨ h = ⟨⟨BoxPtr.box⟩⟩ := by
  obtain ⟨⟨p⟩⟩ := h
  cases p
  · left; rfl
  · right; rfl

theorem Mem.good_ref (ptr n : Nat) (m : Mem) (hg : m.Good ptr n) (h1 : 1 ≤ n) :
    ∃ m1, m.refBox = some m1 ∧ m1.Good ptr (n + 1) := by
  unfold Mem.Good at hg
  rw [if_neg (by omega)] at hg
  obtain ⟨r, rfl, hc⟩ := hg
  refine ⟨⟨some ⟨r.ref, ptr⟩, []⟩, rfl, ?_⟩
  unfold Mem.Good
  rw [if_neg (by omega)]
  refine ⟨r.ref, rfl, ?_⟩
  simp only [RefCounted.ref, atomic_t.Inc, sync_add_and_fetch, hc, toInt32_toInt32_add]
  rfl

theorem Mem.good_unref (ptr n : Nat) (m : Mem) (hg : m.Good ptr n) (h1 : 1 ≤ n)
    (hn : n ≤ 2 ^ 32) (hptr : ptr ≠ 0) :
    ∃ m1, m.unrefBox = some m1 ∧ m1.Good ptr (n - 1) := by
  unfold Mem.Good at hg
  rw [if_neg (by omega)] at hg
  obtain ⟨r, rfl, hc⟩ := hg
  by_cases h2 : n = 1
  · have hdel : (r.unref).1 = true := by
      simp only [RefCounted.unref, atomic_t.Dec, sync_add_and_fetch, hc, h2,
        decide_eq_true_eq]
      decide
    refine ⟨⟨none, [ptr]⟩, ?_, ?_⟩
    · simp [Mem.unrefBox, hdel, deleteObj, hptr]
    · unfold Mem.Good
      rw [if_pos (by omega)]
  · have hdel : (r.unref).1 = false := by
      simp only [RefCounted.unref, atomic_t.Dec, sync_add_and_fetch, hc,
        toInt32_toInt32_add, toUint32_toInt32, decide_eq_false_iff_not]
      unfold toUint32
      omega
    refine ⟨⟨some ⟨(r.unref).2, ptr⟩, []⟩, ?_, ?_⟩
    · simp [Mem.unrefBox, hdel]
    · unfold Mem.Good
      rw [if_neg (by omega)]
      refine ⟨(r.unref).2, rfl, ?_⟩
      simp only [RefCounted.unref, atomic_t.Dec, sync_add_and_fetch, hc,
        toInt32_toInt32_add]
      congr 1
      omega

theorem World.ok_of_step (w w1 : World) (op : HandleOp) (h : w.step op = some w1) :
    w.ok op := by
  cases op with
  | copyConstruct src =>
    simp only [World.step] at h
    simp only [World.ok]
    cases hl : w.live src with
    | none => rw [hl] at h; cases h
    | some hs =>
      rcases shared_ptr.null_or_box hs with e | e
      · rw [hl, e] at h
        simp [shared_ptr.copyCtor, shared_ptr.Copy] at h
      · rw [e]
  | assign dst src =>
    simp only [World.step] at h
    simp only [World.ok]
    cases hd : w.live dst with
    | none => rw [hd] at h; simp at h
    | some hdv =>
      cases hs : w.live src with
      | none => rw [hd, hs] at h; simp at h
      | some hsv =>
        refine ⟨rfl, rfl, ?_⟩
        intro hne
        rcases shared_ptr.null_or_box hsv with e | e
        · rw [hd, hs, e] at h
          simp [hne, shared_ptr.assign, shared_ptr.Copy] at h
        · rw [e]
  | reset i =>
    simp only [World.step] at h
    simp only [World.ok]
    cases hl : w.live i with
    | none => rw [hl] at h; cases h
    | some hv => rfl
  | destroy i =>
    simp only [World.step] at h
    simp only [World.ok]
    cases hl : w.live i with
    | none => rw [hl] at h; cases h
    | some hv => rfl

theorem holdsBox_box : holdsBox (some ⟨⟨BoxPtr.box⟩⟩) = 1 := by decide

theorem holdsBox_null : holdsBox (some ⟨⟨BoxPtr.null⟩⟩) = 0 := by decide

theorem holdsBox_none : holdsBox none = 0 := by decide

theorem World.step_of_ok (ptr : Nat) (hptr : ptr ≠ 0) (w : World) (op : HandleOp)
    (hg : w.mem.Good ptr w.holders) (hb : w.handles.length < 2 ^ 32) (hok : w.ok op) :
    ∃ w1, w.step op = some w1 ∧ w1.mem.Good ptr w1.holders ∧
      w.handles.length ≤ w1.handles.length := by
  have hle := World.holders_le_length w
  have hone : ∀ (i : Nat), w.handles[i]? = some (some ⟨⟨BoxPtr.box⟩⟩) → 1 ≤ w.holders :=
    fun i h => le_sum_map_of_getElem? holdsBox w.handles i _ h
  have hset := fun (i : Nat) (x y : Option shared_ptr) (h : w.handles[i]? = some x) =>
    sum_map_set holdsBox w.handles i x y h
  cases op with
  | copyConstruct src =>
    simp only [World.ok] at hok
    have hget := (World.live_iff w src _).mp hok
    obtain ⟨m1, hm1, hg1⟩ := Mem.good_ref ptr w.holders w.mem hg (hone src hget)
    refine ⟨⟨m1, w.handles ++ [some ⟨⟨BoxPtr.box⟩⟩]⟩, ?_, ?_, by simp⟩
    · simp [World.step, hok, shared_ptr.copyCtor, shared_ptr.Copy, hm1, scoped_ref.reset,
        scoped_ref.new, scoped_ref.get]
    · have : World.holders ⟨m1, w.handles ++ [some ⟨⟨BoxPtr.box⟩⟩]⟩ = w.holders + 1 := by
        simp [World.holders, holdsBox]
      rw [this]
      exact hg1
  | assign dst src =>
    simp only [World.ok] at hok
    obtain ⟨hd, hs, hsrc⟩ := hok
    obtain ⟨hdv, hd⟩ := Option.isSome_iff_exists.mp hd
    obtain ⟨hsv, hs⟩ := Option.isSome_iff_exists.mp hs
    by_cases hne : dst = src
    · exact ⟨w, by simp [World.step, hd, hs, hne], hg, le_refl _⟩
    · have hsb := hsrc hne
      have hgets := (World.live_iff w src _).mp hsb
      have hgetd := (World.live_iff w dst _).mp hd
      obtain ⟨m1, hm1, hg1⟩ := Mem.good_ref ptr w.holders w.mem hg (hone src hgets)
      rcases shared_ptr.null_or_box hdv with e | e
      · subst e
        refine ⟨⟨m1, w.handles.set dst (some ⟨⟨BoxPtr.box⟩⟩)⟩, ?_, ?_, by simp⟩
        · simp [World.step, hd, hsb, hne, shared_ptr.assign, shared_ptr.Copy, hm1,
            scoped_ref.reset, scoped_ref.get]
        · have h1 := hset dst _ (some ⟨⟨BoxPtr.box⟩⟩) hgetd
          have : World.holders ⟨m1, w.handles.set dst (some ⟨⟨BoxPtr.box⟩⟩)⟩ =
              w.holders + 1 := by
            simp only [World.holders]
            simp only [holdsBox_box, holdsBox_null, holdsBox_none] at h1
            omega
          rw [this]
          exact hg1
      · subst e
        obtain ⟨m2, hm2, hg2⟩ := Mem.good_unref ptr (w.holders + 1) m1 hg1 (by omega)
          (by omega) hptr
        refine ⟨⟨m2, w.handles.set dst (some ⟨⟨BoxPtr.box⟩⟩)⟩, ?_, ?_, by simp⟩
        · simp [World.step, hd, hsb, hne, shared_ptr.assign, shared_ptr.Copy, hm1,
            scoped_ref.reset, scoped_ref.get, hm2]
        · have h1 := hset dst _ (some ⟨⟨BoxPtr.box⟩⟩) hgetd
          have : World.holders ⟨m2, w.handles.set dst (some ⟨⟨BoxPtr.box⟩⟩)⟩ =
              w.holders := by
            simp only [World.holders]
            omega
          rw [this]
          exact hg2
  | reset i =>
    simp only [World.ok] at hok
    obtain ⟨hv, hl⟩ := Option.isSome_iff_exists.mp hok
    have hget := (World.live_iff w i _).mp hl
    rcases shared_ptr.null_or_box hv with e | e
    · subst e
      refine ⟨⟨w.mem, w.handles.set i (some ⟨⟨BoxPtr.null⟩⟩)⟩, ?_, ?_, by simp⟩
      · simp [World.step, hl, shared_ptr.reset, scoped_ref.reset]
      · have h1 := hset i _ (some ⟨⟨BoxPtr.null⟩⟩) hget
        have : World.holders ⟨w.mem, w.handles.set i (some ⟨⟨BoxPtr.null⟩⟩)⟩ =
            w.holders := by
          simp only [World.holders]
          omega
        rw [this]
        exact hg
    · subst e
      obtain ⟨m1, hm1, hg1⟩ := Mem.good_unref ptr w.holders w.mem hg (hone i hget)
        (by omega) hptr
      refine ⟨⟨m1, w.handles.set i (some ⟨⟨BoxPtr.null⟩⟩)⟩, ?_, ?_, by simp⟩
      · simp [World.step, hl, shared_ptr.reset, scoped_ref.reset, hm1]
      · have h1 := hset i _ (some ⟨⟨BoxPtr.null⟩⟩) hget
        have : World.holders ⟨m1, w.handles.set i (some ⟨⟨BoxPtr.null⟩⟩)⟩ =
            w.holders - 1 := by
          simp only [World.holders]
          simp only [holdsBox_box, holdsBox_null, holdsBox_none] at h1
          omega
        rw [this]
        exact hg1
  | destroy i =>
    simp only [World.ok] at hok
    obtain ⟨hv, hl⟩ := Option.isSome_iff_exists.mp hok
    have hget := (World.live_iff w i _).mp hl
    rcases shared_ptr.null_or_box hv with e | e
    · subst e
      refine ⟨⟨w.mem, w.handles.set i none⟩, ?_, ?_, by simp⟩
      · simp [World.step, hl, shared_ptr.destructor, scoped_ref.destructor]
      · have h1 := hset i _ none hget
        have : World.holders ⟨w.mem, w.handles.set i none⟩ = w.holders := by
          simp only [World.holders]
          simp only [holdsBox_box, holdsBox_null, holdsBox_none] at h1
          omega
        rw [this]
        exact hg
    · subst e
      obtain ⟨m1, hm1, hg1⟩ := Mem.good_unref ptr w.holders w.mem hg (hone i hget)
        (by omega) hptr
      refine ⟨⟨m1, w.handles.set i none⟩, ?_, ?_, by simp⟩
      · simp [World.step, hl, shared_ptr.destructor, scoped_ref.destructor, hm1]
      · have h1 := hset i _ none hget
        have : World.holders ⟨m1, w.handles.set i none⟩ = w.holders - 1 := by
          simp only [World.holders]
          simp only [holdsBox_box, holdsBox_null, holdsBox_none] at h1
          omega
        rw [this]
        exact hg1

theorem World.step_length_le (w w1 : World) (op : HandleOp) (h : w.step op = some w1) :
    w.handles.length ≤ w1.handles.length := by
  cases op <;> simp only [World.step] at h <;> repeat' split at h
  all_goals first
    | (cases h; simp)
    | cases h

theorem World.run_length_le (ops : List HandleOp) (w w1 : World) (h : w.run ops = some w1) :
    w.handles.length ≤ w1.handles.length := by
  induction ops generalizing w with
  | nil =>
    simp [World.run] at h
    subst h
    exact le_refl _
  | cons op ops ih =>
    simp only [World.run] at h
    cases hs : w.step op with
    | none => rw [hs] at h; cases h
    | some w2 =>
      rw [hs] at h
      exact le_trans (World.step_length_le w w2 op hs) (ih w2 h)

theorem World.run_good (ptr : Nat) (hptr : ptr ≠ 0) (ops : List HandleOp) (w w1 : World)
    (hg : w.mem.Good ptr w.holders) (h : w.run ops = some w1)
    (hb : w1.handles.length < 2 ^ 32) : w1.mem.Good ptr w1.holders := by
  induction ops generalizing w with
  | nil =>
    simp [World.run] at h
    subst h
    exact hg
  | cons op ops ih =>
    simp only [World.run] at h
    cases hs : w.step op with
    | none => rw [hs] at h; cases h
    | some w2 =>
      rw [hs] at h
      have hlen : w.handles.length < 2 ^ 32 :=
        lt_of_le_of_lt (le_trans (World.step_length_le w w2 op hs)
          (World.run_length_le ops w2 w1 h)) hb
      obtain ⟨w3, hs3, hg3, _⟩ :=
        World.step_of_ok ptr hptr w op hg hlen (World.ok_of_step w w2 op hs)
      have : w3 = w2 := Option.some.inj (hs3.symm.trans hs)
      subst this
      exact ih w3 hg3 h

theorem World.init_good (ptr : Nat) (hptr : ptr ≠ 0) :
    (World.init ptr).mem.Good ptr (World.init ptr).holders := by
  have h1 : World.init ptr = ⟨⟨some ⟨RefCounted.new, ptr⟩, []⟩, [some ⟨⟨BoxPtr.box⟩⟩]⟩ := by
    simp [World.init, shared_ptr.new, hptr]
  rw [h1]
  exact ⟨RefCounted.new, rfl, rfl⟩

/-- C8 (amended): a handle is made from a raw pointer `ptr` and any operations
follow (copy-construction, assignment, also between handles that share the box,
`reset()`, destruction), creating fewer than `2^32` handles in all.  Then, as
long as some live handle holds the box, the payload has not been destroyed and
the counter of the box is the number of such handles; once no live handle
holds the box, the payload has been destroyed exactly once.  Every operation
that names live handles, and copies only from a handle holding the box, runs. -/
theorem shared_ptr_payload_destroyed_once (ptr : Nat) (ops : List HandleOp) (w : World)
    (hptr : ptr ≠ 0) (hrun : (World.init ptr).run ops = some w)
    (hk : w.handles.length < 2 ^ 32) :
    (0 < w.holders → w.mem.deleted = [] ∧
      ∃ o, w.mem.box = some o ∧ o.ptr = ptr ∧ o.toRefCounted.ref_count = w.holders) ∧
    (w.holders = 0 → w.mem.deleted = [ptr] ∧ w.mem.box = none) ∧
    (∀ op, w.ok op → ∃ w1, w.step op = some w1) := by
  have hg := World.run_good ptr hptr ops _ w (World.init_good ptr hptr) hrun hk
  have hle := World.holders_le_length w
  refine ⟨?_, ?_, ?_⟩
  · intro hpos
    unfold Mem.Good at hg
    rw [if_neg (by omega)] at hg
    obtain ⟨r, hm, hc⟩ := hg
    rw [hm]
    refine ⟨rfl, ⟨r, ptr⟩, rfl, rfl, ?_⟩
    show toUint32 r._count._v = w.holders
    rw [hc, toUint32_toInt32_natCast]
    exact Nat.mod_eq_of_lt (by omega)
  · intro hz
    unfold Mem.Good at hg
    rw [if_pos hz] at hg
    rw [hg]
    exact ⟨rfl, rfl⟩
  · intro op hok
    obtain ⟨w1, h1, _⟩ := World.step_of_ok ptr hptr w op hg hk hok
    exact ⟨w1, h1⟩

/-- Witness of C8: three handles on the box of object `7`, an assignment between
two of them, then two `reset()` and one destruction. -/
theorem shared_ptr_payload_destroyed_once_witness :
    (7 : Nat) ≠ 0 ∧
    (World.init 7).run [HandleOp.copyConstruct 0, HandleOp.copyConstruct 1,
      HandleOp.assign 0 2, HandleOp.reset 1, HandleOp.reset 2, HandleOp.destroy 0] =
      some ⟨⟨none, [7]⟩, [none, some ⟨⟨BoxPtr.null⟩⟩, some ⟨⟨BoxPtr.null⟩⟩]⟩ ∧
    ((⟨⟨none, [7]⟩, [none, some ⟨⟨BoxPtr.null⟩⟩, some ⟨⟨BoxPtr.null⟩⟩]⟩ : World).holders = 0 →
      (⟨⟨none, [7]⟩, [none, some ⟨⟨BoxPtr.null⟩⟩, some ⟨⟨BoxPtr.null⟩⟩]⟩ : World).mem.deleted
        = [7] ∧
      (⟨⟨none, [7]⟩, [none, some ⟨⟨BoxPtr.null⟩⟩, some ⟨⟨BoxPtr.null⟩⟩]⟩ : World).mem.box
        = none) :=
  ⟨by decide, by decide,
    (shared_ptr_payload_destroyed_once 7 [HandleOp.copyConstruct 0, HandleOp.copyConstruct 1,
      HandleOp.assign 0 2, HandleOp.reset 1, HandleOp.reset 2, HandleOp.destroy 0]
      ⟨⟨none, [7]⟩, [none, some ⟨⟨BoxPtr.null⟩⟩, some ⟨⟨BoxPtr.null⟩⟩]⟩
      (by decide) (by decide) (by decide)).2.1⟩

theorem World.run_replicate_copy (k : Nat) (r : RefCounted) (p : Nat) (dl : List Nat)
    (hs : List (Option shared_ptr)) (h0 : hs[0]? = some (some ⟨⟨BoxPtr.box⟩⟩))
    (ops : List HandleOp) :
    World.run ⟨⟨some ⟨r, p⟩, dl⟩, hs⟩
        (List.replicate (k + 1) (HandleOp.copyConstruct 0) ++ ops) =
      World.run ⟨⟨some ⟨⟨⟨toInt32 (r._count._v + ((k + 1 : Nat) : Int))⟩⟩, p⟩, dl⟩,
        hs ++ List.replicate (k + 1) (some ⟨⟨BoxPtr.box⟩⟩)⟩ ops := by
  have hstep : ∀ (r : RefCounted) (hs : List (Option shared_ptr)),
      hs[0]? = some (some ⟨⟨BoxPtr.box⟩⟩) →
      World.step ⟨⟨some ⟨r, p⟩, dl⟩, hs⟩ (HandleOp.copyConstruct 0) =
        some ⟨⟨some ⟨r.ref, p⟩, dl⟩, hs ++ [some ⟨⟨BoxPtr.box⟩⟩]⟩ := by
    intro r hs h0
    simp [World.step, World.live, h0, shared_ptr.copyCtor, shared_ptr.Copy, Mem.refBox,
      scoped_ref.reset, scoped_ref.new, scoped_ref.get]
  induction k generalizing r hs with
  | zero =>
    show World.run _ (HandleOp.copyConstruct 0 :: ops) = _
    simp only [World.run, hstep r hs h0]
    rfl
  | succ k ih =>
    have hrun : World.run ⟨⟨some ⟨r, p⟩, dl⟩, hs⟩
        (List.replicate (k + 1 + 1) (HandleOp.copyConstruct 0) ++ ops) =
        World.run ⟨⟨some ⟨r.ref, p⟩, dl⟩, hs ++ [some ⟨⟨BoxPtr.box⟩⟩]⟩
          (List.replicate (k + 1) (HandleOp.copyConstruct 0) ++ ops) := by
      rw [List.replicate_succ]
      simp only [List.cons_append, World.run, hstep r hs h0]
    have h1 : (hs ++ [some (⟨⟨BoxPtr.box⟩⟩ : shared_ptr)])[0]? =
        some (some ⟨⟨BoxPtr.box⟩⟩) := by
      rw [List.getElem?_append_left (lt_length_of_getElem? hs 0 _ h0)]
      exact h0
    rw [hrun, ih r.ref (hs ++ [some (⟨⟨BoxPtr.box⟩⟩ : shared_ptr)]) h1]
    have hl : hs ++ [some (⟨⟨BoxPtr.box⟩⟩ : shared_ptr)] ++
        List.replicate (k + 1) (some ⟨⟨BoxPtr.box⟩⟩) =
        hs ++ List.replicate (k + 1 + 1) (some ⟨⟨BoxPtr.box⟩⟩) := by
      rw [List.append_assoc, List.replicate_succ (n := k + 1)]
      rfl
    have hc : toInt32 (r.ref._count._v + ((k + 1 : Nat) : Int)) =
        toInt32 (r._count._v + ((k + 1 + 1 : Nat) : Int)) := by
      simp only [RefCounted.ref, atomic_t.Inc, sync_add_and_fetch, toInt32_toInt32_add]
      congr 1
      push_cast
      omega
    rw [hl, hc]

theorem World.run_destroy_first (p : Nat) (hp : p ≠ 0) (rest : List (Option shared_ptr)) :
    World.run ⟨⟨some ⟨⟨⟨1⟩⟩, p⟩, []⟩, some ⟨⟨BoxPtr.box⟩⟩ :: rest⟩ [HandleOp.destroy 0] =
      some ⟨⟨none, [p]⟩, none :: rest⟩ := by
  have hdel : (RefCounted.unref ⟨⟨1⟩⟩).1 = true := by decide
  simp [World.run, World.step, World.live, shared_ptr.destructor, scoped_ref.destructor,
    Mem.unrefBox, hdel, deleteObj, hp]

theorem World.live_one_replicate (m : Mem) (n : Nat) (hn : 0 < n) :
    World.live ⟨m, none :: List.replicate n (some ⟨⟨BoxPtr.box⟩⟩)⟩ 1 =
      some ⟨⟨BoxPtr.box⟩⟩ := by
  simp [World.live, List.getElem?_replicate, hn]

/-- C8 (as stated, refuted): with `2^32 + 1` handles on the box of object `7`
the 32-bit counter is back at `1`, so destroying the first handle destroys the
payload while handle `1` is still alive and holds the box. -/
theorem shared_ptr_payload_destroyed_once_counterexample :
    (World.init 7).run
        (List.replicate (2 ^ 32) (HandleOp.copyConstruct 0) ++ [HandleOp.destroy 0]) =
      some ⟨⟨none, [7]⟩, none :: List.replicate (2 ^ 32) (some ⟨⟨BoxPtr.box⟩⟩)⟩ ∧
    World.live ⟨⟨none, [7]⟩, none :: List.replicate (2 ^ 32) (some ⟨⟨BoxPtr.box⟩⟩)⟩ 1 =
      some ⟨⟨BoxPtr.box⟩⟩ := by
  have hk : (2 ^ 32 - 1 + 1 : Nat) = 2 ^ 32 := by norm_num
  have e1 := World.run_replicate_copy (2 ^ 32 - 1) RefCounted.new 7 []
    [some ⟨⟨BoxPtr.box⟩⟩] rfl [HandleOp.destroy 0]
  rw [hk] at e1
  have hinit : World.init 7 = ⟨⟨some ⟨RefCounted.new, 7⟩, []⟩, [some ⟨⟨BoxPtr.box⟩⟩]⟩ := by
    decide
  have hcell : toInt32 (RefCounted.new._count._v + ((2 ^ 32 : Nat) : Int)) = 1 := by
    norm_num [RefCounted.new, atomic_t.new, toInt32]
  refine ⟨?_, World.live_one_replicate _ _ (by norm_num)⟩
  rewrite [hinit, e1, hcell]
  exact World.run_destroy_first 7 (by decide) _

/-! ## `scoped_ptr` -/

/-- C9: for every `scoped_ptr` owning a (non-null) `p1` and every pointer `p2`:
`reset(p2)` with `p2 != p1` destroys exactly `p1`, once, and afterwards `get()`
is `p2`; `reset(p1)` destroys nothing and leaves `get()` at `p1`; the destructor
destroys exactly the owned object, once, also after a `reset` to a new object. -/
theorem scoped_ptr_reset_and_destructor (s : scoped_ptr) (p2 : Nat) (h1 : s.get ≠ 0) :
    (p2 ≠ s.get → (s.reset p2).2 = [s.get] ∧ (s.reset p2).1.get = p2) ∧
    ((s.reset s.get).2 = [] ∧ (s.reset s.get).1.get = s.get) ∧
    s.destructor = [s.get] ∧
    (p2 ≠ 0 → (s.reset p2).1.destructor = [p2]) := by
  have h1' : s._p ≠ 0 := h1
  refine ⟨?_, ?_, ?_, ?_⟩
  · intro h
    have h' : s._p ≠ p2 := fun e => h e.symm
    simp [scoped_ptr.reset, scoped_ptr.get, deleteObj, h', h1']
  · simp [scoped_ptr.reset, scoped_ptr.get]
  · simp [scoped_ptr.destructor, scoped_ptr.get, deleteObj, h1']
  · intro h2
    by_cases h : s._p = p2
    · simp [scoped_ptr.reset, scoped_ptr.destructor, deleteObj, h, h2]
    · simp [scoped_ptr.reset, scoped_ptr.destructor, deleteObj, h, h2]

/-- Witness of C9 on the owner of object `5`, reset to object `6`. -/
theorem scoped_ptr_reset_and_destructor_witness :
    (scoped_ptr.new 5).get ≠ 0 ∧
    ((6 ≠ (scoped_ptr.new 5).get →
      ((scoped_ptr.new 5).reset 6).2 = [(scoped_ptr.new 5).get] ∧
      ((scoped_ptr.new 5).reset 6).1.get = 6) ∧
    (((scoped_ptr.new 5).reset (scoped_ptr.new 5).get).2 = [] ∧
      ((scoped_ptr.new 5).reset (scoped_ptr.new 5).get).1.get = (scoped_ptr.new 5).get) ∧
    (scoped_ptr.new 5).destructor = [(scoped_ptr.new 5).get] ∧
    (6 ≠ 0 → ((scoped_ptr.new 5).reset 6).1.destructor = [6])) :=
  ⟨by decide, scoped_ptr_reset_and_destructor (scoped_ptr.new 5) 6 (by decide)⟩

theorem Owned.apply_keeps_released (p : Nat) (hp : p ≠ 0) (o : Owned) (op : PtrOp)
    (hop : op ≠ PtrOp.reset p) (h1 : o.sp._p ≠ p) (h2 : p ∉ o.deleted) :
    (o.apply op).sp._p ≠ p ∧ p ∉ (o.apply op).deleted := by
  cases op with
  | reset q =>
    have hq : q ≠ p := fun e => hop (by rw [e])
    by_cases h : o.sp._p = q
    · simp [Owned.apply, scoped_ptr.reset, h, hq, h2]
    · have h3 : p ∉ deleteObj o.sp._p := by
        unfold deleteObj
        split
        · simp
        · simp
          exact fun e => h1 e.symm
      simp [Owned.apply, scoped_ptr.reset, h, hq, h2, h3]
  | release =>
    simp [Owned.apply, scoped_ptr.release, h2]
    exact fun e => hp e.symm

theorem Owned.run_keeps_released (p : Nat) (hp : p ≠ 0) (ops : List PtrOp) (o : Owned)
    (hops : PtrOp.reset p ∉ ops) (h1 : o.sp._p ≠ p) (h2 : p ∉ o.deleted) :
    (o.run ops).sp._p ≠ p ∧ p ∉ (o.run ops).deleted := by
  induction ops generalizing o with
  | nil => exact ⟨h1, h2⟩
  | cons op ops ih =>
    have hop : op ≠ PtrOp.reset p := fun e => hops (by simp [e])
    have hrest : PtrOp.reset p ∉ ops := fun e => hops (List.mem_cons_of_mem _ e)
    obtain ⟨h3, h4⟩ := Owned.apply_keeps_released p hp o op hop h1 h2
    exact ih (o.apply op) hrest h3 h4

/-- C10 (as stated, refuted): after `release()` of object `5`, a later
`reset(5)` adopts it again and the destructor then destroys it. -/
theorem scoped_ptr_release_counterexample :
    5 ∈ ((Owned.mk ((scoped_ptr.new 5).release).2.1 []).run [PtrOp.reset 5]).destroy := by
  decide

/-- C10 (amended): for every `scoped_ptr` owning `p`, `release()` returns `p`,
destroys nothing and leaves `get()` null; and no later operation of that owner
(any sequence of `reset` and `release`, then the destructor) destroys `p`, as
long as `p` is not handed back to it by `reset(p)`. -/
theorem scoped_ptr_release_gives_up (s : scoped_ptr) (ops : List PtrOp)
    (hp : s.get ≠ 0) (hops : PtrOp.reset s.get ∉ ops) :
    (s.release).1 = s.get ∧ (s.release).2.2 = [] ∧ (s.release).2.1.get = 0 ∧
    s.get ∉ ((Owned.mk (s.release).2.1 []).run ops).destroy := by
  refine ⟨rfl, rfl, rfl, ?_⟩
  obtain ⟨h3, h4⟩ := Owned.run_keeps_released s.get hp ops (Owned.mk (s.release).2.1 []) hops
    (fun e => hp e.symm) (by simp)
  intro hmem
  unfold Owned.destroy at hmem
  rcases List.mem_append.mp hmem with h | h
  · exact h4 h
  · unfold scoped_ptr.destructor deleteObj at h
    split at h
    · simp at h
    · simp at h
      exact h3 h.symm

/-- Witness of C10: the owner of object `5` releases it, is reset to `6`, then
to `7`, releases again and is destroyed. -/
theorem scoped_ptr_release_gives_up_witness :
    (scoped_ptr.new 5).get ≠ 0 ∧
    PtrOp.reset (scoped_ptr.new 5).get ∉ [PtrOp.reset 6, PtrOp.reset 7, PtrOp.release] ∧
    (((scoped_ptr.new 5).release).1 = (scoped_ptr.new 5).get ∧
      ((scoped_ptr.new 5).release).2.2 = [] ∧
      ((scoped_ptr.new 5).release).2.1.get = 0 ∧
      (scoped_ptr.new 5).get ∉ ((Owned.mk ((scoped_ptr.new 5).release).2.1 []).run
        [PtrOp.reset 6, PtrOp.reset 7, PtrOp.release]).destroy) :=
  ⟨by decide, by decide,
    scoped_ptr_release_gives_up (scoped_ptr.new 5)
      [PtrOp.reset 6, PtrOp.reset 7, PtrOp.release] (by decide) (by decide)⟩


/-! ## `Closure` -/

theorem xx.indices_eq (n : Nat) (S : List Nat) : xx.Indices n S = List.range n ++ S := by
  induction n generalizing S with
  | zero => simp [xx.Indices]
  | succ n ih =>
    rw [xx.Indices, ih, List.range_succ]
    simp

theorem xx.getPack_range' {α : Type} (t : List α) (n s : Nat) (h : s + n ≤ t.length) :
    xx.getPack t (List.range' s n) = some ((t.drop s).take n) := by
  induction n generalizing s with
  | zero => simp [xx.getPack]
  | succ n ih =>
    have hs : s < t.length := by omega
    have hd : t.drop s = t[s] :: t.drop (s + 1) := List.drop_eq_getElem_cons hs
    have hg : t[s]? = some t[s] := List.getElem?_eq_getElem hs
    rw [List.range'_succ, xx.getPack, ih (s + 1) (by omega), hg, hd]
    rfl

theorem xx.apply_eq {α : Type} (obj : Option Nat) (f : Nat) (t : List α) :
    xx.Apply obj f t = some (Effect.call obj f t) := by
  have h := xx.getPack_range' t t.length 0 (by omega)
  simp only [List.drop_zero, List.take_length] at h
  unfold xx.Apply xx.ApplySeq
  rw [xx.indices_eq, List.append_nil, List.range_eq_range', h]

theorem Closure.run_eq {α : Type} (c : Closure α) (self : Nat) :
    c.Run self = some (match c with
      | Closure.FunctionClosure _ _ => [c.target]
      | Closure.MethodClosure _ _ _ => [c.target]
      | Closure.FunctionCallback _ _ => [c.target, Effect.destroy self]
      | Closure.MethodCallback _ _ _ => [c.target, Effect.destroy self]) := by
  cases c <;> simp [Closure.Run, xx.apply_eq, Closure.target]

/-- C11: for every arity `n`, `Indices<n>::SeqType` is `Seq<0, 1, ..., n-1>`; for
every target and every captured argument list, `Apply` calls the target with
exactly the captured arguments in their original order; and each `Run()` of a
`FunctionClosure`, `MethodClosure`, `FunctionCallback` or `MethodCallback`
makes exactly one call, that of its target with its captured arguments. -/
theorem closure_run_calls_target_in_order {α : Type} (c : Closure α) (self n : Nat) :
    xx.Indices n [] = List.range n ∧
    (∀ (obj : Option Nat) (f : Nat) (t : List α),
      xx.Apply obj f t = some (Effect.call obj f t)) ∧
    (∃ es, c.Run self = some es ∧ es.filter Effect.isCall = [c.target]) ∧
    (∀ (f : Nat) (a : List α),
      (Closure.FunctionClosure f a).target = Effect.call none f a ∧
      (Closure.FunctionCallback f a).target = Effect.call none f a) ∧
    (∀ (obj f : Nat) (a : List α),
      (Closure.MethodClosure obj f a).target = Effect.call (some obj) f a ∧
      (Closure.MethodCallback obj f a).target = Effect.call (some obj) f a) := by
  refine ⟨by rw [xx.indices_eq, List.append_nil], xx.apply_eq, ?_,
    fun _ _ => ⟨rfl, rfl⟩, fun _ _ _ => ⟨rfl, rfl⟩⟩
  rw [Closure.run_eq]
  cases c <;> simp [Effect.isCall, Closure.target]

theorem ClosureCell.run_permanent {α : Type} [DecidableEq α] (self : Nat) (c : Closure α)
    (log : List (Effect α)) (hc : c.Run self = some [c.target]) :
    ClosureCell.Run ⟨self, some c, log⟩ = some ⟨self, some c, log ++ [c.target]⟩ := by
  have hne : Effect.destroy self ≠ c.target := by
    cases c <;> simp [Closure.target]
  simp [ClosureCell.Run, hc, hne]

theorem ClosureCell.runN_permanent {α : Type} [DecidableEq α] (n self : Nat) (c : Closure α)
    (log : List (Effect α)) (hc : c.Run self = some [c.target]) :
    ClosureCell.runN n ⟨self, some c, log⟩ =
      some ⟨self, some c, log ++ List.replicate n c.target⟩ := by
  induction n generalizing log with
  | zero => simp [ClosureCell.runN]
  | succ n ih =>
    rw [ClosureCell.runN, ClosureCell.run_permanent self c log hc]
    simp only
    rw [ih, List.append_assoc]
    rfl

/-- C12: `Run()` on a one-shot call (made by `NewCallback`) calls the target once
and then destroys the call object, once, after which the object no longer
exists; `Run()` on a reusable call (made by `NewPermanentCallback`) never
destroys it, and `n` successive `Run()` calls call the target `n` times with the
same captured arguments. -/
theorem closure_lifetime_policy {α : Type} [DecidableEq α] (self obj f n : Nat)
    (a : List α) :
    ClosureCell.Run ⟨self, some (NewCallback f a), []⟩ =
      some ⟨self, none, [Effect.call none f a, Effect.destroy self]⟩ ∧
    ClosureCell.Run ⟨self, some (NewCallbackM obj f a), []⟩ =
      some ⟨self, none, [Effect.call (some obj) f a, Effect.destroy self]⟩ ∧
    ClosureCell.runN n ⟨self, some (NewPermanentCallback f a), []⟩ =
      some ⟨self, some (NewPermanentCallback f a),
        List.replicate n (Effect.call none f a)⟩ ∧
    ClosureCell.runN n ⟨self, some (NewPermanentCallbackM obj f a), []⟩ =
      some ⟨self, some (NewPermanentCallbackM obj f a),
        List.replicate n (Effect.call (some obj) f a)⟩ := by
  refine ⟨?_, ?_, ?_, ?_⟩
  · simp [ClosureCell.Run, NewCallback, Closure.run_eq, Closure.target]
  · simp [ClosureCell.Run, NewCallbackM, Closure.run_eq, Closure.target]
  · have := ClosureCell.runN_permanent n self (NewPermanentCallback f a) []
      (by rw [Closure.run_eq]; rfl)
    simpa [NewPermanentCallback, Closure.target] using this
  · have := ClosureCell.runN_permanent n self (NewPermanentCallbackM obj f a) []
      (by rw [Closure.run_eq]; rfl)
    simpa [NewPermanentCallbackM, Closure.target] using this


/-! ## `Condition` -/

/-- For every call of `Wait(mutex)` or `TimedWait(mutex, ms)` on the unix path made
by a caller that holds the mutex on entry (or made while nobody holds it), the
condition wait itself returns with the mutex held by the caller, and the
destructor of the `ScopedTryLock` then unlocks it: the call returns with the
mutex held by nobody, for `TimedWait` on the notified and on the timed-out
return alike. -/
theorem Condition.wait_returns_unlocked (m : Mutex) (t : Nat) (ret : Int)
    (h : m.owner = some t ∨ m.owner = none) :
    pthread_cond_wait (ScopedTryLock.ctor m t) t = some ⟨some t⟩ ∧
    Condition.Wait m t = some ⟨none⟩ ∧
    (ret = 0 → Condition.TimedWait m t ret = some (true, ⟨none⟩)) ∧
    (ret = ETIMEDOUT → Condition.TimedWait m t ret = some (false, ⟨none⟩)) := by
  have hw : pthread_cond_wait (ScopedTryLock.ctor m t) t = some ⟨some t⟩ := by
    rcases h with h | h <;>
      simp [pthread_cond_wait, ScopedTryLock.ctor, Mutex.TryLock, h]
  refine ⟨hw, ?_, ?_, ?_⟩
  · simp [Condition.Wait, hw, ScopedTryLock.dtor, Mutex.UnLock]
  · intro h0
    simp [Condition.TimedWait, hw, ScopedTryLock.dtor, Mutex.UnLock, h0, ETIMEDOUT]
  · intro h0
    simp [Condition.TimedWait, hw, ScopedTryLock.dtor, Mutex.UnLock, h0]

/-- C13: thread `1` holds the mutex and calls `Wait`, or `TimedWait` with the
notified return (`pthread_cond_timedwait` gives 0) or the timed-out return. The
`TryLock` of the `ScopedTryLock` fails and changes nothing, the condition wait
returns with the mutex held by thread `1` again, and the call returns with the
mutex held by nobody: the destructor of the `ScopedTryLock` has released the
caller's own lock. -/
theorem condition_wait_drops_mutex :
    (⟨some 1⟩ : Mutex).TryLock 1 = (false, ⟨some 1⟩) ∧
    pthread_cond_wait (ScopedTryLock.ctor ⟨some 1⟩ 1) 1 = some ⟨some 1⟩ ∧
    Condition.Wait ⟨some 1⟩ 1 = some ⟨none⟩ ∧
    Condition.TimedWait ⟨some 1⟩ 1 0 = some (true, ⟨none⟩) ∧
    Condition.TimedWait ⟨some 1⟩ 1 ETIMEDOUT = some (false, ⟨none⟩) := by
  decide

/-! ## `SyncEvent` -/

theorem SyncEvent.call_signaled_manual (s : SyncEvent) (c : EventCall)
    (hm : s._manual_reset = true) (hs : s._signaled = true) :
    ∃ r, s.call c = some (s, r) ∧ r.immediate := by
  obtain ⟨m, sg⟩ := s
  simp only at hm hs
  subst hm hs
  cases c <;>
    simp [SyncEvent.call, SyncEvent.Notify, SyncEvent.Signaled, SyncEvent.Wait,
      SyncEvent.TimedWait, SyncEvent.autoReset, EventResult.immediate]

theorem SyncEvent.calls_signaled_manual (cs : List EventCall) (s : SyncEvent)
    (hm : s._manual_reset = true) (hs : s._signaled = true) :
    ∃ rs, s.calls cs = some (s, rs) ∧ rs.length = cs.length ∧ ∀ r ∈ rs, r.immediate := by
  induction cs with
  | nil => exact ⟨[], rfl, rfl, by simp⟩
  | cons c cs ih =>
    obtain ⟨r, hr, hi⟩ := SyncEvent.call_signaled_manual s c hm hs
    obtain ⟨rs, hrs, hl, ha⟩ := ih
    refine ⟨r :: rs, by simp [SyncEvent.calls, hr, hrs], by simp [hl], ?_⟩
    intro x hx
    rcases List.mem_cons.mp hx with h | h
    · rw [h]; exact hi
    · exact ha x h

/-- C14: a newly constructed event is signaled iff constructed with
`signaled = true`.  For a manual-reset event: after `Notify()`, whatever calls
of `Wait()`, `TimedWait(ms)`, `Signaled()` and `Notify()` follow, in any number,
every `Wait()` returns without blocking, every `TimedWait(ms)` returns true
without blocking, every `Signaled()` returns true, and the event is unchanged;
after `Reset()` the event is not signaled. -/
theorem syncevent_manual_reset_stays_signaled (s : SyncEvent) (cs : List EventCall)
    (manual signaled : Bool) (hm : s._manual_reset = true) :
    (SyncEvent.new manual signaled).Signaled = signaled ∧
    (s.Notify).1.Signaled = true ∧
    (∃ rs, (s.Notify).1.calls cs = some ((s.Notify).1, rs) ∧ rs.length = cs.length ∧
      ∀ r ∈ rs, r.immediate) ∧
    (s.Notify).1.Reset.Signaled = false ∧ s.Reset.Signaled = false := by
  have h1 : (s.Notify).1._manual_reset = true := by
    unfold SyncEvent.Notify; split <;> simp [hm]
  have h2 : (s.Notify).1._signaled = true := by
    unfold SyncEvent.Notify
    cases hs : s._signaled <;> simp [hs]
  exact ⟨rfl, h2, SyncEvent.calls_signaled_manual cs _ h1 h2, rfl, rfl⟩

/-- Witness of C14: a manual-reset event, notified, then waited on three times. -/
theorem syncevent_manual_reset_stays_signaled_witness :
    (SyncEvent.new true false)._manual_reset = true ∧
    ((SyncEvent.new true false).Notify).1.calls
        [EventCall.Wait ⟨0, false⟩, EventCall.TimedWait ⟨ETIMEDOUT, false⟩,
          EventCall.Signaled] =
      some (⟨true, true⟩, [EventResult.waited false, EventResult.timedWaited true false,
        EventResult.signaled true]) ∧
    ((SyncEvent.new true false).Notify).1.Reset.Signaled = false :=
  ⟨by decide, by decide,
    (syncevent_manual_reset_stays_signaled (SyncEvent.new true false) [] true false
      (by decide)).2.2.2.1⟩

theorem SyncEvent.timedWait_true_auto_reset (sg : Bool) (w : CondWake)
    (r : Bool × SyncEvent × Bool)
    (h : (SyncEvent.new false sg).TimedWait w = some r) (hr : r.1 = true) :
    r.2.1._signaled = false := by
  obtain ⟨b, s1, bl⟩ := r
  simp only at hr
  subst hr
  cases sg <;>
    simp [SyncEvent.new, SyncEvent.TimedWait, SyncEvent.autoReset] at h
  · split at h
    · simp at h
    · split at h
      · simp at h
        rw [← h.1]
      · simp at h
  · rw [← h.1]

/-- C15 (the code at the failing input): on an auto-reset event a `Wait()` leaves
the event not signaled; but with two threads blocked in `Wait()`, one
`Notify()` wakes both (it broadcasts, and a woken thread does not test
`_signaled` again) and both return; likewise all three of three. -/
theorem syncevent_auto_reset_releases_all :
    (∀ (sg : Bool) (w : CondWake),
      ((SyncEvent.new false sg).Wait w).1._signaled = false) ∧
    EventSystem.run ⟨SyncEvent.new false false, [WaiterPc.idle, WaiterPc.idle]⟩
        [EventAction.enter 0, EventAction.enter 1] =
      some ⟨⟨false, false⟩, [WaiterPc.blocked, WaiterPc.blocked]⟩ ∧
    EventSystem.run ⟨SyncEvent.new false false, [WaiterPc.idle, WaiterPc.idle]⟩
        [EventAction.enter 0, EventAction.enter 1, EventAction.notify,
          EventAction.resume 0, EventAction.resume 1] =
      some ⟨⟨false, false⟩, [WaiterPc.returned, WaiterPc.returned]⟩ ∧
    EventSystem.run
        ⟨SyncEvent.new false false, [WaiterPc.blocked, WaiterPc.blocked, WaiterPc.blocked]⟩
        [EventAction.notify, EventAction.resume 2, EventAction.resume 0,
          EventAction.resume 1] =
      some ⟨⟨false, false⟩, [WaiterPc.returned, WaiterPc.returned, WaiterPc.returned]⟩ := by
  refine ⟨?_, by decide, by decide, by decide⟩
  intro sg w
  cases sg <;> cases hw : w.signaled <;>
    simp [SyncEvent.new, SyncEvent.Wait, SyncEvent.autoReset, hw]

theorem SyncEvent.timedWait_false_only_on_timeout (s : SyncEvent) (w : CondWake)
    (r : Bool × SyncEvent × Bool) (h : s.TimedWait w = some r) (hr : r.1 = false) :
    w.ret = ETIMEDOUT := by
  obtain ⟨b, s1, bl⟩ := r
  simp only at hr
  subst hr
  unfold SyncEvent.TimedWait at h
  split at h
  · split at h
    · assumption
    · split at h <;> simp at h
  · simp at h

/-- C16 (the code at the failing input): a `Wait()` on an event that is not
signaled, whose condition wait ends while the event is still not signaled,
returns all the same, and a `TimedWait(ms)` in that situation returns true; in
the system, a thread blocked in `Wait()` returns after a spurious wake-up
although nobody called `Notify()`. -/
theorem syncevent_wait_returns_unsignaled :
    (SyncEvent.new true false).Wait ⟨0, false⟩ = (⟨true, false⟩, true) ∧
    (SyncEvent.new true false).TimedWait ⟨0, false⟩ = some (true, ⟨true, false⟩, true) ∧
    EventSystem.run ⟨SyncEvent.new true false, [WaiterPc.idle]⟩
        [EventAction.enter 0, EventAction.spurious 0, EventAction.resume 0] =
      some ⟨⟨true, false⟩, [WaiterPc.returned]⟩ := by
  exact ⟨by decide, by decide, by decide⟩


/-! ## `Thread` -/

theorem Thread.calls_of_not_started (cs : List ThreadCall) (t : Thread) (h : t._id = 0) :
    t.calls cs = (t, []) := by
  induction cs with
  | nil => rfl
  | cons c cs ih =>
    have hc : t.call c = (t, []) := by
      cases c <;> simp [Thread.call, Thread.Join, Thread.Detach, h]
    simp [Thread.calls, hc, ih]

/-- C17: after a successful `Start()` that stored a (non-zero) thread id, the
first `Join()` or `Detach()` of any sequence of such calls joins or detaches
that thread and clears the id, and the whole sequence makes no other call to
the thread library; on a thread object whose id is clear, in particular on a
never-started one, any sequence of `Join()` and `Detach()` makes no call to
the thread library and changes nothing. -/
theorem thread_join_detach_once (t t1 : Thread) (r : CreateResult) (log : List OsCall)
    (c0 : Nat) (cs : List ThreadCall)
    (hs : t.Start r = some (true, t1, log)) (hid : r.id ≠ 0) :
    t1.calls (ThreadCall.Join :: cs) = (⟨t._c, 0⟩, [OsCall.join r.id]) ∧
    t1.calls (ThreadCall.Detach :: cs) = (⟨t._c, 0⟩, [OsCall.detach r.id]) ∧
    (∀ t0 : Thread, t0._id = 0 → t0.calls cs = (t0, [])) ∧
    (Thread.new c0).calls cs = (Thread.new c0, []) := by
  have ht1 : t1 = ⟨t._c, r.id⟩ := by
    unfold Thread.Start at hs
    split at hs
    · cases hs
    · split at hs
      · cases hs; rfl
      · cases hs
  subst ht1
  refine ⟨?_, ?_, fun t0 h0 => Thread.calls_of_not_started cs t0 h0,
    Thread.calls_of_not_started cs _ rfl⟩
  · simp [Thread.calls, Thread.call, Thread.Join, hid,
      Thread.calls_of_not_started cs ⟨t._c, 0⟩ rfl]
  · simp [Thread.calls, Thread.call, Thread.Detach, hid,
      Thread.calls_of_not_started cs ⟨t._c, 0⟩ rfl]

/-- Witness of C17: the thread of call object `5` is started with id `7`, then
joined, detached and joined again. -/
theorem thread_join_detach_once_witness :
    (Thread.new 5).Start ⟨0, 7⟩ = some (true, ⟨⟨5⟩, 7⟩, [OsCall.create 7 5]) ∧
    (7 : Nat) ≠ 0 ∧
    (⟨⟨5⟩, 7⟩ : Thread).calls [ThreadCall.Join, ThreadCall.Detach, ThreadCall.Join] =
      (⟨(Thread.new 5)._c, 0⟩, [OsCall.join 7]) :=
  ⟨by decide, by decide,
    (thread_join_detach_once (Thread.new 5) ⟨⟨5⟩, 7⟩ ⟨0, 7⟩ [OsCall.create 7 5] 0
      [ThreadCall.Detach, ThreadCall.Join] (by decide) (by decide)).1⟩

theorem StopSystem.stop_inv_step (id : Nat) (s s1 : StopSystem) (a : StopAction)
    (h : s.Inv id) (hs : s.step a = some s1) : s1.Inv id := by
  obtain ⟨⟨⟨tc, tid⟩, sc, stop⟩, worker, inv, sf, joining, log⟩ := s
  unfold StopSystem.Inv at h
  simp only at h
  obtain ⟨h1, h2, h3, h4, h5, h6⟩ := h
  cases a with
  | worker =>
    cases worker with
    | check =>
      cases stop with
      | false =>
        simp [StopSystem.step] at hs
        subst hs
        refine ⟨by simp at h1 ⊢; omega, by simp, h3, ?_, h5, h6⟩
        intro h0
        have := (h4 h0).1
        cases this
      | true =>
        simp [StopSystem.step] at hs
        subst hs
        refine ⟨by simp at h1 ⊢; omega, by simp, h3, ?_, h5, h6⟩
        intro h0
        exact ⟨rfl, (h4 h0).2⟩
    | call =>
      simp [StopSystem.step] at hs
      subst hs
      refine ⟨by simp at h1 ⊢; omega, by simp, h3, ?_, h5, h6⟩
      intro h0
      have := (h4 h0).1
      cases this
    | exited => simp [StopSystem.step] at hs
  | stop =>
    cases stop with
    | true =>
      simp [StopSystem.step] at hs
      subst hs
      exact ⟨h1, h2, h3, h4, h5, h6⟩
    | false =>
      simp [StopSystem.step] at hs
      subst hs
      refine ⟨h1, by simp, ?_, h4, ?_, h6⟩
      · intro hj
        simpa using hj
      · intro _ hid
        simpa using hid
  | joinReturn =>
    simp only [StopSystem.step] at hs
    split at hs
    · rename_i hc
      obtain ⟨hj, hw⟩ := hc
      have hid : tid ≠ 0 := (h3 hj).2
      cases hs
      have hjoin : Thread.Join ⟨tc, tid⟩ = (⟨tc, 0⟩, [OsCall.join tid]) := by
        simp [Thread.Join, hid]
      have hidd : tid = id := h6 hid
      rw [hjoin]
      refine ⟨h1, h2, by simp, ?_, by simp, by simp⟩
      intro _
      exact ⟨hw, by simp [hidd]⟩
    · cases hs

theorem StopSystem.stop_inv_run (id : Nat) (sched : List StopAction) (s s1 : StopSystem)
    (h : s.Inv id) (hr : s.run sched = some s1) : s1.Inv id := by
  induction sched generalizing s with
  | nil =>
    simp [StopSystem.run] at hr
    subst hr
    exact h
  | cons a rest ih =>
    simp only [StopSystem.run] at hr
    cases hs : s.step a with
    | none => rw [hs] at hr; cases hr
    | some s2 =>
      rw [hs] at hr
      exact ih s2 (StopSystem.stop_inv_step id s s2 a h hs) hr

theorem StopSystem.started_eq (pm c : Nat) (r : CreateResult) (s0 : StopSystem)
    (h : StopSystem.started pm c r = some s0) :
    s0 = ⟨⟨⟨⟨pm⟩, r.id⟩, ⟨c⟩, false⟩, LoopPc.check, 0, 0, false, [OsCall.create r.id pm]⟩ := by
  by_cases hc : c = 0 <;> by_cases hpm : pm = 0 <;> by_cases hr : r.ret = 0 <;>
    simp [StopSystem.started, StoppableThread.Start, Thread.Start, StoppableThread.new,
      Thread.new, scoped_ptr.new, scoped_ptr.get, hc, hpm, hr] at h
  exact h.symm

theorem StopSystem.started_inv (pm c : Nat) (r : CreateResult) (s0 : StopSystem)
    (h : StopSystem.started pm c r = some s0) (hid : r.id ≠ 0) : s0.Inv r.id := by
  rw [StopSystem.started_eq pm c r s0 h]
  refine ⟨by simp, by simp, by simp, ?_, by simp, by simp⟩
  intro h0
  exact absurd h0 hid

theorem StopSystem.zero_after_stop (sched : List StopAction) (s s1 : StopSystem)
    (h1 : s.st._stop = true) (h2 : s.worker ≠ LoopPc.call) (h3 : s.invoked = 0)
    (hr : s.run sched = some s1) : s1.invoked = 0 := by
  induction sched generalizing s with
  | nil =>
    simp [StopSystem.run] at hr
    subst hr
    exact h3
  | cons a rest ih =>
    simp only [StopSystem.run] at hr
    cases hs : s.step a with
    | none => rw [hs] at hr; cases hr
    | some s2 =>
      have hr2 : s2.run rest = some s1 := by rw [hs] at hr; exact hr
      clear hr
      obtain ⟨⟨t, sc, stop⟩, worker, inv, sf, joining, log⟩ := s
      simp only at h1 h2 h3
      subst h1 h3
      cases a with
      | worker =>
        cases worker with
        | check =>
          simp [StopSystem.step] at hs
          subst hs
          exact ih _ rfl (by simp) rfl hr2
        | call => exact absurd rfl h2
        | exited => simp [StopSystem.step] at hs
      | stop =>
        simp [StopSystem.step] at hs
        subst hs
        exact ih _ rfl h2 rfl hr2
      | joinReturn =>
        simp only [StopSystem.step] at hs
        split at hs
        · cases hs
          exact ih _ rfl h2 rfl hr2
        · cases hs

theorem StopSystem.exited_stays (sched : List StopAction) (s s1 : StopSystem)
    (h1 : s.worker = LoopPc.exited) (hr : s.run sched = some s1) :
    s1.worker = LoopPc.exited ∧ s1.invoked = s.invoked ∧ s1.sawFalse = s.sawFalse := by
  induction sched generalizing s with
  | nil =>
    simp [StopSystem.run] at hr
    subst hr
    exact ⟨h1, rfl, rfl⟩
  | cons a rest ih =>
    simp only [StopSystem.run] at hr
    cases hs : s.step a with
    | none => rw [hs] at hr; cases hr
    | some s2 =>
      have hr2 : s2.run rest = some s1 := by rw [hs] at hr; exact hr
      clear hr
      obtain ⟨⟨t, sc, stop⟩, worker, inv, sf, joining, log⟩ := s
      simp only at h1
      subst h1
      cases a with
      | worker => simp [StopSystem.step] at hs
      | stop =>
        cases stop <;> simp [StopSystem.step] at hs <;> subst hs <;>
          (have h := ih _ rfl hr2; exact h)
      | joinReturn =>
        simp only [StopSystem.step] at hs
        split at hs
        · cases hs
          have h := ih _ rfl hr2
          exact h
        · cases hs

theorem StopSystem.stop_completes (id : Nat) (s : StopSystem) (h : s.Inv id) :
    ∃ sched s2, s.run sched = some s2 ∧ s2.st._t._id = 0 := by
  obtain ⟨⟨⟨tc, tid⟩, sc, stop⟩, worker, inv, sf, joining, log⟩ := s
  obtain ⟨_, h2, _, _, h5, _⟩ := h
  simp only at h2 h5
  by_cases htid : tid = 0
  · exact ⟨[], _, rfl, htid⟩
  · cases stop with
    | false =>
      cases worker with
      | check =>
        exact ⟨[StopAction.stop, StopAction.worker, StopAction.joinReturn], by
          simp [StopSystem.run, StopSystem.step, Thread.Join, htid]⟩
      | call =>
        exact ⟨[StopAction.stop, StopAction.worker, StopAction.worker,
          StopAction.joinReturn], by
          simp [StopSystem.run, StopSystem.step, Thread.Join, htid]⟩
      | exited => simp at h2
    | true =>
      have hj : joining = true := h5 rfl htid
      subst hj
      cases worker with
      | check =>
        exact ⟨[StopAction.worker, StopAction.joinReturn], by
          simp [StopSystem.run, StopSystem.step, Thread.Join, htid]⟩
      | call =>
        exact ⟨[StopAction.worker, StopAction.worker, StopAction.joinReturn], by
          simp [StopSystem.run, StopSystem.step, Thread.Join, htid]⟩
      | exited =>
        exact ⟨[StopAction.joinReturn], by
          simp [StopSystem.run, StopSystem.step, Thread.Join, htid]⟩

/-- C19: for a started `StoppableThread`, in every interleaving of the loop
thread with calls of `Stop()`: the wrapped call has been invoked once for each
test that found the stop flag false (the last invocation may be pending); a
test that finds the flag false is followed by the invocation, the first test
that finds it true ends the loop, and the ended loop does nothing more; if
`Stop()` came before the first test there is no invocation at all; once
`Stop()` has joined the thread the loop has ended and the call is never invoked
again; a `Stop()` under a set flag does nothing; and a `Stop()` can always run
to its end. -/
theorem stoppable_thread_loop (pm c : Nat) (r : CreateResult) (s0 s : StopSystem)
    (sched : List StopAction) (h0 : StopSystem.started pm c r = some s0)
    (hid : r.id ≠ 0) (hrun : s0.run sched = some s) :
    (s.invoked ≤ s.sawFalse ∧ s.sawFalse ≤ s.invoked + 1 ∧
      (s.worker ≠ LoopPc.call → s.invoked = s.sawFalse)) ∧
    (s.worker = LoopPc.check → s.st._stop = false →
      s.run [StopAction.worker, StopAction.worker] =
        some ⟨s.st, LoopPc.check, s.invoked + 1, s.sawFalse + 1, s.joining, s.log⟩) ∧
    (s.worker = LoopPc.check → s.st._stop = true →
      s.step StopAction.worker =
        some ⟨s.st, LoopPc.exited, s.invoked, s.sawFalse, s.joining, s.log⟩) ∧
    (s.worker = LoopPc.exited → s.step StopAction.worker = none) ∧
    (sched.head? = some StopAction.stop → s.invoked = 0) ∧
    (s.st._t._id = 0 → s.worker = LoopPc.exited ∧ OsCall.join r.id ∈ s.log ∧
      ∀ sched2 s2, s.run sched2 = some s2 → s2.invoked = s.invoked) ∧
    (s.st._stop = true → s.step StopAction.stop = some s) ∧
    (s.st._stop = false → ∃ s1, s.step StopAction.stop = some s1 ∧ s1.st._stop = true ∧
      s1.joining = true) ∧
    (∃ sched2 s2, s.run sched2 = some s2 ∧ s2.st._t._id = 0) := by
  have hinv0 := StopSystem.started_inv pm c r s0 h0 hid
  have hinv := StopSystem.stop_inv_run r.id sched s0 s hinv0 hrun
  have heq := StopSystem.started_eq pm c r s0 h0
  obtain ⟨h1, h2, h3, h4, h5, h6⟩ := hinv
  refine ⟨?_, ?_, ?_, ?_, ?_, ?_, ?_, ?_, StopSystem.stop_completes r.id s
    ⟨h1, h2, h3, h4, h5, h6⟩⟩
  · refine ⟨?_, ?_, ?_⟩
    · split at h1 <;> omega
    · split at h1 <;> omega
    · intro hw
      rw [if_neg hw] at h1
      omega
  · intro hw hs
    simp [StopSystem.run, StopSystem.step, hw, hs]
  · intro hw hs
    simp [StopSystem.step, hw, hs]
  · intro hw
    simp [StopSystem.step, hw]
  · intro hh
    cases sched with
    | nil => simp at hh
    | cons a rest =>
      simp at hh
      subst hh
      subst heq
      simp only [StopSystem.run, StopSystem.step] at hrun
      exact StopSystem.zero_after_stop rest _ s rfl (by simp) rfl hrun
  · intro hz
    obtain ⟨hw, hl⟩ := h4 hz
    exact ⟨hw, hl, fun sched2 s2 hr2 => (StopSystem.exited_stays sched2 s s2 hw hr2).2.1⟩
  · intro hs
    simp [StopSystem.step, hs]
  · intro hs
    have hne : s.st._t._id ≠ 0 := by
      intro hz
      have := h2 (h4 hz).1
      rw [hs] at this
      cases this
    refine ⟨⟨⟨s.st._t, s.st._c, true⟩, s.worker, s.invoked, s.sawFalse,
      decide (s.st._t._id ≠ 0), s.log⟩, by simp [StopSystem.step, hs], rfl, ?_⟩
    simpa using hne

/-- Witness of C19: the loop makes one call, `Stop()` sets the flag, the loop
ends at its next test and the join returns. -/
theorem stoppable_thread_loop_witness :
    StopSystem.started 2 3 ⟨0, 7⟩ =
      some ⟨⟨⟨⟨2⟩, 7⟩, ⟨3⟩, false⟩, LoopPc.check, 0, 0, false, [OsCall.create 7 2]⟩ ∧
    (⟨0, 7⟩ : CreateResult).id ≠ 0 ∧
    StopSystem.run ⟨⟨⟨⟨2⟩, 7⟩, ⟨3⟩, false⟩, LoopPc.check, 0, 0, false, [OsCall.create 7 2]⟩
        [StopAction.worker, StopAction.worker, StopAction.stop, StopAction.worker,
          StopAction.joinReturn] =
      some ⟨⟨⟨⟨2⟩, 0⟩, ⟨3⟩, true⟩, LoopPc.exited, 1, 1, false,
        [OsCall.create 7 2, OsCall.join 7]⟩ ∧
    ((1 : Nat) ≤ 1 ∧ (1 : Nat) ≤ 1 + 1 ∧ (LoopPc.exited ≠ LoopPc.call → (1 : Nat) = 1)) :=
  ⟨by decide, by decide, by decide,
    (stoppable_thread_loop 2 3 ⟨0, 7⟩
      ⟨⟨⟨⟨2⟩, 7⟩, ⟨3⟩, false⟩, LoopPc.check, 0, 0, false, [OsCall.create 7 2]⟩
      ⟨⟨⟨⟨2⟩, 0⟩, ⟨3⟩, true⟩, LoopPc.exited, 1, 1, false, [OsCall.create 7 2, OsCall.join 7]⟩
      [StopAction.worker, StopAction.worker, StopAction.stop, StopAction.worker,
        StopAction.joinReturn] (by decide) (by decide) (by decide)).1⟩

/-! ## `AutoThread` -/

theorem AutoThread.newAutoThread_eq {α : Type} (self pm c : Nat) (callObj : Closure α)
    (r : CreateResult) (hpm : pm ≠ 0) (hc : c ≠ 0) (hr : r.ret = 0) (hid : r.id ≠ 0) :
    AutoThread.NewAutoThread self pm c callObj r =
      match callObj.Run c with
      | none => none
      | some es => some ([Effect.os (OsCall.create r.id pm)] ++ es ++
          [Effect.os (OsCall.detach r.id), Effect.destroy self, Effect.destroy c,
            Effect.destroy pm]) := by
  simp [AutoThread.NewAutoThread, AutoThread.new, AutoThread.Run, Thread.new, Thread.Start,
    Thread.Detach, Thread.destructor, scoped_ptr.new, scoped_ptr.get, scoped_ptr.destructor,
    deleteObj, hpm, hc, hr, hid]
  cases callObj.Run c <;> simp

/-- When `NewAutoThread` is given a reusable call (one made by
`NewPermanentCallback`) and the thread is created, the target of the call runs
exactly once, then the thread is detached and the `AutoThread` object is
destroyed, once, and its destructor destroys the call object, once, and the
closure of its own thread. -/
theorem AutoThread.reusable_call {α : Type} [DecidableEq α] (self pm c obj f : Nat)
    (a : List α) (r : CreateResult) (hpm : pm ≠ 0) (hc : c ≠ 0) (hr : r.ret = 0)
    (hid : r.id ≠ 0) (hd : c ≠ self ∧ c ≠ pm ∧ self ≠ pm) :
    AutoThread.NewAutoThread self pm c (NewPermanentCallback f a) r =
      some [Effect.os (OsCall.create r.id pm), Effect.call none f a,
        Effect.os (OsCall.detach r.id), Effect.destroy self, Effect.destroy c,
        Effect.destroy pm] ∧
    AutoThread.NewAutoThread self pm c (NewPermanentCallbackM obj f a) r =
      some [Effect.os (OsCall.create r.id pm), Effect.call (some obj) f a,
        Effect.os (OsCall.detach r.id), Effect.destroy self, Effect.destroy c,
        Effect.destroy pm] ∧
    (∀ es, AutoThread.NewAutoThread self pm c (NewPermanentCallback f a) r = some es →
      es.count (Effect.call none f a) = 1 ∧ es.count (Effect.destroy c) = 1 ∧
      es.count (Effect.destroy self) = 1) := by
  have h1 : AutoThread.NewAutoThread self pm c (NewPermanentCallback f a) r =
      some [Effect.os (OsCall.create r.id pm), Effect.call none f a,
        Effect.os (OsCall.detach r.id), Effect.destroy self, Effect.destroy c,
        Effect.destroy pm] := by
    rw [AutoThread.newAutoThread_eq self pm c _ r hpm hc hr hid, NewPermanentCallback,
      Closure.run_eq]
    rfl
  refine ⟨h1, ?_, ?_⟩
  · rw [AutoThread.newAutoThread_eq self pm c _ r hpm hc hr hid, NewPermanentCallbackM,
      Closure.run_eq]
    rfl
  · intro es hes
    rw [h1] at hes
    cases hes
    obtain ⟨h2, h3, h4⟩ := hd
    have h2' : self ≠ c := fun e => h2 e.symm
    have h3' : pm ≠ c := fun e => h3 e.symm
    have h4' : pm ≠ self := fun e => h4 e.symm
    simp [List.count_cons, h2, h3, h4, h2', h3', h4']

/-- C20: `NewAutoThread` is given the one-shot call at address `3` (made by
`NewCallback`), the `AutoThread` is at address `1` and the thread is created. The
target of the call runs once and the `AutoThread` object is destroyed once, after
the call, but the call object at `3` is destroyed twice: by its own `Run()` and
again by the destructor of the `AutoThread`. -/
theorem autothread_one_shot_double_delete :
    AutoThread.NewAutoThread 1 2 3 (NewCallback 9 [4, 5]) ⟨0, 7⟩ =
      some [Effect.os (OsCall.create 7 2), Effect.call none 9 [4, 5], Effect.destroy 3,
        Effect.os (OsCall.detach 7), Effect.destroy 1, Effect.destroy 3,
        Effect.destroy 2] ∧
    [Effect.os (OsCall.create 7 2), Effect.call none 9 [4, 5], Effect.destroy 3,
        Effect.os (OsCall.detach 7), Effect.destroy 1, Effect.destroy 3,
        Effect.destroy 2].count (Effect.call none 9 [4, 5]) = 1 ∧
    [Effect.os (OsCall.create 7 2), Effect.call none 9 [4, 5], Effect.destroy 3,
        Effect.os (OsCall.detach 7), Effect.destroy 1, Effect.destroy 3,
        Effect.destroy 2].count (Effect.destroy 1 : Effect Nat) = 1 ∧
    [Effect.os (OsCall.create 7 2), Effect.call none 9 [4, 5], Effect.destroy 3,
        Effect.os (OsCall.detach 7), Effect.destroy 1, Effect.destroy 3,
        Effect.destroy 2].count (Effect.destroy 3 : Effect Nat) = 2 := by
  refine ⟨?_, by decide, by decide, by decide⟩
  rw [AutoThread.newAutoThread_eq 1 2 3 _ _ (by decide) (by decide) rfl (by decide),
    NewCallback, Closure.run_eq]
  rfl

/-! ## `std::string` searches -/

theorem std_string.span_cases (p : Char → Bool) (l : List Char) :
    (l.takeWhile p = l ∧ ∀ x ∈ l, p x = true) ∨
    ∃ x post, p x = false ∧ l = l.takeWhile p ++ x :: post := by
  induction l with
  | nil => left; simp
  | cons a l ih =>
    by_cases ha : p a = true
    · rcases ih with ⟨h1, h2⟩ | ⟨x, post, hx, hl⟩
      · left
        refine ⟨by simp [List.takeWhile_cons, ha, h1], ?_⟩
        intro y hy
        rcases List.mem_cons.1 hy with rfl | hy
        · exact ha
        · exact h2 y hy
      · right
        refine ⟨x, post, hx, ?_⟩
        simp only [List.takeWhile_cons, ha, if_true, List.cons_append]
        rw [← hl]
    · right
      refine ⟨a, l, by simpa using ha, ?_⟩
      simp [List.takeWhile_cons, ha]

theorem std_string.find_first_of_none {s : List Char} {c : Char} {pos : Nat}
    (h : std_string.find_first_of s c pos = none) : ∀ x ∈ s.drop pos, x ≠ c := by
  unfold std_string.find_first_of at h
  rcases std_string.span_cases (fun x => x != c) (s.drop pos) with ⟨_, h2⟩ | ⟨x, post, _, hl⟩
  · intro x hx
    simpa using h2 x hx
  · exfalso
    have hlen := congrArg List.length hl
    simp only [List.length_append, List.length_cons, List.length_drop] at hlen
    simp only [ite_eq_right_iff] at h
    exact absurd (h (by omega)) (by simp)

theorem std_string.find_first_of_some {s : List Char} {c : Char} {pos q : Nat}
    (h : std_string.find_first_of s c pos = some q) :
    ∃ pre post, s.drop pos = pre ++ c :: post ∧ q = pos + pre.length ∧
      (∀ x ∈ pre, x ≠ c) ∧ s.drop (q + 1) = post ∧
      std_string.substr s pos (q - pos) = pre := by
  unfold std_string.find_first_of at h
  rcases std_string.span_cases (fun x => x != c) (s.drop pos) with ⟨h1, _⟩ | ⟨x, post, hx, hl⟩
  · exfalso
    simp only [h1, List.length_drop] at h
    split at h
    · omega
    · exact absurd h (by simp)
  · have hxc : x = c := by simpa using hx
    subst hxc
    simp only at h
    split at h
    · have hq : q = pos + ((s.drop pos).takeWhile (fun y => y != x)).length := by
        simpa using h.symm
      have key : ∀ (l tw : List Char), l = tw ++ x :: post →
          l.drop (tw.length + 1) = post ∧ l.take tw.length = tw := by
        intro l tw h0
        subst h0
        simp
      have hk := key _ _ hl
      refine ⟨(s.drop pos).takeWhile (fun y => y != x), post, hl, hq, ?_, ?_, ?_⟩
      · intro y hy
        simpa using List.mem_takeWhile_imp hy
      · rw [← hk.1, List.drop_drop, hq, Nat.add_assoc]
      · unfold std_string.substr
        have hqp : q - pos = ((s.drop pos).takeWhile (fun y => y != x)).length := by omega
        rw [hqp]
        exact hk.2
    · exact absurd h (by simp)

/-! ## `SplitString` -/

theorem splitOn_no_sep (l : List Char) (c : Char) (h : ∀ x ∈ l, x ≠ c) :
    l.splitOn c = [l] := by
  unfold List.splitOn
  exact List.splitOnP_eq_single _ _ (by intro x hx; simpa using h x hx)

theorem splitOn_first (pre post : List Char) (c : Char) (h : ∀ x ∈ pre, x ≠ c) :
    (pre ++ c :: post).splitOn c = pre :: post.splitOn c := by
  unfold List.splitOn
  exact List.splitOnP_first _ _ (by intro x hx; simpa using h x hx) c (by simp) post

theorem SplitString.loop_spec (s : List Char) (c : Char) :
    ∀ (fuel from_ : Nat) (v : List (List Char)), from_ ≤ s.length → s.length - from_ < fuel →
      (if (SplitString.loop s c fuel from_ v).1 < s.length
        then (SplitString.loop s c fuel from_ v).2 ++ [s.drop (SplitString.loop s c fuel from_ v).1]
        else (SplitString.loop s c fuel from_ v).2)
      = v ++ splitFields (s.drop from_) c := by
  intro fuel
  induction fuel with
  | zero => intro from_ v _ h; omega
  | succ fuel ih =>
    intro from_ v hle hfuel
    rw [SplitString.loop]
    cases hf : std_string.find_first_of s c from_ with
    | none =>
      have hno := std_string.find_first_of_none hf
      simp only [splitFields, splitOn_no_sep _ _ hno]
      by_cases hlt : from_ < s.length
      · have hne : s.drop from_ ≠ [] := by
          intro h0
          have := congrArg List.length h0
          simp at this
          omega
        simp [hlt, hne]
      · have he : s.drop from_ = [] := List.drop_eq_nil_of_le (by omega)
        simp [hlt, he]
    | some pos =>
      obtain ⟨pre, post, hl, hq, hpre, hpost, hsub⟩ := std_string.find_first_of_some hf
      have hlen := congrArg List.length hl
      simp only [List.length_append, List.length_cons, List.length_drop] at hlen
      simp only
      rw [ih (pos + 1) _ (by omega) (by omega), hpost]
      simp only [splitFields, hl, splitOn_first _ _ _ hpre, hsub]
      by_cases hp : pre = []
      · have : pos = from_ := by rw [hq, hp]; simp
        simp [hp, this]
      · have : pos ≠ from_ := by
          intro h0
          have : pre.length = 0 := by omega
          exact hp (List.length_eq_zero.1 this)
        simp [hp, this, List.filter_cons]

theorem splitOn_no_sep_mem (l : List Char) (c : Char) : ∀ f ∈ l.splitOn c, c ∉ f := by
  induction l with
  | nil => intro f hf; simp [List.splitOn] at hf; subst hf; simp
  | cons a l ih =>
    intro f hf
    unfold List.splitOn at hf ih
    rw [List.splitOnP_cons] at hf
    by_cases ha : a = c
    · simp only [ha, beq_self_eq_true, if_true, List.mem_cons] at hf
      rcases hf with rfl | hf
      · simp
      · exact ih f hf
    · have hac : (a == c) = false := by simpa using ha
      simp only [hac] at hf
      cases hs : List.splitOnP (fun x => x == c) l with
      | nil => exact absurd hs (List.splitOnP_ne_nil _ _)
      | cons h t =>
        rw [hs] at hf ih
        simp only [List.modifyHead_cons, List.mem_cons, Bool.false_eq_true, if_false] at hf
        rcases hf with rfl | hf
        · intro hc
          rcases List.mem_cons.1 hc with h1 | h1
          · exact ha h1.symm
          · exact ih h (List.mem_cons_self _ _) h1
        · exact ih f (List.mem_cons_of_mem _ hf)

/-- C21: for every string `s`, character `c` and vector `v`, `SplitString(s, c, v)` keeps
the elements of `v` and appends, from left to right, the non-empty fields of `s`
between occurrences of `c`: the pieces that joined by single `c` give back `s`, none
of which contains `c`, with the empty pieces left out. The documented example
`"abc,,hello world"` split by `','` gives `"abc"`, `"hello world"`. -/
theorem split_string_appends_fields (s : List Char) (c : Char) (v : List (List Char)) :
    SplitString s c v = v ++ (s.splitOn c).filter (fun f => f ≠ []) ∧
    [c].intercalate (s.splitOn c) = s ∧
    (∀ f ∈ s.splitOn c, c ∉ f) ∧
    SplitString ("abc,,hello world").toList ',' [] =
      [("abc").toList, ("hello world").toList] := by
  refine ⟨?_, List.intercalate_splitOn s c, splitOn_no_sep_mem s c, by decide⟩
  have h := SplitString.loop_spec s c (s.length + 1) 0 v (Nat.zero_le _) (by omega)
  simpa [SplitString, splitFields] using h

theorem split_string_appends_fields_witness :
    SplitString (",,a,b,,").toList ',' [("x").toList] =
      [("x").toList, ("a").toList, ("b").toList] ∧
    ',' ∉ ("a").toList := by
  have h := split_string_appends_fields (",,a,b,,").toList ',' [("x").toList]
  refine ⟨?_, h.2.2.1 ("a").toList (by decide)⟩
  rw [h.1]
  decide

/-! ## `TrimString` -/

theorem TrimString_of_trimmed (s : List Char) (h1 : s.head? ≠ some ' ')
    (h2 : s.getLast? ≠ some ' ') : TrimString s = s := by
  unfold TrimString
  simp [h1, h2]

theorem TrimString_all_spaces (a : List Char) (ha : ∀ c ∈ a, c = ' ') : TrimString a = [] := by
  cases a with
  | nil => rfl
  | cons x a =>
    have hx : x = ' ' := ha x (List.mem_cons_self _ _)
    subst hx
    have htw : List.takeWhile (fun x => x == ' ') (' ' :: a) = ' ' :: a :=
      List.takeWhile_eq_self_iff.2 (by intro c hc; simpa using ha c hc)
    unfold TrimString
    simp [std_string.find_first_not_of, htw]

theorem TrimString_sandwich (a b w u : List Char) (x y : Char)
    (hr : (x :: w).reverse = y :: u) (hx : x ≠ ' ') (hy : y ≠ ' ')
    (ha : ∀ c ∈ a, c = ' ') (hb : ∀ c ∈ b, c = ' ') :
    TrimString (a ++ (x :: w) ++ b) = x :: w := by
  have hxw : x :: w = u.reverse ++ [y] := by
    have := congrArg List.reverse hr
    simpa using this
  have hlen : (x :: w).length = u.length + 1 := by rw [hxw]; simp
  have hf : std_string.find_first_not_of (a ++ (x :: w) ++ b) ' ' = some a.length := by
    have htw : List.takeWhile (fun c => c == ' ') (a ++ (x :: w) ++ b) = a := by
      rw [List.append_assoc, List.takeWhile_append_of_pos (by intro c hc; simpa using ha c hc)]
      simp [List.takeWhile_cons, hx]
    simp only [std_string.find_first_not_of, htw]
    rw [if_pos (by simp)]
  have hl : std_string.find_last_not_of (a ++ (x :: w) ++ b) ' ' =
      some ((a ++ (x :: w) ++ b).length - 1 - b.length) := by
    have htw : List.takeWhile (fun c => c == ' ') (a ++ (x :: w) ++ b).reverse = b.reverse := by
      rw [List.reverse_append, List.reverse_append, hr,
        List.takeWhile_append_of_pos (by intro c hc; simpa using hb c (List.mem_reverse.1 hc))]
      simp [List.takeWhile_cons, hy]
    simp only [std_string.find_last_not_of, htw, List.length_reverse]
    rw [if_pos (by simp only [List.length_append, List.length_cons]; omega)]
  have hsub : std_string.substr (a ++ (x :: w) ++ b) a.length
      ((a ++ (x :: w) ++ b).length - 1 - b.length - a.length + 1) = x :: w := by
    have hn : (a ++ (x :: w) ++ b).length - 1 - b.length - a.length + 1 = (x :: w).length := by
      simp only [List.length_append, hlen]
      omega
    rw [hn]
    unfold std_string.substr
    rw [List.append_assoc, List.drop_left]
    simp
  by_cases hc : (a ++ (x :: w) ++ b).head? ≠ some ' ' ∧ (a ++ (x :: w) ++ b).getLast? ≠ some ' '
  · have ha0 : a = [] := by
      cases a with
      | nil => rfl
      | cons c a =>
        have : c = ' ' := ha c (List.mem_cons_self _ _)
        exact absurd (by simp [this]) hc.1
    have hb0 : b = [] := by
      rcases List.eq_nil_or_concat b with h0 | ⟨L, c, h0⟩
      · exact h0
      · have : c = ' ' := hb c (by rw [h0]; simp)
        exact absurd (by rw [h0, this]; simp [List.getLast?_eq_head?_reverse]) hc.2
    subst ha0
    subst hb0
    simpa using TrimString_of_trimmed _ hc.1 hc.2
  · unfold TrimString
    have hcond : ((a ++ (x :: w) ++ b).isEmpty ||
        ((a ++ (x :: w) ++ b).head? != some ' ' && (a ++ (x :: w) ++ b).getLast? != some ' '))
        = false := by
      rw [Bool.or_eq_false_iff]
      refine ⟨by simp, ?_⟩
      by_contra h0
      simp only [Bool.not_eq_false, Bool.and_eq_true, bne_iff_ne] at h0
      exact hc h0
    rw [hcond]
    simp only [Bool.false_eq_true, if_false, hf, hl]
    exact hsub

theorem trim_decomposition (s : List Char) :
    ∃ a b, s = a ++ trimSpaces s ++ b ∧ (∀ c ∈ a, c = ' ') ∧ (∀ c ∈ b, c = ' ') ∧
      (trimSpaces s = [] ∨ ∃ x w y u, trimSpaces s = x :: w ∧ (x :: w).reverse = y :: u ∧
        x ≠ ' ' ∧ y ≠ ' ') := by
  refine ⟨s.takeWhile (fun x => x == ' '),
    ((s.dropWhile (fun x => x == ' ')).reverse.takeWhile (fun x => x == ' ')).reverse, ?_, ?_, ?_, ?_⟩
  · unfold trimSpaces
    rw [List.append_assoc, ← List.reverse_append, List.takeWhile_append_dropWhile,
      List.reverse_reverse, List.takeWhile_append_dropWhile]
  · intro c hc
    simpa using List.mem_takeWhile_imp hc
  · intro c hc
    simpa using List.mem_takeWhile_imp (List.mem_reverse.1 hc)
  · cases ht : trimSpaces s with
    | nil => left; rfl
    | cons x w =>
      right
      have hrev : (x :: w).reverse =
          (s.dropWhile (fun x => x == ' ')).reverse.dropWhile (fun x => x == ' ') := by
        rw [← ht]; unfold trimSpaces; simp
      cases hd : (s.dropWhile (fun x => x == ' ')).reverse.dropWhile (fun x => x == ' ') with
      | nil => rw [hd] at hrev; simp at hrev
      | cons y u =>
        refine ⟨x, w, y, u, rfl, by rw [hrev, hd], ?_, ?_⟩
        · -- the first character of the result is the first character after the leading spaces
          have hpre : ∃ r, s.dropWhile (fun x => x == ' ') = (x :: w) ++ r := by
            refine ⟨((s.dropWhile (fun x => x == ' ')).reverse.takeWhile
              (fun x => x == ' ')).reverse, ?_⟩
            rw [← ht]
            unfold trimSpaces
            rw [← List.reverse_append, List.takeWhile_append_dropWhile, List.reverse_reverse]
          obtain ⟨r, hr⟩ := hpre
          intro hx
          have hne : s.dropWhile (fun x => x == ' ') ≠ [] := by rw [hr]; simp
          have := List.head_dropWhile_not (fun x => x == ' ') s hne
          simp [hr, hx] at this
        · intro hy
          have hne : (s.dropWhile (fun x => x == ' ')).reverse.dropWhile (fun x => x == ' ') ≠ [] := by
            rw [hd]; simp
          have := List.head_dropWhile_not (fun x => x == ' ') _ hne
          simp [hd, hy] at this

theorem TrimString_eq_trimSpaces (s : List Char) : TrimString s = trimSpaces s := by
  obtain ⟨a, b, hs, ha, hb, ht⟩ := trim_decomposition s
  rcases ht with ht | ⟨x, w, y, u, ht, hr, hx, hy⟩
  · rw [ht]
    apply TrimString_all_spaces
    intro c hc
    rw [hs, ht] at hc
    simp only [List.append_nil, List.mem_append] at hc
    rcases hc with hc | hc
    · exact ha c hc
    · exact hb c hc
  · conv_lhs => rw [hs, ht]
    rw [ht]
    exact TrimString_sandwich a b w u x y hr hx hy ha hb

/-- C22: for every string `s`, `TrimString(s)` leaves `s` without its leading and
trailing spaces: `s` is some spaces, then the result, then some spaces; the result
neither starts nor ends with a space; it is empty exactly when `s` has only spaces;
trimming the result again changes nothing; and `" hello world  "` becomes
`"hello world"`. -/
theorem trim_string_removes_outer_spaces (s : List Char) :
    (∃ a b, s = a ++ TrimString s ++ b ∧ a = List.replicate a.length ' ' ∧
      b = List.replicate b.length ' ') ∧
    (TrimString s).head? ≠ some ' ' ∧ (TrimString s).getLast? ≠ some ' ' ∧
    (TrimString s = [] ↔ s = List.replicate s.length ' ') ∧
    TrimString (TrimString s) = TrimString s ∧
    TrimString (" hello world  ").toList = ("hello world").toList := by
  have hhead : (TrimString s).head? ≠ some ' ' ∧ (TrimString s).getLast? ≠ some ' ' := by
    obtain ⟨a, b, _, _, _, ht⟩ := trim_decomposition s
    rw [TrimString_eq_trimSpaces]
    rcases ht with ht | ⟨x, w, y, u, ht, hr, hx, hy⟩
    · simp [ht]
    · rw [ht]
      refine ⟨by simpa using hx, ?_⟩
      rw [List.getLast?_eq_head?_reverse, hr]
      simpa using hy
  obtain ⟨a, b, hs, ha, hb, _⟩ := trim_decomposition s
  have ha2 : a = List.replicate a.length ' ' := List.eq_replicate_iff.2 ⟨rfl, ha⟩
  have hb2 : b = List.replicate b.length ' ' := List.eq_replicate_iff.2 ⟨rfl, hb⟩
  refine ⟨⟨a, b, by rw [TrimString_eq_trimSpaces]; exact hs, ha2, hb2⟩, hhead.1, hhead.2, ?_,
    TrimString_of_trimmed _ hhead.1 hhead.2, by decide⟩
  constructor
  · intro h0
    rw [TrimString_eq_trimSpaces] at h0
    rw [h0] at hs
    apply List.eq_replicate_iff.2
    refine ⟨rfl, ?_⟩
    intro c hc
    rw [hs] at hc
    simp only [List.append_nil, List.mem_append] at hc
    rcases hc with hc | hc
    · exact ha c hc
    · exact hb c hc
  · intro h0
    apply TrimString_all_spaces
    intro c hc
    rw [h0] at hc
    exact (List.mem_replicate.1 hc).2

theorem trim_string_removes_outer_spaces_witness :
    ("   ").toList = List.replicate ("   ").toList.length ' ' ∧ TrimString ("   ").toList = [] :=
  ⟨by decide, (trim_string_removes_outer_spaces ("   ").toList).2.2.2.1.2 (by decide)⟩

/-! ## `init_ccflag(argc, argv, v)` -/

theorem ccflag.nonflag_iff (arg : List Char) :
    (arg.head?.getD '\x00' != '-') = true ↔ arg.head? ≠ some '-' := by
  cases arg with
  | nil => simp
  | cons c rest => simp

theorem ccflag.init_loop_v (strtod : List Char → ccflag.double × Nat) :
    ∀ (args : List (List Char)) (st r : ccflag.State),
      ccflag.init_ccflag.loop strtod args st = some r →
      r.v = st.v.map (fun l => l ++ args.filter (fun a => a.head? ≠ some '-')) := by
  intro args
  induction args with
  | nil =>
    intro st r h
    simp only [ccflag.init_ccflag.loop, Option.some.injEq] at h
    subst h
    cases st.v <;> simp
  | cons arg rest ih =>
    intro st r h
    rw [ccflag.init_ccflag.loop] at h
    by_cases hc : (arg.head?.getD '\x00' != '-') = true
    · rw [if_pos hc] at h
      have hn := (ccflag.nonflag_iff arg).1 hc
      rw [ih _ _ h]
      cases st.v <;> simp [List.filter_cons, hn]
    · rw [if_neg hc] at h
      have hn : ¬ arg.head? ≠ some '-' := fun h0 => hc ((ccflag.nonflag_iff arg).2 h0)
      have hf : (arg :: rest).filter (fun a => a.head? ≠ some '-') =
          rest.filter (fun a => a.head? ≠ some '-') := by
        simp only [List.filter_cons]
        rw [if_neg (by simpa using hn)]
      rw [hf]
      simp only at h
      split at h
      · exact absurd h (by simp)
      · split at h
        · split at h
          · exact absurd h (by simp)
          · have h2 := ih _ _ h
            exact h2
        · split at h
          · exact absurd h (by simp)
          · have h2 := ih _ _ h
            exact h2

/-- C23, the claim as stated fails: with no flag among the arguments and a non-null
`v`, `init_ccflag` does not always append every element of `argv[1..argc-1]` that does
not begin with `'-'`. For `argv = ["prog", ".", "a"]` only `"a"` is appended. -/
theorem init_ccflag_counterexample :
    ¬ ∀ (argv v : List (List Char)) (r : ccflag.State),
      ccflag.init_ccflag ccflag.strtod_plain ⟨⟨[]⟩, false, some v⟩ argv = some r →
      r.v = some (v ++ (argv.drop 1).filter (fun a => a.head? ≠ some '-')) := by
  intro h
  have h1 := h [("prog").toList, (".").toList, ("a").toList] []
    ⟨⟨[]⟩, true, some [("a").toList]⟩ (by decide)
  revert h1
  decide

/-- C23 (amended): for every argument vector and every non-null `v`, when
`init_ccflag(argc, argv, v)` returns (no argument made it exit), it has appended to
`v`, in order, exactly the elements that do not begin with `'-'` among
`argv[1 + beg..argc-1]`, where `beg` is 1 when `argv[1]` has no character other than
`'.'` (that argument switches the error output to a file and is not appended) and
0 otherwise; no element that begins with `'-'` is appended. -/
theorem init_ccflag_appends_non_flags (strtod : List Char → ccflag.double × Nat)
    (st r : ccflag.State) (argv v : List (List Char)) (hv : st.v = some v)
    (h : ccflag.init_ccflag strtod st argv = some r) :
    r.v = some (v ++ ((argv.drop 1).drop (ccflag.init_ccflag.beg (argv.drop 1))).filter
      (fun a => a.head? ≠ some '-')) := by
  unfold ccflag.init_ccflag at h
  split at h
  · rename_i hlen
    simp only [Option.some.injEq] at h
    subst h
    have : argv.drop 1 = [] := List.drop_eq_nil_of_le hlen
    rw [hv, this]
    simp [ccflag.init_ccflag.beg]
  · simp only at h
    split at h
    · exact absurd h (by simp)
    · rw [ccflag.init_loop_v strtod _ _ _ h]
      simp [hv]

theorem init_ccflag_appends_non_flags_witness :
    ccflag.init_ccflag ccflag.strtod_plain
        ⟨⟨[(("b").toList, ccflag.FlagVar.bool false)]⟩, false, some [("k").toList]⟩
        [("prog").toList, (".").toList, ("x").toList, ("-b").toList, ("y").toList] =
      some ⟨⟨[(("b").toList, ccflag.FlagVar.bool true)]⟩, true,
        some [("k").toList, ("x").toList, ("y").toList]⟩ ∧
    (⟨⟨[(("b").toList, ccflag.FlagVar.bool true)]⟩, true,
        some [("k").toList, ("x").toList, ("y").toList]⟩ : ccflag.State).v =
      some ([("k").toList] ++
        (([("prog").toList, (".").toList, ("x").toList, ("-b").toList, ("y").toList].drop 1).drop
          (ccflag.init_ccflag.beg
            ([("prog").toList, (".").toList, ("x").toList, ("-b").toList, ("y").toList].drop 1))).filter
          (fun a => a.head? ≠ some '-')) :=
  ⟨by decide,
    init_ccflag_appends_non_flags ccflag.strtod_plain
      ⟨⟨[(("b").toList, ccflag.FlagVar.bool false)]⟩, false, some [("k").toList]⟩
      ⟨⟨[(("b").toList, ccflag.FlagVar.bool true)]⟩, true,
        some [("k").toList, ("x").toList, ("y").toList]⟩
      [("prog").toList, (".").toList, ("x").toList, ("-b").toList, ("y").toList]
      [("k").toList] rfl (by decide)⟩

/-! ## `CommandLineToArgv` -/

/-- C24: on the documented example `CommandLineToArgv` yields `argv[1..3]` =
`-i=23`, `-s=hello world`, `-t=hello_world`; but for the command line `x " a"` it
yields the arguments `x` and `a`: the space inside the quotation marks is part of
no argument; and for `a " " b` it yields `a` and `b` only. -/
theorem command_line_to_argv_quoted_space :
    ccflag.CommandLineToArgv ("-i=23 -s=\"hello world\" -t=hello_world").toList =
      some [("-i=23").toList, ("-i=23").toList, ("-s=hello world").toList,
        ("-t=hello_world").toList] ∧
    ccflag.CommandLineToArgv ("x \" a\"").toList =
      some [("x").toList, ("x").toList, ("a").toList] ∧
    ccflag.CommandLineToArgv ("a \" \" b").toList =
      some [("a").toList, ("a").toList, ("b").toList] ∧
    (ccflag.init_ccflag_args ccflag.strtod_plain ⟨⟨[]⟩, false, some []⟩
        ("x \" a\"").toList).map (fun r => r.v) =
      some (some [("x").toList, ("a").toList]) := by
  decide

/-! ## `strtoul` and `StrToU64` -/

theorem ccflag.digit_range {c : Char} (h : ccflag.isDigitOf 10 c = true) :
    48 ≤ c.toNat ∧ c.toNat ≤ 57 := by
  unfold ccflag.isDigitOf ccflag.digitValue at h
  simp only at h
  by_cases h1 : 48 ≤ c.toNat ∧ c.toNat ≤ 57
  · exact h1
  · rw [if_neg h1] at h
    by_cases h2 : 97 ≤ c.toNat ∧ c.toNat ≤ 122
    · rw [if_pos h2] at h
      simp only [decide_eq_true_eq] at h
      omega
    · rw [if_neg h2] at h
      by_cases h3 : 65 ≤ c.toNat ∧ c.toNat ≤ 90
      · rw [if_pos h3] at h
        simp only [decide_eq_true_eq] at h
        omega
      · rw [if_neg h3] at h
        exact absurd h (by simp)

theorem ccflag.digit_ne {c : Char} (h : ccflag.isDigitOf 10 c = true) (d : Char)
    (hd : d.toNat < 48 ∨ 57 < d.toNat) : c ≠ d := by
  intro h0
  subst h0
  have := ccflag.digit_range h
  omega

theorem ccflag.digit_not_space {c : Char} (h : ccflag.isDigitOf 10 c = true) :
    ccflag.isspace c = false := by
  unfold ccflag.isspace
  simp [ccflag.digit_ne h ' ' (by decide), ccflag.digit_ne h '\x0c' (by decide),
    ccflag.digit_ne h '\n' (by decide), ccflag.digit_ne h '\r' (by decide),
    ccflag.digit_ne h '\t' (by decide), ccflag.digit_ne h '\x0b' (by decide)]

theorem ccflag.digit_not_unit {c : Char} (h : ccflag.isDigitOf 10 c = true) :
    (("KkMmGgTt").toList).contains c = false := by
  have e : ("KkMmGgTt").toList = ['K', 'k', 'M', 'm', 'G', 'g', 'T', 't'] := by decide
  rw [e]
  simp [ccflag.digit_ne h 'K' (by decide), ccflag.digit_ne h 'k' (by decide),
    ccflag.digit_ne h 'M' (by decide), ccflag.digit_ne h 'm' (by decide),
    ccflag.digit_ne h 'G' (by decide), ccflag.digit_ne h 'g' (by decide),
    ccflag.digit_ne h 'T' (by decide), ccflag.digit_ne h 't' (by decide)]

theorem ccflag.takeWhile_digits (ds rest : List Char)
    (hds : ∀ c ∈ ds, ccflag.isDigitOf 10 c = true)
    (hrest : ∀ c, rest.head? = some c → ccflag.isDigitOf 10 c = false) :
    (ds ++ rest).takeWhile (ccflag.isDigitOf 10) = ds := by
  rw [List.takeWhile_append_of_pos hds]
  cases rest with
  | nil => simp
  | cons j rest =>
    have := hrest j rfl
    simp [List.takeWhile_cons, this]

theorem ccflag.strtoul_decimal (d : Char) (ds rest : List Char)
    (hd : ccflag.isDigitOf 10 d = true) (hd0 : d ≠ '0')
    (hds : ∀ c ∈ ds, ccflag.isDigitOf 10 c = true)
    (hrest : ∀ c, rest.head? = some c → ccflag.isDigitOf 10 c = false) :
    ccflag.strtoul (d :: ds ++ rest) =
      (if ccflag.digitsValue 10 (d :: ds) ≥ 2 ^ 64 then 2 ^ 64 - 1
        else ccflag.digitsValue 10 (d :: ds), ds.length + 1) := by
  have hsp := ccflag.digit_not_space hd
  have hm := ccflag.digit_ne hd '-' (by decide)
  have hp := ccflag.digit_ne hd '+' (by decide)
  have htw : (d :: ds ++ rest).takeWhile (ccflag.isDigitOf 10) = d :: ds := by
    have := ccflag.takeWhile_digits (d :: ds) rest
      (by intro c hc
          rcases List.mem_cons.1 hc with rfl | hc
          · exact hd
          · exact hds c hc) hrest
    simpa using this
  have hws : (d :: (ds ++ rest)).takeWhile ccflag.isspace = [] := by
    simp [List.takeWhile_cons, hsp]
  unfold ccflag.strtoul
  simp only [List.cons_append, hws, List.length_nil, List.drop_zero, List.head?_cons]
  have e1 : (some d == some '-') = false := by simpa using hm
  have e2 : (some d == some '+') = false := by simpa using hp
  have e3 : (some d == some '0') = false := by simpa using hd0
  simp only [e1, e2, e3, Bool.or_self, Bool.false_eq_true, if_false, List.drop_zero,
    Bool.false_and, List.head?_cons]
  have htw2 : (d :: (ds ++ rest)).takeWhile (ccflag.isDigitOf 10) = d :: ds := by
    simpa using htw
  rw [htw2]
  simp

theorem ccflag.convert_general (neg : Bool) (d : Char) (ds rest : List Char) (unit : Char)
    (hd : ccflag.isDigitOf 10 d = true) (hd0 : d ≠ '0')
    (hds : ∀ c ∈ ds, ccflag.isDigitOf 10 c = true)
    (hrest : ∀ c, rest.head? = some c → ccflag.isDigitOf 10 c = false) :
    ccflag.StrToU64.convert ((if neg then ['-'] else []) ++ d :: (ds ++ rest)) unit =
      if rest.isEmpty then
        ⟨true,
          some (if neg then
              (2 ^ 64 - ((if ccflag.digitsValue 10 (d :: ds) ≥ 2 ^ 64 then 2 ^ 64 - 1
                else ccflag.digitsValue 10 (d :: ds)) * 2 ^ ccflag.unitShift unit) % 2 ^ 64) % 2 ^ 64
            else ((if ccflag.digitsValue 10 (d :: ds) ≥ 2 ^ 64 then 2 ^ 64 - 1
                else ccflag.digitsValue 10 (d :: ds)) * 2 ^ ccflag.unitShift unit) % 2 ^ 64),
          some neg, ""⟩
      else ⟨false, none, some neg, "invalid value for integer"⟩ := by
  have hm := ccflag.digit_ne hd '-' (by decide)
  have hdm : (d == '-') = false := by simpa using hm
  have hs := ccflag.strtoul_decimal d ds rest hd hd0 hds hrest
  rw [List.cons_append] at hs
  generalize (if ccflag.digitsValue 10 (d :: ds) ≥ 2 ^ 64 then 2 ^ 64 - 1
    else ccflag.digitsValue 10 (d :: ds)) = N at hs ⊢
  cases neg with
  | false =>
    have hf : std_string.find_first_not_of (d :: (ds ++ rest)) '-' = some 0 := by
      simp [std_string.find_first_not_of, List.takeWhile_cons, hdm]
    cases rest with
    | nil =>
      simp only [List.append_nil] at hs hf
      simp [ccflag.StrToU64.convert, hf, hs]
    | cons j rest => simp [ccflag.StrToU64.convert, hf, hs]
  | true =>
    have hf : std_string.find_first_not_of ('-' :: d :: (ds ++ rest)) '-' = some 1 := by
      simp [std_string.find_first_not_of, List.takeWhile_cons, hdm]
    cases rest with
    | nil =>
      simp only [List.append_nil] at hs hf
      simp [ccflag.StrToU64.convert, hf, hs]
      omega
    | cons j rest =>
      simp [ccflag.StrToU64.convert, hf, hs]
      omega

theorem ccflag.convert_two_dashes (t : List Char) (unit : Char) :
    (ccflag.StrToU64.convert ('-' :: '-' :: t) unit).ret = false := by
  unfold ccflag.StrToU64.convert
  cases hf : std_string.find_first_not_of ('-' :: '-' :: t) '-' with
  | none => rfl
  | some pos =>
    have hp : pos > 1 := by
      unfold std_string.find_first_not_of at hf
      simp only [List.takeWhile_cons, beq_self_eq_true, if_true, List.length_cons] at hf
      split at hf
      · simp only [Option.some.injEq] at hf
        omega
      · exact absurd hf (by simp)
    simp [hp]

theorem ccflag.hasUnit_concat (w : List Char) (u : Char) :
    ccflag.StrToU64.hasUnit (w ++ [u]) = (("KkMmGgTt").toList).contains u := by
  unfold ccflag.StrToU64.hasUnit
  simp

theorem ccflag.StrToU64_concat (w : List Char) (u : Char) :
    ccflag.StrToU64 (w ++ [u]) =
      if (("KkMmGgTt").toList).contains u then ccflag.StrToU64.convert w u
      else ccflag.StrToU64.convert (w ++ [u]) '\x00' := by
  unfold ccflag.StrToU64
  rw [ccflag.hasUnit_concat]
  simp

theorem ccflag.StrToU64_failure (value : List Char) (h : (ccflag.StrToU64 value).ret = false) :
    (ccflag.StrToU64 value).p = none ∧
      (ccflag.StrToU64 value).err = "invalid value for integer" := by
  have hc : ∀ (v : List Char) (unit : Char), (ccflag.StrToU64.convert v unit).ret = false →
      (ccflag.StrToU64.convert v unit).p = none ∧
        (ccflag.StrToU64.convert v unit).err = "invalid value for integer" := by
    intro v unit h0
    unfold ccflag.StrToU64.convert at h0 ⊢
    cases hpos : std_string.find_first_not_of v '-' with
    | none => exact ⟨rfl, rfl⟩
    | some pos =>
      rw [hpos] at h0
      simp only at h0 ⊢
      by_cases h1 : pos > 1
      · rw [if_pos h1]
        exact ⟨rfl, rfl⟩
      · rw [if_neg h1] at h0 ⊢
        by_cases h2 : ((if (pos == 1) = true then 1 else 0) +
            (ccflag.strtoul (if (pos == 1) = true then List.drop 1 v else v)).2 != v.length) = true
        · rw [if_pos h2]
          exact ⟨rfl, rfl⟩
        · rw [if_neg h2] at h0
          exact absurd h0 (by simp)
  unfold ccflag.StrToU64 at h ⊢
  split
  · rename_i h1
    rw [if_pos h1] at h
    exact hc _ _ h
  · rename_i h1
    rw [if_neg h1] at h
    exact hc _ _ h

theorem ccflag.strtoul_no_digits (s : List Char)
    (h : ∀ c ∈ s, ccflag.isDigitOf 10 c = false) : ccflag.strtoul s = (0, 0) := by
  have hhead : ∀ l : List Char, (∀ c ∈ l, c ∈ s) → (l.head? == some '0') = false := by
    intro l hl
    cases l with
    | nil => rfl
    | cons c r =>
      have hc := h c (hl c (List.mem_cons_self _ _))
      have : c ≠ '0' := by
        intro h0
        rw [h0] at hc
        exact absurd hc (by decide)
      simpa using this
  have htw : ∀ l : List Char, (∀ c ∈ l, c ∈ s) → l.takeWhile (ccflag.isDigitOf 10) = [] := by
    intro l hl
    cases l with
    | nil => rfl
    | cons c r =>
      have hc := h c (hl c (List.mem_cons_self _ _))
      simp [List.takeWhile_cons, hc]
  unfold ccflag.strtoul
  simp only
  generalize hs2 : List.drop
    (if ((List.drop (List.takeWhile ccflag.isspace s).length s).head? == some '-' ||
      (List.drop (List.takeWhile ccflag.isspace s).length s).head? == some '+') = true
      then 1 else 0) (List.drop (List.takeWhile ccflag.isspace s).length s) = s2
  have hmem : ∀ c ∈ s2, c ∈ s := by
    intro c hc
    rw [← hs2] at hc
    exact List.mem_of_mem_drop (List.mem_of_mem_drop hc)
  simp only [hhead s2 hmem, Bool.false_and, Bool.false_eq_true, if_false, List.drop_zero,
    htw s2 hmem, List.isEmpty_nil, if_true]

theorem ccflag.convert_no_digits (v : List Char) (unit : Char)
    (h : ∀ c ∈ v, ccflag.isDigitOf 10 c = false) :
    (ccflag.StrToU64.convert v unit).ret = false := by
  unfold ccflag.StrToU64.convert
  cases hpos : std_string.find_first_not_of v '-' with
  | none => rfl
  | some pos =>
    have hlt : pos < v.length := by
      unfold std_string.find_first_not_of at hpos
      simp only at hpos
      split at hpos
      · simp only [Option.some.injEq] at hpos
        omega
      · exact absurd hpos (by simp)
    simp only
    by_cases h1 : pos > 1
    · rw [if_pos h1]
    · rw [if_neg h1]
      have hb : ccflag.strtoul (if (pos == 1) = true then List.drop 1 v else v) = (0, 0) := by
        apply ccflag.strtoul_no_digits
        intro c hc
        split at hc
        · exact h c (List.mem_of_mem_drop hc)
        · exact h c hc
      rw [hb]
      have h2 : ((if (pos == 1) = true then 1 else 0) + (0, 0).2 != v.length) = true := by
        by_cases hp : pos = 1
        · simp [hp]; omega
        · simp [hp]; omega
      rw [if_pos h2]

theorem ccflag.StrToU64_no_digits (value : List Char)
    (h : ∀ c ∈ value, ccflag.isDigitOf 10 c = false) :
    (ccflag.StrToU64 value).ret = false := by
  unfold ccflag.StrToU64
  split
  · exact ccflag.convert_no_digits _ _ (fun c hc => h c (List.mem_of_mem_dropLast hc))
  · exact ccflag.convert_no_digits _ _ h

theorem ccflag.StrToU64_digit_last (w : List Char) (x : Char)
    (hx : ccflag.isDigitOf 10 x = true) :
    ccflag.StrToU64 (w ++ [x]) = ccflag.StrToU64.convert (w ++ [x]) '\x00' := by
  rw [ccflag.StrToU64_concat, ccflag.digit_not_unit hx]
  simp

theorem ccflag.StrToU64_decimal (neg : Bool) (d : Char) (ds unit : List Char) (e : Nat)
    (hd : ccflag.isDigitOf 10 d = true) (hd0 : d ≠ '0')
    (hds : ∀ c ∈ ds, ccflag.isDigitOf 10 c = true)
    (hue : (unit, e) ∈ ccflag.unitExponents)
    (hn : ccflag.digitsValue 10 (d :: ds) < 2 ^ 64) :
    ccflag.StrToU64 (ccflag.signText neg ++ d :: ds ++ unit) =
      ⟨true,
        some (if neg then (2 ^ 64 - ccflag.digitsValue 10 (d :: ds) * 2 ^ e % 2 ^ 64) % 2 ^ 64
          else ccflag.digitsValue 10 (d :: ds) * 2 ^ e % 2 ^ 64),
        some neg, ""⟩ := by
  have hg := fun u => ccflag.convert_general neg d ds [] u hd hd0 hds (by simp)
  simp only [List.append_nil, List.isEmpty_nil, if_true, ge_iff_le, if_neg (Nat.not_le.2 hn)] at hg
  have hnounit : ccflag.StrToU64 (ccflag.signText neg ++ d :: ds) =
      ccflag.StrToU64.convert (ccflag.signText neg ++ d :: ds) '\x00' := by
    rcases List.eq_nil_or_concat (d :: ds) with h0 | ⟨L, x, h0⟩
    · exact absurd h0 (by simp)
    · have hx : ccflag.isDigitOf 10 x = true := by
        have hmem : x ∈ d :: ds := by rw [h0]; simp
        rcases List.mem_cons.1 hmem with rfl | hmem
        · exact hd
        · exact hds x hmem
      rw [h0, List.concat_eq_append, ← List.append_assoc]
      exact ccflag.StrToU64_digit_last _ x hx
  unfold ccflag.unitExponents at hue
  simp only [List.mem_cons, Prod.mk.injEq, List.mem_singleton, List.not_mem_nil, or_false] at hue
  unfold ccflag.signText at hnounit ⊢
  rcases hue with h | h | h | h | h | h | h | h | h
  · obtain ⟨hu, he⟩ := h
    subst hu
    subst he
    rw [List.append_nil, hnounit, hg]
    rfl
  all_goals
    obtain ⟨hu, he⟩ := h
    subst hu
    subst he
    rw [ccflag.StrToU64_concat, if_pos (by decide), hg]
    rfl

theorem ccflag.octal_is_decimal {c : Char} (h : ccflag.isDigitOf 10 c = false) :
    ccflag.isDigitOf 8 c = false := by
  unfold ccflag.isDigitOf at h ⊢
  cases hv : ccflag.digitValue c with
  | none => rfl
  | some n =>
    rw [hv] at h
    simp only [decide_eq_false_iff_not] at h ⊢
    omega

theorem ccflag.takeWhile_length_le (p : Char → Bool) (xs ys : List Char) (j : Char)
    (hj : p j = false) : ((xs ++ j :: ys).takeWhile p).length ≤ xs.length := by
  induction xs with
  | nil => simp [List.takeWhile_cons, hj]
  | cons x xs ih =>
    simp only [List.cons_append, List.takeWhile_cons]
    split
    · simp only [List.length_cons]
      omega
    · simp

theorem ccflag.strtoul_zero_leftover (ds rest : List Char) (j : Char)
    (hds : ∀ c ∈ ds, ccflag.isDigitOf 10 c = true) (hj : ccflag.isDigitOf 10 j = false)
    (hx : ds = [] → (j = 'x' ∨ j = 'X') →
      ∀ h, rest.head? = some h → ccflag.isDigitOf 16 h = false) :
    (ccflag.strtoul ('0' :: (ds ++ j :: rest))).2 ≤ 1 + ds.length := by
  have hws : ('0' :: (ds ++ j :: rest)).takeWhile ccflag.isspace = [] := by
    have hz : ccflag.isspace '0' = false := by decide
    simp [List.takeWhile_cons, hz]
  have hhex : (('0' :: (ds ++ j :: rest)).head? == some '0' &&
      (('0' :: (ds ++ j :: rest)).get? 1 == some 'x' ||
        ('0' :: (ds ++ j :: rest)).get? 1 == some 'X') &&
      (match ('0' :: (ds ++ j :: rest)).get? 2 with
       | some h => ccflag.isDigitOf 16 h
       | none => false)) = false := by
    cases ds with
    | nil =>
      by_cases hjx : j = 'x' ∨ j = 'X'
      · cases rest with
        | nil => simp
        | cons h r =>
          have := hx rfl hjx h rfl
          simp [this]
      · have h1 : j ≠ 'x' := fun e => hjx (Or.inl e)
        have h2 : j ≠ 'X' := fun e => hjx (Or.inr e)
        simp [h1, h2]
    | cons d1 ds1 =>
      have hd1 := hds d1 (List.mem_cons_self _ _)
      have h1 := ccflag.digit_ne hd1 'x' (by decide)
      have h2 := ccflag.digit_ne hd1 'X' (by decide)
      simp [h1, h2]
  have hoct : (('0' :: (ds ++ j :: rest)).takeWhile (ccflag.isDigitOf 8)).length
      ≤ 1 + ds.length := by
    have hz : ccflag.isDigitOf 8 '0' = true := by decide
    have := ccflag.takeWhile_length_le (ccflag.isDigitOf 8) ds rest j
      (ccflag.octal_is_decimal hj)
    simp only [List.takeWhile_cons, hz, if_true, List.length_cons]
    omega
  have hoct0 : ('0' :: (ds ++ j :: rest)).takeWhile (ccflag.isDigitOf 8) ≠ [] := by
    have hz : ccflag.isDigitOf 8 '0' = true := by decide
    simp [List.takeWhile_cons, hz]
  unfold ccflag.strtoul
  simp only [hws, List.length_nil, List.drop_zero]
  have e1 : (('0' :: (ds ++ j :: rest)).head? == some '-' ||
      ('0' :: (ds ++ j :: rest)).head? == some '+') = false := by simp
  simp only [e1, Bool.false_eq_true, if_false, List.drop_zero, hhex]
  have e0 : (('0' :: (ds ++ j :: rest)).head? == some '0') = true := by simp
  simp only [e0, if_true]
  split
  · simp
  · simp only [Nat.zero_add]
    exact hoct

theorem ccflag.convert_zero_leftover (neg : Bool) (ds rest : List Char) (j unit : Char)
    (hds : ∀ c ∈ ds, ccflag.isDigitOf 10 c = true) (hj : ccflag.isDigitOf 10 j = false)
    (hx : ds = [] → (j = 'x' ∨ j = 'X') →
      ∀ h, rest.head? = some h → ccflag.isDigitOf 16 h = false) :
    (ccflag.StrToU64.convert ((if neg then ['-'] else []) ++ '0' :: (ds ++ j :: rest))
      unit).ret = false := by
  have hs := ccflag.strtoul_zero_leftover ds rest j hds hj hx
  cases neg with
  | false =>
    have hf : std_string.find_first_not_of ('0' :: (ds ++ j :: rest)) '-' = some 0 := by
      simp [std_string.find_first_not_of, List.takeWhile_cons]
    simp only [Bool.false_eq_true, if_false, List.nil_append, ccflag.StrToU64.convert, hf]
    simp
    split
    · rename_i he
      exfalso
      omega
    · rfl
  | true =>
    have hf : std_string.find_first_not_of ('-' :: '0' :: (ds ++ j :: rest)) '-' = some 1 := by
      simp [std_string.find_first_not_of, List.takeWhile_cons]
    simp only [if_true, List.singleton_append, ccflag.StrToU64.convert, hf]
    simp
    split
    · rename_i he
      exfalso
      omega
    · rfl

theorem ccflag.convert_leftover (neg : Bool) (d j unit : Char) (ds rest : List Char)
    (hd : ccflag.isDigitOf 10 d = true) (hds : ∀ c ∈ ds, ccflag.isDigitOf 10 c = true)
    (hj : ccflag.isDigitOf 10 j = false)
    (hx : d = '0' → ds = [] → (j = 'x' ∨ j = 'X') →
      ∀ h, rest.head? = some h → ccflag.isDigitOf 16 h = false) :
    (ccflag.StrToU64.convert ((if neg then ['-'] else []) ++ d :: (ds ++ j :: rest))
      unit).ret = false := by
  by_cases hd0 : d = '0'
  · subst hd0
    exact ccflag.convert_zero_leftover neg ds rest j unit hds hj (hx rfl)
  · rw [ccflag.convert_general neg d ds (j :: rest) unit hd hd0 hds
      (by intro c hc; simp only [List.head?_cons, Option.some.injEq] at hc; rw [← hc]; exact hj)]
    simp

theorem ccflag.StrToU64_leftover (neg : Bool) (d j : Char) (ds rest : List Char)
    (hd : ccflag.isDigitOf 10 d = true)
    (hds : ∀ c ∈ ds, ccflag.isDigitOf 10 c = true)
    (hj : ccflag.isDigitOf 10 j = false)
    (hnu : rest = [] → (("KkMmGgTt").toList).contains j = false)
    (hx : ¬ (d = '0' ∧ ds = [] ∧ (j = 'x' ∨ j = 'X') ∧
      ∃ h, rest.head? = some h ∧ ccflag.isDigitOf 16 h = true)) :
    (ccflag.StrToU64 (ccflag.signText neg ++ d :: ds ++ j :: rest)).ret = false := by
  have hg : ∀ (r : List Char) (u : Char), (∀ h, r.head? = some h → rest.head? = some h) →
      (ccflag.StrToU64.convert ((if neg then ['-'] else []) ++ d :: (ds ++ j :: r)) u).ret
        = false := by
    intro r u hr
    apply ccflag.convert_leftover neg d j u ds r hd hds hj
    intro h1 h2 h3 h hh
    by_contra h4
    exact hx ⟨h1, h2, h3, h, hr h hh, by simpa using h4⟩
  unfold ccflag.signText
  rcases List.eq_nil_or_concat rest with h0 | ⟨L, x, h0⟩
  · have e1 : (if neg then ['-'] else []) ++ d :: ds ++ j :: rest =
        ((if neg then ['-'] else []) ++ d :: ds) ++ [j] := by rw [h0]
    rw [e1, ccflag.StrToU64_concat, hnu h0]
    simp only [Bool.false_eq_true, if_false]
    have e2 : ((if neg then ['-'] else []) ++ d :: ds) ++ [j] =
        (if neg then ['-'] else []) ++ d :: (ds ++ [j]) := by simp
    rw [e2]
    exact hg [] _ (by intro h hh; simp at hh)
  · rw [List.concat_eq_append] at h0
    have e1 : (if neg then ['-'] else []) ++ d :: ds ++ j :: rest =
        ((if neg then ['-'] else []) ++ d :: (ds ++ j :: L)) ++ [x] := by
      rw [h0]; simp
    rw [e1, ccflag.StrToU64_concat]
    split
    · apply hg L
      intro h hh
      rw [h0]
      cases L with
      | nil => simp at hh
      | cons y L => simpa using hh
    · have e2 : ((if neg then ['-'] else []) ++ d :: (ds ++ j :: L)) ++ [x] =
          (if neg then ['-'] else []) ++ d :: (ds ++ j :: (L ++ [x])) := by simp
      rw [e2]
      apply hg (L ++ [x])
      intro h hh
      rw [h0]
      exact hh

theorem ccflag.StrToU64_two_dashes (rest : List Char) :
    (ccflag.StrToU64 ('-' :: '-' :: rest)).ret = false := by
  unfold ccflag.StrToU64
  split
  · rename_i hu
    cases rest with
    | nil => exact absurd hu (by decide)
    | cons c r =>
      have : ('-' :: '-' :: c :: r).dropLast = '-' :: '-' :: (c :: r).dropLast := by
        simp [List.dropLast]
      rw [this]
      exact ccflag.convert_two_dashes _ _
  · exact ccflag.convert_two_dashes _ _

/-! ## `Flagger::SetFlagValue` -/

theorem ccflag.StrToBool_failure (v : List Char) (err : String)
    (h : (ccflag.StrToBool v err).ret = false) : (ccflag.StrToBool v err).p = none := by
  unfold ccflag.StrToBool at h ⊢
  split
  · rename_i h1
    rw [if_pos h1] at h
    exact absurd h (by simp)
  · rename_i h1
    rw [if_neg h1] at h
    split
    · rename_i h2
      rw [if_pos h2] at h
      exact absurd h (by simp)
    · rfl

theorem ccflag.StrToU32_failure (v : List Char)
    (h : (ccflag.StrToU32 v).ret = false) : (ccflag.StrToU32 v).p = none := by
  unfold ccflag.StrToU32 at h ⊢
  generalize ccflag.StrToU64 v = r at h ⊢
  obtain ⟨ret, p, negative, err⟩ := r
  cases ret with
  | false => rfl
  | true =>
    cases p with
    | none => rfl
    | some u =>
      cases negative with
      | none => rfl
      | some neg =>
        simp only at h ⊢
        by_cases hov : (if neg = true then (2 ^ 64 - u) % 2 ^ 64 else u) > 2 ^ 32 - 1
        · rw [if_pos hov]
        · rw [if_neg hov] at h
          exact absurd h (by simp)

theorem ccflag.stored_failure {α : Type} (m : ccflag.Flagger) (flg : List Char)
    (mk : α → ccflag.FlagVar) (r : ccflag.Conv α) (h : r.ret = false → r.p = none)
    (hr : (m.stored flg mk r).1 = false) : (m.stored flg mk r).2.1 = m := by
  unfold ccflag.Flagger.stored at hr ⊢
  cases hp : r.p with
  | none => rfl
  | some x =>
    rw [hp] at hr
    simp only at hr
    rw [h hr] at hp
    exact absurd hp (by simp)

/-- For a flag of any type but `double`, a failing `SetFlagValue` leaves every flag
variable as it was. -/
theorem ccflag.SetFlagValue_failure_keeps (strtod : List Char → ccflag.double × Nat)
    (m : ccflag.Flagger) (flg val : List Char) (err : String)
    (ht : ∀ fi, m.find flg = some fi → fi.type ≠ ccflag.FlagType.TYPE_double)
    (h : (m.SetFlagValue strtod flg val err).1 = false) :
    (m.SetFlagValue strtod flg val err).2.1 = m := by
  unfold ccflag.Flagger.SetFlagValue at h ⊢
  cases hf : m.find flg with
  | none => rfl
  | some fi =>
    rw [hf] at h
    simp only at h ⊢
    have htd := ht fi hf
    cases hty : fi.type with
    | TYPE_string =>
      rw [hty] at h
      exact absurd h (by simp)
    | TYPE_bool =>
      rw [hty] at h
      exact ccflag.stored_failure _ _ _ _ (ccflag.StrToBool_failure val err) h
    | TYPE_int32 =>
      rw [hty] at h
      exact ccflag.stored_failure _ _ _ _ (ccflag.StrToU32_failure val) h
    | TYPE_uint32 =>
      rw [hty] at h
      exact ccflag.stored_failure _ _ _ _ (ccflag.StrToU32_failure val) h
    | TYPE_int64 =>
      rw [hty] at h
      exact ccflag.stored_failure _ _ _ _ (fun h0 => (ccflag.StrToU64_failure val h0).1) h
    | TYPE_uint64 =>
      rw [hty] at h
      exact ccflag.stored_failure _ _ _ _ (fun h0 => (ccflag.StrToU64_failure val h0).1) h
    | TYPE_double => exact absurd hty htd

/-- C25: with a `double` flag `d` that holds 2.5, `SetFlagValue("d", "1.5abc")`
returns false with the error text "invalid value for double", and the flag holds
1.5 afterwards; with the value `"abc"` it returns false and the flag holds 0. -/
theorem set_flag_value_double_not_atomic :
    ccflag.Flagger.SetFlagValue ccflag.strtod_plain
        ⟨[(("d").toList, ccflag.FlagVar.double ⟨25, 1⟩)]⟩ ("d").toList ("1.5abc").toList "" =
      (false, ⟨[(("d").toList, ccflag.FlagVar.double ⟨15, 1⟩)]⟩, "invalid value for double") ∧
    ccflag.Flagger.SetFlagValue ccflag.strtod_plain
        ⟨[(("d").toList, ccflag.FlagVar.double ⟨25, 1⟩)]⟩ ("d").toList ("abc").toList "" =
      (false, ⟨[(("d").toList, ccflag.FlagVar.double ⟨0, 0⟩)]⟩, "invalid value for double") := by
  decide

/-! ## `Flagger::SetBoolFlags` -/

/-- C26: with a `bool` flag `a` and an `int32` flag `i`, `SetBoolFlags("ai")` returns
true and has stored `true` into both variables, the `int32` one included; the call
`SetBoolFlags("i")` fails with "value not set for non-bool flag" and writes
nothing. -/
theorem set_bool_flags_combined_non_bool :
    ccflag.Flagger.SetBoolFlags
        ⟨[(("a").toList, ccflag.FlagVar.bool false), (("i").toList, ccflag.FlagVar.int32 0)]⟩
        ("ai").toList "" =
      (true, ⟨[(("a").toList, ccflag.FlagVar.bool true),
        (("i").toList, ccflag.FlagVar.overwritten (ccflag.FlagVar.int32 0))]⟩, "") ∧
    ccflag.Flagger.SetBoolFlags
        ⟨[(("a").toList, ccflag.FlagVar.bool false), (("i").toList, ccflag.FlagVar.int32 0)]⟩
        ("i").toList "" =
      (false, ⟨[(("a").toList, ccflag.FlagVar.bool false),
        (("i").toList, ccflag.FlagVar.int32 0)]⟩, "value not set for non-bool flag") := by
  decide

/-! ## `StrToU32` -/

/-- C27: for an `int32` flag `n` the value `2147483648` (2^31) is accepted and the flag
then holds `-2147483648`; for a `uint32` flag `u` the value `-1` is accepted and
the flag then holds `4294967295`; the value `16777216T` (2^64) is accepted and
stores 0. -/
theorem set_flag_value_int32_wraps :
    ccflag.Flagger.SetFlagValue ccflag.strtod_plain
        ⟨[(("n").toList, ccflag.FlagVar.int32 0)]⟩ ("n").toList ("2147483648").toList "" =
      (true, ⟨[(("n").toList, ccflag.FlagVar.int32 2147483648)]⟩, "") ∧
    (ccflag.FlagVar.int32 2147483648).int32Value = some (-2147483648) ∧
    ccflag.Flagger.SetFlagValue ccflag.strtod_plain
        ⟨[(("u").toList, ccflag.FlagVar.uint32 0)]⟩ ("u").toList ("-1").toList "" =
      (true, ⟨[(("u").toList, ccflag.FlagVar.uint32 4294967295)]⟩, "") ∧
    ccflag.Flagger.SetFlagValue ccflag.strtod_plain
        ⟨[(("n").toList, ccflag.FlagVar.int32 7)]⟩ ("n").toList ("16777216T").toList "" =
      (true, ⟨[(("n").toList, ccflag.FlagVar.int32 0)]⟩, "") := by
  refine ⟨by decide, ?_, by decide, by decide⟩
  simp only [ccflag.FlagVar.int32Value, toInt32]
  norm_num

/-! ## `StrToU64` on decimal values -/

/-- C28, the claim as stated fails: the decimal digit string `010` denotes ten, but
`StrToU64` reads it as octal and stores 8; for the digit string of `2^64 + 1` it
stores `2^64 - 1`, not the number modulo `2^64` (which is 1); and `0x10`, the
digit `0` with the characters `x10` left over, does not fail: it is read as a
hexadecimal number and stores 16. -/
theorem str_to_u64_counterexample :
    (ccflag.StrToU64 ("010").toList).ret = true ∧
    (ccflag.StrToU64 ("010").toList).p = some 8 ∧
    ccflag.digitsValue 10 ("010").toList = 10 ∧
    (ccflag.StrToU64 ("18446744073709551617").toList).p = some (2 ^ 64 - 1) ∧
    ccflag.digitsValue 10 ("18446744073709551617").toList % 2 ^ 64 = 1 ∧
    (ccflag.StrToU64 ("0x10").toList).ret = true ∧
    (ccflag.StrToU64 ("0x10").toList).p = some 16 := by
  decide

/-- C28 (amended): for every value `[-]digits[unit]` whose digit string is non-empty,
decimal, does not begin with `0` and denotes `n < 2^64`, and whose unit is none,
K/k, M/m, G/g or T/t with `e` = 0, 10, 20, 30, 40: `StrToU64` succeeds, stores
`n * 2^e` modulo `2^64` (negated modulo `2^64` when the single leading `'-'` is there)
and clears the error text; the digit string `0` stores 0 the same way. Whenever
`StrToU64` fails it stores nothing and the error text is "invalid value for
integer"; it fails for a value with two or more leading `'-'`, for a value without
any decimal digit, and for `[-]digits` (any decimal digit string) followed by a
character that is not a decimal digit and is not just a final unit, unless the
digit string is the single `0` followed by `x` or `X` and a hexadecimal digit. -/
theorem str_to_u64_decimal_with_unit :
    (∀ (neg : Bool) (d : Char) (ds unit : List Char) (e : Nat),
      ccflag.isDigitOf 10 d = true → d ≠ '0' → (∀ c ∈ ds, ccflag.isDigitOf 10 c = true) →
      (unit, e) ∈ ccflag.unitExponents → ccflag.digitsValue 10 (d :: ds) < 2 ^ 64 →
      (ccflag.StrToU64 (ccflag.signText neg ++ d :: ds ++ unit)).ret = true ∧
      (ccflag.StrToU64 (ccflag.signText neg ++ d :: ds ++ unit)).p =
        some (if neg then (2 ^ 64 - ccflag.digitsValue 10 (d :: ds) * 2 ^ e % 2 ^ 64) % 2 ^ 64
          else ccflag.digitsValue 10 (d :: ds) * 2 ^ e % 2 ^ 64) ∧
      (ccflag.StrToU64 (ccflag.signText neg ++ d :: ds ++ unit)).err = "") ∧
    (∀ (neg : Bool), ∀ ue ∈ ccflag.unitExponents,
      (ccflag.StrToU64 (ccflag.signText neg ++ ['0'] ++ ue.1)).ret = true ∧
      (ccflag.StrToU64 (ccflag.signText neg ++ ['0'] ++ ue.1)).p = some 0 ∧
      (ccflag.StrToU64 (ccflag.signText neg ++ ['0'] ++ ue.1)).err = "") ∧
    (∀ value : List Char, (ccflag.StrToU64 value).ret = false →
      (ccflag.StrToU64 value).p = none ∧
      (ccflag.StrToU64 value).err = "invalid value for integer") ∧
    (∀ rest : List Char, (ccflag.StrToU64 ('-' :: '-' :: rest)).ret = false) ∧
    (∀ value : List Char, (∀ c ∈ value, ccflag.isDigitOf 10 c = false) →
      (ccflag.StrToU64 value).ret = false) ∧
    (∀ (neg : Bool) (d j : Char) (ds rest : List Char),
      ccflag.isDigitOf 10 d = true → (∀ c ∈ ds, ccflag.isDigitOf 10 c = true) →
      ccflag.isDigitOf 10 j = false →
      (rest = [] → (("KkMmGgTt").toList).contains j = false) →
      ¬ (d = '0' ∧ ds = [] ∧ (j = 'x' ∨ j = 'X') ∧
        ∃ h, rest.head? = some h ∧ ccflag.isDigitOf 16 h = true) →
      (ccflag.StrToU64 (ccflag.signText neg ++ d :: ds ++ j :: rest)).ret = false) := by
  refine ⟨?_, by decide, ccflag.StrToU64_failure, ccflag.StrToU64_two_dashes,
    ccflag.StrToU64_no_digits, ccflag.StrToU64_leftover⟩
  intro neg d ds unit e hd hd0 hds hue hn
  rw [ccflag.StrToU64_decimal neg d ds unit e hd hd0 hds hue hn]
  exact ⟨rfl, rfl, rfl⟩

theorem str_to_u64_decimal_with_unit_witness :
    (ccflag.StrToU64 ("-5K").toList).ret = true ∧
    (ccflag.StrToU64 ("-5K").toList).p = some (2 ^ 64 - 5120) ∧
    (ccflag.StrToU64 ("-5K").toList).err = "" ∧
    (ccflag.StrToU64 ("12ab").toList).ret = false ∧
    (ccflag.StrToU64 ("012z").toList).ret = false ∧
    (ccflag.StrToU64 ("0xK").toList).ret = false := by
  have h1 := str_to_u64_decimal_with_unit.1 true '5' [] ['K'] 10 (by decide) (by decide)
    (by simp) (by decide) (by decide)
  have h2 := str_to_u64_decimal_with_unit.2.2.2.2.2 false '1' 'a' ['2'] ['b'] (by decide)
    (by decide) (by decide) (by simp) (by simp)
  have h3 := str_to_u64_decimal_with_unit.2.2.2.2.2 false '0' 'z' ['1', '2'] [] (by decide)
    (by decide) (by decide) (by intro _; decide) (by simp)
  have h4 := str_to_u64_decimal_with_unit.2.2.2.2.2 false '0' 'x' [] ['K'] (by decide)
    (by simp) (by decide) (by simp) (by decide)
  exact ⟨h1.1, h1.2.1, h1.2.2, h2, h3, h4⟩

/-! ## `shared_ptr`: copying an empty handle -/

/-- C29: a default-constructed handle has `get() == 0`, and copy-constructing from it,
or assigning it to a handle that holds an object, has no defined result: `Copy()`
dereferences the null `_obj`. The same holds for a handle after `reset()`. From a
handle that holds an object the copy completes and both `get()` agree. -/
theorem shared_ptr_copy_of_empty :
    (shared_ptr.new 0).1.get (shared_ptr.new 0).2 = some 0 ∧
    (shared_ptr.new 0).1.copyCtor (shared_ptr.new 0).2 = none ∧
    (shared_ptr.new 7).1.assign (shared_ptr.new 0).1 (shared_ptr.new 7).2 = none ∧
    (World.init 7).run [HandleOp.reset 0, HandleOp.copyConstruct 0] = none ∧
    ((World.init 7).run [HandleOp.copyConstruct 0]).map
        (fun w => (w.handles.map (fun h => h.map (fun x => x.get w.mem)))) =
      some [some (some 7), some (some 7)] := by
  decide

end Common
